import Mathlib

set_option linter.unusedSectionVars false

/-!
A shallow embedding of `Common/Hashmaps.h`.

This file models the two open-addressing hash tables of the repository,
`DenseHashMap<Key, Value>` and `PrehashMap<Value>`, as executable Lean
functions, and proves (or refutes) the specification claims about them.

Modelling conventions:

* C++ machine integers (`uint32_t`, `int`) are modelled as `Nat`.  The only
  arithmetic the tables perform on them is `& mask` (with `mask = capacity_-1`),
  `+ 1`, `* 2`, `/ 2` and comparisons, none of which can overflow for the
  capacities and counts reachable here, so no explicit `% 2^32` is inserted.
  `x & mask` is modelled as `x &&& mask`.
* The template hash function `HashKey<K>` (an XXH32 call over the key bytes)
  is modelled as an arbitrary function parameter `hashK : Key → Nat`;
  `KeyEquals` (a `memcmp` over the fixed-size key bytes) is modelled as
  decidable equality on `Key`.
* `Value` is a pointer type in the source ("Enforces that value are
  pointers").  It is modelled as an arbitrary type together with a
  distinguished element `nullv : Value` standing for `nullptr`, which is what
  `Get` returns when no entry is found.
* The probe loops are `while (true)` / `while (state != FREE)` loops that
  advance `p = (p + 1) & mask` and hit `DebugBreak()` when `p` wraps to the
  starting position.  After such a wrap the source either loops forever or
  raises a debug trap; the model gives each loop `capacity_` steps of fuel
  (enough to visit every slot of a power-of-two table) and reports the wrap
  as an explicit error outcome (`GetResult.wrapBreak`, or `none`).
* `Insert` calls `Grow` which re-inserts old entries by calling `Insert`
  again, an unbounded recursion in the source.  The model indexes `Insert`
  and `Grow` by an explicit fuel bounding the grow-nesting depth and returns
  `none` when the fuel runs out; execution relations quantify the fuel
  existentially, so every terminating run of the source is represented.
-/

/-- `BucketState` from `Hashmaps.h`: the tag of each slot. -/
inductive BucketState where
  | FREE
  | TAKEN
  | REMOVED
deriving DecidableEq

instance : Inhabited BucketState := ⟨BucketState.FREE⟩

/-- Outcome of a `Get` call: `ok v` is a normal return (`v` is the returned
pointer, the null pointer when no entry was found); `wrapBreak` is the probe
wrapping around the whole table, where the source hits `DebugBreak()`. -/
inductive GetResult (Value : Type) where
  | ok (v : Value)
  | wrapBreak
deriving DecidableEq

/-- Outcome of the probe loop inside `Insert`: the key was already present
(`dup`), or a non-TAKEN slot at index `p` was chosen (`place p`). -/
inductive InsertSpot where
  | dup
  | place (p : Nat)
deriving DecidableEq

/-- Outcome of the probe loop inside `Remove`: the matching TAKEN slot at
index `p` was found (`hit p`), or a FREE slot ended the search (`miss`). -/
inductive RemoveSpot where
  | hit (p : Nat)
  | miss
deriving DecidableEq

/-- `DenseHashMap::Pair`: one slot of the table. -/
structure DenseHashMap.Pair (Key Value : Type) where
  state : BucketState
  key : Key
  value : Value
deriving DecidableEq

/-- `DenseHashMap`: the slot array `map`, `capacity_` and `count_`. -/
structure DenseHashMap (Key Value : Type) where
  map : List (DenseHashMap.Pair Key Value)
  capacity_ : Nat
  count_ : Nat
deriving DecidableEq

variable {Key Value : Type} [DecidableEq Key] [Inhabited Key] [Inhabited Value]

/-- A value-initialized slot, as produced by `map.resize(...)`:
the state is `FREE` (the first enumerator), key and value are defaulted. -/
def DenseHashMap.emptyPair : DenseHashMap.Pair Key Value :=
  ⟨BucketState.FREE, default, default⟩

/-- `map[p]` (all accesses in the source are in bounds; out-of-range reads
return the defaulted slot). -/
def DenseHashMap.slot (m : List (DenseHashMap.Pair Key Value)) (p : Nat) :
    DenseHashMap.Pair Key Value :=
  m.getD p DenseHashMap.emptyPair

/-- The constructor `DenseHashMap(int initialCapacity)`. -/
def DenseHashMap.init (initialCapacity : Nat) : DenseHashMap Key Value :=
  ⟨List.replicate initialCapacity DenseHashMap.emptyPair, initialCapacity, 0⟩

/-- The `while (true)` probe loop of `DenseHashMap::Get`.  The slot array is
threaded through and returned so that the model records what the loop does to
the table state (nothing).  Fuel `capacity_` suffices to visit every slot of
a power-of-two table before the wrap test `p == pos` fires. -/
def DenseHashMap.GetLoop (nullv : Value) (key : Key) (mask pos : Nat)
    (m : List (DenseHashMap.Pair Key Value)) :
    Nat → Nat → GetResult Value × List (DenseHashMap.Pair Key Value)
  | 0, _ => (GetResult.wrapBreak, m)
  | fuel+1, p =>
    if (DenseHashMap.slot m p).state = BucketState.TAKEN ∧
        key = (DenseHashMap.slot m p).key then
      (GetResult.ok (DenseHashMap.slot m p).value, m)
    else if (DenseHashMap.slot m p).state = BucketState.FREE then
      (GetResult.ok nullv, m)
    else
      let p2 := (p + 1) &&& mask
      if p2 = pos then (GetResult.wrapBreak, m)
      else DenseHashMap.GetLoop nullv key mask pos m fuel p2

/-- `DenseHashMap::Get`.  Returns the result together with the table state
after the call (`Get` is a non-const method in the source). -/
def DenseHashMap.Get (hashK : Key → Nat) (nullv : Value)
    (s : DenseHashMap Key Value) (key : Key) :
    GetResult Value × DenseHashMap Key Value :=
  let mask := s.capacity_ - 1
  let pos := hashK key &&& mask
  let r := DenseHashMap.GetLoop nullv key mask pos s.map s.capacity_ pos
  (r.1, { s with map := r.2 })

/-- The probe loop of `DenseHashMap::Insert`: keep walking over TAKEN slots
(reporting `dup` on a bit-equal key), stop at the first non-TAKEN slot. -/
def DenseHashMap.InsertLoop (key : Key) (mask pos : Nat)
    (m : List (DenseHashMap.Pair Key Value)) : Nat → Nat → Option InsertSpot
  | 0, _ => none
  | fuel+1, p =>
    if (DenseHashMap.slot m p).state = BucketState.TAKEN then
      if key = (DenseHashMap.slot m p).key then some InsertSpot.dup
      else
        let p2 := (p + 1) &&& mask
        if p2 = pos then none
        else DenseHashMap.InsertLoop key mask pos m fuel p2
    else some (InsertSpot.place p)

/-- The body of `DenseHashMap::Insert` after the load-factor check: probe
from the key's home slot, reject a duplicate, otherwise occupy the first
non-TAKEN slot and bump `count_`. -/
def DenseHashMap.InsertCore (hashK : Key → Nat) (s : DenseHashMap Key Value)
    (key : Key) (value : Value) : Option (Bool × DenseHashMap Key Value) :=
  let mask := s.capacity_ - 1
  let pos := hashK key &&& mask
  (DenseHashMap.InsertLoop key mask pos s.map s.capacity_ pos).map
    fun spot =>
      match spot with
      | InsertSpot.dup => (false, s)
      | InsertSpot.place p =>
        (true, { s with
                  map := s.map.set p ⟨BucketState.TAKEN, key, value⟩,
                  count_ := s.count_ + 1 })

/-- The re-insertion loop of `DenseHashMap::Grow`, parametrized by the
(fuel-indexed) `Insert` it calls back into, so that `Insert` can be defined
by structural recursion on its fuel. -/
def DenseHashMap.Reinsert
    (ins : DenseHashMap Key Value → Key → Value →
      Option (Bool × DenseHashMap Key Value)) :
    List (DenseHashMap.Pair Key Value) → DenseHashMap Key Value →
    Option (DenseHashMap Key Value)
  | [], acc => some acc
  | pr :: rest, acc =>
    if pr.state = BucketState.TAKEN then
      (ins acc pr.key pr.value).bind fun bs =>
        DenseHashMap.Reinsert ins rest bs.2
    else
      DenseHashMap.Reinsert ins rest acc

/-- `DenseHashMap::Insert`, with explicit fuel for the `Insert → Grow →
Insert` recursion.  Returns `none` when the fuel is exhausted (or a probe
wraps), otherwise `some (b, s')` where `b` is the C++ return value.
The grow branch is the inlined body of `DenseHashMap.Grow` below. -/
def DenseHashMap.Insert (hashK : Key → Nat) :
    Nat → DenseHashMap Key Value → Key → Value →
    Option (Bool × DenseHashMap Key Value)
  | 0, _, _, _ => none
  | fuel+1, s, key, value =>
    (if s.count_ > s.capacity_ / 2 then
      DenseHashMap.Reinsert
        (fun a k v => DenseHashMap.Insert hashK fuel a k v) s.map
        ⟨List.replicate (s.capacity_ * 2) DenseHashMap.emptyPair,
          s.capacity_ * 2, 0⟩
     else some s).bind fun s1 =>
      DenseHashMap.InsertCore hashK s1 key value

/-- `DenseHashMap::Grow`: double the capacity, reset `count_` to zero and
re-insert every TAKEN entry of the old array. -/
def DenseHashMap.Grow (hashK : Key → Nat) (fuel : Nat)
    (s : DenseHashMap Key Value) : Option (DenseHashMap Key Value) :=
  DenseHashMap.Reinsert
    (fun a k v => DenseHashMap.Insert hashK fuel a k v) s.map
    ⟨List.replicate (s.capacity_ * 2) DenseHashMap.emptyPair,
      s.capacity_ * 2, 0⟩

/-- `Insert` at positive fuel is the load-factor check, a possible `Grow`,
then the probe-and-write body. -/
theorem denseInsert_succ (hashK : Key → Nat) (fuel : Nat)
    (s : DenseHashMap Key Value) (key : Key) (value : Value) :
    DenseHashMap.Insert hashK (fuel+1) s key value =
    (if s.count_ > s.capacity_ / 2 then DenseHashMap.Grow hashK fuel s
     else some s).bind fun s1 =>
      DenseHashMap.InsertCore hashK s1 key value := rfl

/-- The probe loop of `DenseHashMap::Remove`: walk over non-FREE slots until
the bit-equal TAKEN slot (`hit`) or a FREE slot (`miss`) is found. -/
def DenseHashMap.RemoveLoop (key : Key) (mask pos : Nat)
    (m : List (DenseHashMap.Pair Key Value)) : Nat → Nat → Option RemoveSpot
  | 0, _ => none
  | fuel+1, p =>
    if (DenseHashMap.slot m p).state ≠ BucketState.FREE then
      if (DenseHashMap.slot m p).state = BucketState.TAKEN ∧
          key = (DenseHashMap.slot m p).key then
        some (RemoveSpot.hit p)
      else
        let p2 := (p + 1) &&& mask
        if p2 = pos then none
        else DenseHashMap.RemoveLoop key mask pos m fuel p2
    else some RemoveSpot.miss

/-- `DenseHashMap::Remove`: mark the matching slot REMOVED (keeping its key
and value bytes) and decrement `count_`; a missing key is a silent no-op.
`none` models the full-wrap `DebugBreak()`. -/
def DenseHashMap.Remove (hashK : Key → Nat) (s : DenseHashMap Key Value)
    (key : Key) : Option (DenseHashMap Key Value) :=
  let mask := s.capacity_ - 1
  let pos := hashK key &&& mask
  (DenseHashMap.RemoveLoop key mask pos s.map s.capacity_ pos).map fun spot =>
    match spot with
    | RemoveSpot.hit p =>
      { s with
          map := s.map.set p
            { DenseHashMap.slot s.map p with state := BucketState.REMOVED },
          count_ := s.count_ - 1 }
    | RemoveSpot.miss => s

/-- `DenseHashMap::size`. -/
def DenseHashMap.size (s : DenseHashMap Key Value) : Nat :=
  s.count_

/-- `DenseHashMap::Clear`: `map.clear(); map.resize(capacity_);`.
Note that the source does not touch `count_` here. -/
def DenseHashMap.Clear (s : DenseHashMap Key Value) : DenseHashMap Key Value :=
  { s with map := List.replicate s.capacity_ DenseHashMap.emptyPair }

/-! ## `PrehashMap` -/

/-- `PrehashMap::Pair`: one slot; the key is the caller-supplied 32-bit hash. -/
structure PrehashMap.Pair (Value : Type) where
  state : BucketState
  hash : Nat
  value : Value
deriving DecidableEq

/-- `PrehashMap`: the slot array `map`, `capacity_` and `count_`. -/
structure PrehashMap (Value : Type) where
  map : List (PrehashMap.Pair Value)
  capacity_ : Nat
  count_ : Nat
deriving DecidableEq

/-- A value-initialized `PrehashMap` slot. -/
def PrehashMap.emptyPair : PrehashMap.Pair Value :=
  ⟨BucketState.FREE, 0, default⟩

/-- `map[p]` for `PrehashMap`. -/
def PrehashMap.slot (m : List (PrehashMap.Pair Value)) (p : Nat) :
    PrehashMap.Pair Value :=
  m.getD p PrehashMap.emptyPair

/-- The constructor `PrehashMap(int initialCapacity)`. -/
def PrehashMap.init (initialCapacity : Nat) : PrehashMap Value :=
  ⟨List.replicate initialCapacity PrehashMap.emptyPair, initialCapacity, 0⟩

/-- The probe loop of `PrehashMap::Get`. -/
def PrehashMap.GetLoop (nullv : Value) (hash : Nat) (mask pos : Nat)
    (m : List (PrehashMap.Pair Value)) :
    Nat → Nat → GetResult Value × List (PrehashMap.Pair Value)
  | 0, _ => (GetResult.wrapBreak, m)
  | fuel+1, p =>
    if (PrehashMap.slot m p).state = BucketState.TAKEN ∧
        hash = (PrehashMap.slot m p).hash then
      (GetResult.ok (PrehashMap.slot m p).value, m)
    else if (PrehashMap.slot m p).state = BucketState.FREE then
      (GetResult.ok nullv, m)
    else
      let p2 := (p + 1) &&& mask
      if p2 = pos then (GetResult.wrapBreak, m)
      else PrehashMap.GetLoop nullv hash mask pos m fuel p2

/-- `PrehashMap::Get`. -/
def PrehashMap.Get (nullv : Value) (s : PrehashMap Value) (hash : Nat) :
    GetResult Value × PrehashMap Value :=
  let mask := s.capacity_ - 1
  let pos := hash &&& mask
  let r := PrehashMap.GetLoop nullv hash mask pos s.map s.capacity_ pos
  (r.1, { s with map := r.2 })

/-- The probe loop of `PrehashMap::Insert`: a `while (state != FREE)` loop
that reports `dup` on an equal TAKEN hash, `break`s on a REMOVED slot, and
otherwise exits at the first FREE slot. -/
def PrehashMap.InsertLoop (hash : Nat) (mask pos : Nat)
    (m : List (PrehashMap.Pair Value)) : Nat → Nat → Option InsertSpot
  | 0, _ => none
  | fuel+1, p =>
    if (PrehashMap.slot m p).state ≠ BucketState.FREE then
      if (PrehashMap.slot m p).state = BucketState.TAKEN then
        if hash = (PrehashMap.slot m p).hash then some InsertSpot.dup
        else
          let p2 := (p + 1) &&& mask
          if p2 = pos then none
          else PrehashMap.InsertLoop hash mask pos m fuel p2
      else some (InsertSpot.place p)
    else some (InsertSpot.place p)

/-- The body of `PrehashMap::Insert` after the load-factor check. -/
def PrehashMap.InsertCore (s : PrehashMap Value) (hash : Nat)
    (value : Value) : Option (Bool × PrehashMap Value) :=
  let mask := s.capacity_ - 1
  let pos := hash &&& mask
  (PrehashMap.InsertLoop hash mask pos s.map s.capacity_ pos).map
    fun spot =>
      match spot with
      | InsertSpot.dup => (false, s)
      | InsertSpot.place p =>
        (true, { s with
                  map := s.map.set p ⟨BucketState.TAKEN, hash, value⟩,
                  count_ := s.count_ + 1 })

/-- The re-insertion loop of `PrehashMap::Grow`, parametrized by the
(fuel-indexed) `Insert` it calls back into. -/
def PrehashMap.Reinsert
    (ins : PrehashMap Value → Nat → Value → Option (Bool × PrehashMap Value)) :
    List (PrehashMap.Pair Value) → PrehashMap Value →
    Option (PrehashMap Value)
  | [], acc => some acc
  | pr :: rest, acc =>
    if pr.state = BucketState.TAKEN then
      (ins acc pr.hash pr.value).bind fun bs =>
        PrehashMap.Reinsert ins rest bs.2
    else
      PrehashMap.Reinsert ins rest acc

/-- `PrehashMap::Insert`, fueled like `DenseHashMap.Insert`.
The grow branch is the inlined body of `PrehashMap.Grow` below. -/
def PrehashMap.Insert :
    Nat → PrehashMap Value → Nat → Value → Option (Bool × PrehashMap Value)
  | 0, _, _, _ => none
  | fuel+1, s, hash, value =>
    (if s.count_ > s.capacity_ / 2 then
      PrehashMap.Reinsert (fun a h v => PrehashMap.Insert fuel a h v) s.map
        ⟨List.replicate (s.capacity_ * 2) PrehashMap.emptyPair,
          s.capacity_ * 2, s.count_⟩
     else some s).bind fun s1 =>
      PrehashMap.InsertCore s1 hash value

/-- `PrehashMap::Grow`: double the capacity and re-insert every TAKEN entry.
Unlike `DenseHashMap::Grow`, the source does *not* reset `count_` here, so
each re-inserted entry is counted a second time. -/
def PrehashMap.Grow (fuel : Nat) (s : PrehashMap Value) :
    Option (PrehashMap Value) :=
  PrehashMap.Reinsert (fun a h v => PrehashMap.Insert fuel a h v) s.map
    ⟨List.replicate (s.capacity_ * 2) PrehashMap.emptyPair,
      s.capacity_ * 2, s.count_⟩

/-- `PrehashMap.Insert` at positive fuel is the load-factor check, a
possible `Grow`, then the probe-and-write body. -/
theorem prehashInsert_succ (fuel : Nat) (s : PrehashMap Value) (hash : Nat)
    (value : Value) :
    PrehashMap.Insert (fuel+1) s hash value =
    (if s.count_ > s.capacity_ / 2 then PrehashMap.Grow fuel s
     else some s).bind fun s1 =>
      PrehashMap.InsertCore s1 hash value := rfl

/-- The probe loop of `PrehashMap::Remove`. -/
def PrehashMap.RemoveLoop (hash : Nat) (mask pos : Nat)
    (m : List (PrehashMap.Pair Value)) : Nat → Nat → Option RemoveSpot
  | 0, _ => none
  | fuel+1, p =>
    if (PrehashMap.slot m p).state ≠ BucketState.FREE then
      if (PrehashMap.slot m p).state = BucketState.TAKEN ∧
          hash = (PrehashMap.slot m p).hash then
        some (RemoveSpot.hit p)
      else
        let p2 := (p + 1) &&& mask
        if p2 = pos then none
        else PrehashMap.RemoveLoop hash mask pos m fuel p2
    else some RemoveSpot.miss

/-- `PrehashMap::Remove`. -/
def PrehashMap.Remove (s : PrehashMap Value) (hash : Nat) :
    Option (PrehashMap Value) :=
  let mask := s.capacity_ - 1
  let pos := hash &&& mask
  (PrehashMap.RemoveLoop hash mask pos s.map s.capacity_ pos).map fun spot =>
    match spot with
    | RemoveSpot.hit p =>
      { s with
          map := s.map.set p
            { PrehashMap.slot s.map p with state := BucketState.REMOVED },
          count_ := s.count_ - 1 }
    | RemoveSpot.miss => s

/-- `PrehashMap::size`. -/
def PrehashMap.size (s : PrehashMap Value) : Nat :=
  s.count_

/-- `PrehashMap::Clear` (the source does not touch `count_` here either). -/
def PrehashMap.Clear (s : PrehashMap Value) : PrehashMap Value :=
  { s with map := List.replicate s.capacity_ PrehashMap.emptyPair }

/-! ## Operation sequences -/

/-- A mutating operation on a `DenseHashMap` (insert or remove). -/
inductive DOp (Key Value : Type) where
  | ins (key : Key) (value : Value)
  | rem (key : Key)
deriving DecidableEq

/-- A mutating operation on a `PrehashMap`. -/
inductive POp (Value : Type) where
  | ins (hash : Nat) (value : Value)
  | rem (hash : Nat)
deriving DecidableEq

/-- Run a list of operations on a `DenseHashMap` with a fixed insert fuel. -/
def runD (hashK : Key → Nat) (fuel : Nat) :
    List (DOp Key Value) → DenseHashMap Key Value →
    Option (DenseHashMap Key Value)
  | [], s => some s
  | DOp.ins k v :: ops, s =>
    (DenseHashMap.Insert hashK fuel s k v).bind fun bs =>
      runD hashK fuel ops bs.2
  | DOp.rem k :: ops, s =>
    (DenseHashMap.Remove hashK s k).bind fun s1 => runD hashK fuel ops s1

/-- Run a list of operations on a `PrehashMap` with a fixed insert fuel. -/
def runP (fuel : Nat) :
    List (POp Value) → PrehashMap Value → Option (PrehashMap Value)
  | [], s => some s
  | POp.ins h v :: ops, s =>
    (PrehashMap.Insert fuel s h v).bind fun bs => runP fuel ops bs.2
  | POp.rem h :: ops, s =>
    (PrehashMap.Remove s h).bind fun s1 => runP fuel ops s1

/-! ## Frame property of `Get` -/

/-- The `Get` probe loop of `DenseHashMap` returns the slot array unchanged. -/
theorem denseGetLoop_map_eq (nullv : Value) (key : Key) (mask pos : Nat)
    (m : List (DenseHashMap.Pair Key Value)) :
    ∀ fuel p, (DenseHashMap.GetLoop nullv key mask pos m fuel p).2 = m := by
  intro fuel
  induction fuel with
  | zero => intro p; rfl
  | succ n ih =>
    intro p
    simp only [DenseHashMap.GetLoop]
    split
    · rfl
    · split
      · rfl
      · split
        · rfl
        · exact ih _

/-- The `Get` probe loop of `PrehashMap` returns the slot array unchanged. -/
theorem prehashGetLoop_map_eq (nullv : Value) (hash mask pos : Nat)
    (m : List (PrehashMap.Pair Value)) :
    ∀ fuel p, (PrehashMap.GetLoop nullv hash mask pos m fuel p).2 = m := by
  intro fuel
  induction fuel with
  | zero => intro p; rfl
  | succ n ih =>
    intro p
    simp only [PrehashMap.GetLoop]
    split
    · rfl
    · split
      · rfl
      · split
        · rfl
        · exact ih _

/-- C10: `Get` is a pure observation: for both variants and any table state
and key, the entire table state (slot array, count and capacity) after the
call is the same as before it. -/
theorem claim_C10 (hashK : Key → Nat) (nullv : Value)
    (s : DenseHashMap Key Value) (key : Key)
    (sp : PrehashMap Value) (hash : Nat) :
    (DenseHashMap.Get hashK nullv s key).2 = s ∧
    (PrehashMap.Get nullv sp hash).2 = sp := by
  constructor
  · show (⟨(DenseHashMap.GetLoop _ _ _ _ s.map s.capacity_ _).2, _, _⟩ :
      DenseHashMap Key Value) = s
    rw [denseGetLoop_map_eq]
  · show (⟨(PrehashMap.GetLoop _ _ _ _ sp.map sp.capacity_ _).2, _, _⟩ :
      PrehashMap Value) = sp
    rw [prehashGetLoop_map_eq]

/-! ## Concrete evaluations settling the buggy claims -/

/-- C2 (code bug): inserting the three distinct hashes 0, 1, 2 into a
`PrehashMap` of capacity 2 forces growth; because `PrehashMap::Grow` never
resets `count_` before re-inserting, `size()` afterwards reports 6 even
though only 3 slots are TAKEN (the three values are still retrievable). -/
theorem claim_C2 :
    ((runP 4 [POp.ins 0 10, POp.ins 1 11, POp.ins 2 12]
        (PrehashMap.init 2 : PrehashMap Nat)).map fun s =>
      (PrehashMap.size s,
        s.map.countP fun pr => pr.state == BucketState.TAKEN,
        (PrehashMap.Get 0 s 0).1, (PrehashMap.Get 0 s 1).1,
        (PrehashMap.Get 0 s 2).1))
    = some (6, 3, GetResult.ok 10, GetResult.ok 11, GetResult.ok 12) := by
  decide

/-- C3 (code bug): `Clear()` resets every slot to FREE and keeps the
capacity, but the source never resets `count_`, so `size()` still reports 1
after clearing a one-entry table — for both variants. -/
theorem claim_C3 :
    (((runD (fun k => k) 2 [DOp.ins 0 10]
          (DenseHashMap.init 2 : DenseHashMap Nat Nat)).map fun s =>
        let c := DenseHashMap.Clear s
        (DenseHashMap.size c, c.capacity_,
          c.map.all fun pr => pr.state == BucketState.FREE))
      = some (1, 2, true)) ∧
    (((runP 2 [POp.ins 0 10] (PrehashMap.init 2 : PrehashMap Nat)).map
        fun s =>
          let c := PrehashMap.Clear s
          (PrehashMap.size c, c.capacity_,
            c.map.all fun pr => pr.state == BucketState.FREE))
      = some (1, 2, true)) := by
  constructor
  · decide
  · decide

/-- C6 (code bug): the fatal full-wrap branch is reachable.  On a
`PrehashMap` of capacity 4, insert 0 and 1, remove 0, insert 2, remove 1,
insert 3: no growth is ever triggered (`count_` never exceeds 2), yet every
slot is now TAKEN or REMOVED.  `Get(4)` probes all four slots without ever
seeing FREE and wraps, hitting `DebugBreak()`. -/
theorem claim_C6 :
    ((runP 4 [POp.ins 0 10, POp.ins 1 11, POp.rem 0, POp.ins 2 12,
        POp.rem 1, POp.ins 3 13]
        (PrehashMap.init 4 : PrehashMap Nat)).map fun s =>
      ((PrehashMap.Get 0 s 4).1, PrehashMap.size s, s.capacity_))
    = some (GetResult.wrapBreak, 2, 4) := by
  decide

/-- C8 (code bug): running the same operation sequence (insert 0, 1, 2 from
capacity 2) on a `DenseHashMap` over 32-bit keys with the identity hash and
on a `PrehashMap` produces different states: the missing `count_` reset in
`PrehashMap::Grow` makes the `PrehashMap` grow twice more and report
`size() = 6` where the `DenseHashMap` reports 3. -/
theorem claim_C8 :
    (((runD (fun k => k) 4 [DOp.ins 0 10, DOp.ins 1 11, DOp.ins 2 12]
          (DenseHashMap.init 2 : DenseHashMap Nat Nat)).map fun s =>
        (s.capacity_, DenseHashMap.size s)) = some (4, 3)) ∧
    (((runP 4 [POp.ins 0 10, POp.ins 1 11, POp.ins 2 12]
          (PrehashMap.init 2 : PrehashMap Nat)).map fun s =>
        (s.capacity_, PrehashMap.size s)) = some (8, 6)) := by
  constructor
  · decide
  · decide

/-- C4 counterexample: a fresh `DenseHashMap` of capacity 2 (identity-like
hashes 0 and 1) accepts two inserts without growing, after which both the
`count_` field and the number of TAKEN slots equal 2, exceeding
`capacity_/2 = 1`. -/
theorem claim_C4_cex :
    ((runD (fun k => k) 2 [DOp.ins 0 10, DOp.ins 1 11]
        (DenseHashMap.init 2 : DenseHashMap Nat Nat)).map fun s =>
      (decide ((s.map.countP fun pr => pr.state == BucketState.TAKEN) ≤
          s.capacity_ / 2),
        s.map.countP (fun pr => pr.state == BucketState.TAKEN), s.capacity_))
    = some (false, 2, 2) := by
  decide

/-- C5 counterexample: on a `PrehashMap` of capacity 4, after
insert 0, insert 4 (both hash to slot 0, so 4 lands in slot 1) and
remove 0 (slot 0 becomes a tombstone), the key 4 is live in slot 1 — yet
`Insert(4, 99)` stops at the tombstone in slot 0 before ever seeing the
existing entry, returns `true`, and leaves hash 4 TAKEN in two slots. -/
theorem claim_C5_cex :
    (((runP 4 [POp.ins 0 10, POp.ins 4 11, POp.rem 0]
          (PrehashMap.init 4 : PrehashMap Nat)).map fun s =>
        s.map.countP fun pr =>
          pr.state == BucketState.TAKEN && pr.hash == 4) = some 1) ∧
    (((runP 4 [POp.ins 0 10, POp.ins 4 11, POp.rem 0]
          (PrehashMap.init 4 : PrehashMap Nat)).bind fun s =>
        (PrehashMap.Insert 4 s 4 99).map fun bs =>
          (bs.1, bs.2.map.countP fun pr =>
            pr.state == BucketState.TAKEN && pr.hash == 4))
      = some (true, 2)) := by
  constructor
  · decide
  · decide

/-- C7 counterexample: saturate a `PrehashMap` of capacity 4 with tombstones
and live entries (insert 0, 1; remove 0; insert 2; remove 1; insert 3), then
remove 2.  The table still contains key 2's tombstone and key 3, but no FREE
slot, so `Get(2)` does not report not-found: it wraps the whole table and
hits `DebugBreak()`. -/
theorem claim_C7_cex :
    ((runP 4 [POp.ins 0 10, POp.ins 1 11, POp.rem 0, POp.ins 2 12,
        POp.rem 1, POp.ins 3 13, POp.rem 2]
        (PrehashMap.init 4 : PrehashMap Nat)).map fun s =>
      ((PrehashMap.Get 0 s 2).1 == GetResult.ok 0,
        (PrehashMap.Get 0 s 2).1 == GetResult.wrapBreak))
    = some (false, true) := by
  decide

/-- C9 counterexample: `Get` reports "not found" by returning the null
pointer, so a stored null value aliases it exactly.  Insert key 0 with the
null value into a `DenseHashMap`: the entry is live (one TAKEN slot), and
`Get(0)` returns precisely the not-found result `ok none`. -/
theorem claim_C9_cex :
    ((runD (fun k => k) 2 [DOp.ins 0 (none : Option Nat)]
        (DenseHashMap.init 2 : DenseHashMap Nat (Option Nat))).map fun s =>
      ((DenseHashMap.Get (fun k => k) none s 0).1,
        s.map.countP fun pr => pr.state == BucketState.TAKEN))
    = some (GetResult.ok none, 1) := by
  decide

/-! ## Probe-distance arithmetic

All probe positions live in `[0, c)` for a power-of-two capacity `c`; the
probe step `p = (p + 1) & (c - 1)` is addition modulo `c`. -/

/-- Number of forward probe steps from slot `a` to slot `b` in a table of
`c` slots. -/
def probeDist (c a b : Nat) : Nat := (b + c - a) % c

theorem probeDist_lt {c : Nat} (hc : 0 < c) (a b : Nat) :
    probeDist c a b < c :=
  Nat.mod_lt _ hc

theorem probeDist_spec {c a b : Nat} (ha : a < c) (hb : b < c) :
    (a + probeDist c a b) % c = b := by
  unfold probeDist
  by_cases h : a ≤ b
  · have h1 : b + c - a = (b - a) + c := by omega
    rw [h1, Nat.add_mod_right, Nat.mod_eq_of_lt (by omega : b - a < c)]
    have h2 : a + (b - a) = b := by omega
    rw [h2, Nat.mod_eq_of_lt hb]
  · have h1 : b + c - a < c := by omega
    rw [Nat.mod_eq_of_lt h1]
    have h2 : a + (b + c - a) = b + c := by omega
    rw [h2, Nat.add_mod_right, Nat.mod_eq_of_lt hb]

/-- Walking `i` steps from a fixed start reaches distinct slots for distinct
`i < c`. -/
theorem probePos_inj {c a : Nat} {i j : Nat} (hi : i < c) (hj : j < c)
    (h : (a + i) % c = (a + j) % c) : i = j := by
  have hij : i % c = j % c := Nat.ModEq.add_left_cancel' a h
  rwa [Nat.mod_eq_of_lt hi, Nat.mod_eq_of_lt hj] at hij

/-- Before `probeDist c a b` steps, the walk from `a` has not reached `b`. -/
theorem probePos_ne_target {c a b j : Nat} (ha : a < c) (hb : b < c)
    (hj : j < probeDist c a b) : (a + j) % c ≠ b := by
  intro hEq
  have hc : 0 < c := Nat.lt_of_le_of_lt (Nat.zero_le a) ha
  have hd : probeDist c a b < c := probeDist_lt hc a b
  have : (a + j) % c = (a + probeDist c a b) % c := by
    rw [hEq, probeDist_spec ha hb]
  exact absurd (probePos_inj (by omega) hd this) (by omega)

/-- The walk does not return to its start before `c` steps. -/
theorem probePos_ne_start {c a j : Nat} (ha : a < c) (hj0 : 0 < j)
    (hj : j < c) : (a + j) % c ≠ a := by
  intro hEq
  have : (a + j) % c = (a + 0) % c := by
    rw [hEq]
    simp [Nat.mod_eq_of_lt ha]
  exact absurd (probePos_inj hj (by omega) this) (by omega)

/-- `x & (c - 1)` is `x % c` for a power of two `c`. -/
theorem and_mask_eq_mod {c : Nat} (kk : Nat) (hck : c = 2 ^ kk) (x : Nat) :
    x &&& (c - 1) = x % c := by
  subst hck
  exact Nat.and_pow_two_sub_one_eq_mod x kk

/-! ## List helpers -/

theorem getD_set_self {α : Type _} {l : List α} {p : Nat} (x d : α)
    (h : p < l.length) : (l.set p x).getD p d = x := by
  rw [List.getD_eq_getElem?_getD, List.getElem?_set_self (by simpa using h)]
  rfl

theorem getD_set_ne {α : Type _} {l : List α} {p q : Nat} (x d : α)
    (h : p ≠ q) : (l.set p x).getD q d = l.getD q d := by
  rw [List.getD_eq_getElem?_getD, List.getElem?_set_ne h,
    ← List.getD_eq_getElem?_getD]

theorem getD_replicate {α : Type _} {n i : Nat} (a d : α) (h : i < n) :
    (List.replicate n a).getD i d = a := by
  rw [List.getD_eq_getElem?_getD, List.getElem?_replicate]
  simp [h]

/-- Counting under an update: the old occupant leaves the count, the new
one enters it. -/
theorem countP_set_eq {α : Type _} (f : α → Bool) (l : List α) :
    ∀ (p : Nat) (x d : α), p < l.length →
    (l.set p x).countP f + (if f (l.getD p d) then 1 else 0) =
      l.countP f + (if f x then 1 else 0) := by
  induction l with
  | nil => intro p x d h; simp at h
  | cons a l ih =>
    intro p x d h
    cases p with
    | zero =>
      simp only [List.set, List.countP_cons, List.getD_cons_zero]
      omega
    | succ p =>
      simp only [List.set, List.countP_cons, List.getD_cons_succ]
      have := ih p x d (by simpa using h)
      omega

/-! ## Dense invariants -/

/-- Number of TAKEN slots (the live entries physically present). -/
def denseTaken (m : List (DenseHashMap.Pair Key Value)) : Nat :=
  m.countP fun pr => pr.state == BucketState.TAKEN

/-- `key` is live: some TAKEN slot stores it. -/
def DenseLive (s : DenseHashMap Key Value) (key : Key) : Prop :=
  ∃ p, p < s.capacity_ ∧
    (DenseHashMap.slot s.map p).state = BucketState.TAKEN ∧
    (DenseHashMap.slot s.map p).key = key

/-- The pair `(key, value)` is stored in some TAKEN slot. -/
def DenseHasEntry (s : DenseHashMap Key Value) (key : Key) (value : Value) :
    Prop :=
  ∃ p, p < s.capacity_ ∧
    DenseHashMap.slot s.map p = ⟨BucketState.TAKEN, key, value⟩

/-- No two TAKEN slots store the same key. -/
def DenseNoDup (s : DenseHashMap Key Value) : Prop :=
  ∀ p q, p < s.capacity_ → q < s.capacity_ → p ≠ q →
    (DenseHashMap.slot s.map p).state = BucketState.TAKEN →
    (DenseHashMap.slot s.map q).state = BucketState.TAKEN →
    (DenseHashMap.slot s.map p).key ≠ (DenseHashMap.slot s.map q).key

/-- No tombstones (true of freshly grown tables). -/
def DenseNoTomb (s : DenseHashMap Key Value) : Prop :=
  ∀ p, p < s.capacity_ →
    (DenseHashMap.slot s.map p).state ≠ BucketState.REMOVED

/-- Structural invariant of every table the public operations can build:
power-of-two capacity, slot array of that length, at most `count_` TAKEN
slots (`Clear` can leave `count_` stale high, never low), and the linear
probing invariant: walking from a live key's home slot to its slot never
crosses a FREE slot. -/
structure DenseInv (hashK : Key → Nat) (s : DenseHashMap Key Value) :
    Prop where
  pow : ∃ kk, s.capacity_ = 2 ^ kk
  len : s.map.length = s.capacity_
  cnt : denseTaken s.map ≤ s.count_
  path : ∀ p, p < s.capacity_ →
    (DenseHashMap.slot s.map p).state = BucketState.TAKEN →
    ∀ j, j < probeDist s.capacity_
      (hashK (DenseHashMap.slot s.map p).key % s.capacity_) p →
      (DenseHashMap.slot s.map
        ((hashK (DenseHashMap.slot s.map p).key % s.capacity_ + j) %
          s.capacity_)).state ≠ BucketState.FREE

theorem denseInv_cap_pos {hashK : Key → Nat} {s : DenseHashMap Key Value}
    (h : DenseInv hashK s) : 0 < s.capacity_ := by
  obtain ⟨kk, hk⟩ := h.pow
  rw [hk]
  exact Nat.pos_pow_of_pos kk (by omega)

theorem denseTaken_le_length (m : List (DenseHashMap.Pair Key Value)) :
    denseTaken m ≤ m.length :=
  List.countP_le_length _

/-! ## Dense probe-loop lemmas -/

/-- Inversion for the `Insert` probe loop: a successful probe walks over a
run of TAKEN slots holding other keys and stops at distance `d`, either on a
duplicate of `key` or on the first non-TAKEN slot (which it returns). -/
theorem denseInsertLoop_inversion {c kk : Nat} (hck : c = 2 ^ kk)
    (key : Key) (m : List (DenseHashMap.Pair Key Value)) {pos : Nat}
    (hpos : pos < c) :
    ∀ fuel i spot, i < c →
    DenseHashMap.InsertLoop key (c - 1) pos m fuel ((pos + i) % c) =
      some spot →
    ∃ d, i ≤ d ∧ d < c ∧
      (∀ j, i ≤ j → j < d →
        (DenseHashMap.slot m ((pos + j) % c)).state = BucketState.TAKEN ∧
        key ≠ (DenseHashMap.slot m ((pos + j) % c)).key) ∧
      ((spot = InsertSpot.dup ∧
          (DenseHashMap.slot m ((pos + d) % c)).state = BucketState.TAKEN ∧
          key = (DenseHashMap.slot m ((pos + d) % c)).key) ∨
        (spot = InsertSpot.place ((pos + d) % c) ∧
          (DenseHashMap.slot m ((pos + d) % c)).state ≠
            BucketState.TAKEN)) := by
  intro fuel
  induction fuel with
  | zero =>
    intro i spot hi h
    exact absurd h (by simp [DenseHashMap.InsertLoop])
  | succ fuel ih =>
    intro i spot hi h
    rw [DenseHashMap.InsertLoop] at h
    by_cases hT :
        (DenseHashMap.slot m ((pos + i) % c)).state = BucketState.TAKEN
    · rw [if_pos hT] at h
      by_cases hK : key = (DenseHashMap.slot m ((pos + i) % c)).key
      · rw [if_pos hK] at h
        refine ⟨i, Nat.le_refl i, hi, ?_, Or.inl ?_⟩
        · intro j h1 h2; omega
        · cases h; exact ⟨rfl, hT, hK⟩
      · rw [if_neg hK] at h
        simp only [and_mask_eq_mod kk hck, Nat.mod_add_mod] at h
        by_cases hw : (pos + i + 1) % c = pos
        · rw [if_pos hw] at h; cases h
        · rw [if_neg hw] at h
          have hi1 : i + 1 < c := by
            rcases Nat.lt_or_ge (i + 1) c with h1 | h1
            · exact h1
            · exfalso
              have hieq : i + 1 = c := by omega
              apply hw
              rw [show pos + i + 1 = pos + (i + 1) by omega, hieq,
                Nat.add_mod_right, Nat.mod_eq_of_lt hpos]
          have h' := ih (i + 1) spot hi1
            (by rw [show pos + (i + 1) = pos + i + 1 by omega]; exact h)
          obtain ⟨d, hd1, hd2, hpass, hstop⟩ := h'
          refine ⟨d, by omega, hd2, ?_, hstop⟩
          intro j h1 h2
          rcases Nat.eq_or_lt_of_le h1 with h3 | h3
          · rw [← h3]; exact ⟨hT, hK⟩
          · exact hpass j h3 h2
    · rw [if_neg hT] at h
      refine ⟨i, Nat.le_refl i, hi, ?_, Or.inr ?_⟩
      · intro j h1 h2; omega
      · cases h; exact ⟨rfl, hT⟩

/-- Inversion for the `Remove` probe loop. -/
theorem denseRemoveLoop_inversion {c kk : Nat} (hck : c = 2 ^ kk)
    (key : Key) (m : List (DenseHashMap.Pair Key Value)) {pos : Nat}
    (hpos : pos < c) :
    ∀ fuel i spot, i < c →
    DenseHashMap.RemoveLoop key (c - 1) pos m fuel ((pos + i) % c) =
      some spot →
    ∃ d, i ≤ d ∧ d < c ∧
      (∀ j, i ≤ j → j < d →
        (DenseHashMap.slot m ((pos + j) % c)).state ≠ BucketState.FREE ∧
        ¬((DenseHashMap.slot m ((pos + j) % c)).state = BucketState.TAKEN ∧
          key = (DenseHashMap.slot m ((pos + j) % c)).key)) ∧
      ((spot = RemoveSpot.hit ((pos + d) % c) ∧
          (DenseHashMap.slot m ((pos + d) % c)).state = BucketState.TAKEN ∧
          key = (DenseHashMap.slot m ((pos + d) % c)).key) ∨
        (spot = RemoveSpot.miss ∧
          (DenseHashMap.slot m ((pos + d) % c)).state = BucketState.FREE)) := by
  intro fuel
  induction fuel with
  | zero =>
    intro i spot hi h
    exact absurd h (by simp [DenseHashMap.RemoveLoop])
  | succ fuel ih =>
    intro i spot hi h
    rw [DenseHashMap.RemoveLoop] at h
    by_cases hF :
        (DenseHashMap.slot m ((pos + i) % c)).state = BucketState.FREE
    · rw [if_neg (by simpa using hF)] at h
      refine ⟨i, Nat.le_refl i, hi, ?_, Or.inr ?_⟩
      · intro j h1 h2; omega
      · cases h; exact ⟨rfl, hF⟩
    · rw [if_pos (by simpa using hF)] at h
      by_cases hM :
          (DenseHashMap.slot m ((pos + i) % c)).state = BucketState.TAKEN ∧
          key = (DenseHashMap.slot m ((pos + i) % c)).key
      · rw [if_pos hM] at h
        refine ⟨i, Nat.le_refl i, hi, ?_, Or.inl ?_⟩
        · intro j h1 h2; omega
        · cases h; exact ⟨rfl, hM.1, hM.2⟩
      · rw [if_neg hM] at h
        simp only [and_mask_eq_mod kk hck, Nat.mod_add_mod] at h
        by_cases hw : (pos + i + 1) % c = pos
        · rw [if_pos hw] at h; cases h
        · rw [if_neg hw] at h
          have hi1 : i + 1 < c := by
            rcases Nat.lt_or_ge (i + 1) c with h1 | h1
            · exact h1
            · exfalso
              have hieq : i + 1 = c := by omega
              apply hw
              rw [show pos + i + 1 = pos + (i + 1) by omega, hieq,
                Nat.add_mod_right, Nat.mod_eq_of_lt hpos]
          have h' := ih (i + 1) spot hi1
            (by rw [show pos + (i + 1) = pos + i + 1 by omega]; exact h)
          obtain ⟨d, hd1, hd2, hpass, hstop⟩ := h'
          refine ⟨d, by omega, hd2, ?_, hstop⟩
          intro j h1 h2
          rcases Nat.eq_or_lt_of_le h1 with h3 | h3
          · rw [← h3]; exact ⟨hF, hM⟩
          · exact hpass j h3 h2

/-- Skipping pass-through slots in the `Get` probe loop: while the scanned
slots neither match `key` nor are FREE, the loop from distance `i` computes
the same result as the loop from distance `d`. -/
theorem denseGetLoop_skip {c kk : Nat} (hck : c = 2 ^ kk) (nullv : Value)
    (key : Key) (m : List (DenseHashMap.Pair Key Value)) {pos : Nat}
    (hpos : pos < c) :
    ∀ n i d, d < c → i ≤ d → d - i = n →
    (∀ j, i ≤ j → j < d →
      ¬((DenseHashMap.slot m ((pos + j) % c)).state = BucketState.TAKEN ∧
        key = (DenseHashMap.slot m ((pos + j) % c)).key) ∧
      (DenseHashMap.slot m ((pos + j) % c)).state ≠ BucketState.FREE) →
    DenseHashMap.GetLoop nullv key (c - 1) pos m (c - i) ((pos + i) % c) =
    DenseHashMap.GetLoop nullv key (c - 1) pos m (c - d) ((pos + d) % c) := by
  intro n
  induction n with
  | zero =>
    intro i d hd hid hn _
    have : i = d := by omega
    rw [this]
  | succ n ih =>
    intro i d hd hid hn hpass
    have hidlt : i < d := by omega
    have hstep : c - i = (c - (i + 1)) + 1 := by omega
    rw [hstep, DenseHashMap.GetLoop]
    rw [if_neg (hpass i (Nat.le_refl i) hidlt).1,
      if_neg (hpass i (Nat.le_refl i) hidlt).2]
    simp only [and_mask_eq_mod kk hck, Nat.mod_add_mod]
    have hi1 : i + 1 < c := by omega
    rw [show pos + i + 1 = pos + (i + 1) by omega]
    rw [if_neg (probePos_ne_start hpos (by omega) hi1)]
    exact ih (i + 1) d hd (by omega) (by omega)
      (fun j h1 h2 => hpass j (by omega) h2)

/-- `Get` finds a stored entry: in an invariant-satisfying,
duplicate-free table, `Get key` returns exactly the stored value. -/
theorem denseGet_found (hashK : Key → Nat) (nullv : Value)
    {s : DenseHashMap Key Value} {K : Key} {V : Value}
    (hInv : DenseInv hashK s) (hnd : DenseNoDup s)
    (hE : DenseHasEntry s K V) :
    (DenseHashMap.Get hashK nullv s K).1 = GetResult.ok V := by
  obtain ⟨t, ht, hslot⟩ := hE
  obtain ⟨kk, hck⟩ := hInv.pow
  have hc0 : 0 < s.capacity_ := denseInv_cap_pos hInv
  set c := s.capacity_ with hc
  have hmask : hashK K &&& (c - 1) = hashK K % c := and_mask_eq_mod kk hck _
  set pos := hashK K % c with hposdef
  have hpos : pos < c := Nat.mod_lt _ hc0
  set d := probeDist c pos t with hd
  have hdlt : d < c := probeDist_lt hc0 _ _
  have htarget : (pos + d) % c = t := probeDist_spec hpos ht
  have hKt : (DenseHashMap.slot s.map t).key = K := by rw [hslot]
  have hTt : (DenseHashMap.slot s.map t).state = BucketState.TAKEN := by
    rw [hslot]
  have hpass : ∀ j, 0 ≤ j → j < d →
      ¬((DenseHashMap.slot s.map ((pos + j) % c)).state =
          BucketState.TAKEN ∧
        K = (DenseHashMap.slot s.map ((pos + j) % c)).key) ∧
      (DenseHashMap.slot s.map ((pos + j) % c)).state ≠ BucketState.FREE := by
    intro j _ hj
    have hne : (pos + j) % c ≠ t := probePos_ne_target hpos ht hj
    have hqlt : (pos + j) % c < c := Nat.mod_lt _ hc0
    constructor
    · rintro ⟨hq1, hq2⟩
      exact hnd _ _ hqlt ht hne hq1 hTt (by rw [← hq2, hKt])
    · have := hInv.path t ht hTt j (by rw [hKt, ← hposdef, ← hd]; exact hj)
      rw [hKt, ← hposdef] at this
      exact this
  have hskip := denseGetLoop_skip hck nullv K s.map hpos d 0 d hdlt
    (Nat.zero_le d) (by omega) (fun j h1 h2 => hpass j h1 h2)
  show (DenseHashMap.GetLoop nullv K (c - 1) (hashK K &&& (c - 1)) s.map c
    (hashK K &&& (c - 1))).1 = GetResult.ok V
  rw [hmask]
  have hstart : (pos + 0) % c = pos := by
    simp [Nat.mod_eq_of_lt hpos]
  rw [Nat.sub_zero, hstart] at hskip
  rw [hskip, htarget]
  have hfuel : c - d = (c - d - 1) + 1 := by omega
  rw [hfuel, DenseHashMap.GetLoop, if_pos ⟨hTt, hKt.symm⟩, hslot]

/-- `Get` on a key held by no TAKEN slot returns the null pointer, provided
some slot is FREE (otherwise the probe wraps). -/
theorem denseGet_absent (hashK : Key → Nat) (nullv : Value)
    {s : DenseHashMap Key Value} {K : Key}
    (hInv : DenseInv hashK s) (hAbs : ¬ DenseLive s K)
    (hfree : ∃ q, q < s.capacity_ ∧
      (DenseHashMap.slot s.map q).state = BucketState.FREE) :
    (DenseHashMap.Get hashK nullv s K).1 = GetResult.ok nullv := by
  obtain ⟨kk, hck⟩ := hInv.pow
  have hc0 : 0 < s.capacity_ := denseInv_cap_pos hInv
  set c := s.capacity_ with hc
  have hmask : hashK K &&& (c - 1) = hashK K % c := and_mask_eq_mod kk hck _
  set pos := hashK K % c with hposdef
  have hpos : pos < c := Nat.mod_lt _ hc0
  have hex : ∃ j, (DenseHashMap.slot s.map ((pos + j) % c)).state =
      BucketState.FREE := by
    obtain ⟨q, hq, hqF⟩ := hfree
    exact ⟨probeDist c pos q, by rw [probeDist_spec hpos hq]; exact hqF⟩
  classical
  set d := Nat.find hex with hddef
  have hdF : (DenseHashMap.slot s.map ((pos + d) % c)).state =
      BucketState.FREE := Nat.find_spec hex
  have hdlt : d < c := by
    obtain ⟨q, hq, hqF⟩ := hfree
    have : d ≤ probeDist c pos q :=
      Nat.find_min' hex (by rw [probeDist_spec hpos hq]; exact hqF)
    have := probeDist_lt hc0 pos q
    omega
  have hpass : ∀ j, 0 ≤ j → j < d →
      ¬((DenseHashMap.slot s.map ((pos + j) % c)).state =
          BucketState.TAKEN ∧
        K = (DenseHashMap.slot s.map ((pos + j) % c)).key) ∧
      (DenseHashMap.slot s.map ((pos + j) % c)).state ≠ BucketState.FREE := by
    intro j _ hj
    constructor
    · rintro ⟨hq1, hq2⟩
      exact hAbs ⟨(pos + j) % c, Nat.mod_lt _ hc0, hq1, hq2.symm⟩
    · exact Nat.find_min hex hj
  have hskip := denseGetLoop_skip hck nullv K s.map hpos d 0 d hdlt
    (Nat.zero_le d) (by omega) (fun j h1 h2 => hpass j h1 h2)
  show (DenseHashMap.GetLoop nullv K (c - 1) (hashK K &&& (c - 1)) s.map c
    (hashK K &&& (c - 1))).1 = GetResult.ok nullv
  rw [hmask]
  have hstart : (pos + 0) % c = pos := by
    simp [Nat.mod_eq_of_lt hpos]
  rw [Nat.sub_zero, hstart] at hskip
  rw [hskip]
  have hfuel : c - d = (c - d - 1) + 1 := by omega
  rw [hfuel, DenseHashMap.GetLoop,
    if_neg (by rw [hdF]; rintro ⟨h1, _⟩; cases h1), if_pos hdF]

/-- `probeDist` inverts walking `d < c` steps forward. -/
theorem probeDist_add {c a d : Nat} (ha : a < c) (hd : d < c) :
    probeDist c a ((a + d) % c) = d := by
  have hc0 : 0 < c := by omega
  exact probePos_inj (probeDist_lt hc0 a _) hd
    (by rw [probeDist_spec ha (Nat.mod_lt _ hc0)])

/-- Full specification of the probe-and-write body of `Insert`:
it preserves the invariant and capacity, returns `false` exactly on a live
duplicate (leaving the state untouched), and on success occupies one
previously non-TAKEN slot at the end of an all-TAKEN probe run. -/
theorem denseInsertCore_spec (hashK : Key → Nat) {s : DenseHashMap Key Value}
    {K : Key} {V : Value} {b : Bool} {s' : DenseHashMap Key Value}
    (hInv : DenseInv hashK s)
    (h : DenseHashMap.InsertCore hashK s K V = some (b, s')) :
    DenseInv hashK s' ∧
    s'.capacity_ = s.capacity_ ∧
    (b = false → s' = s ∧ DenseLive s K) ∧
    (b = true →
      s'.count_ = s.count_ + 1 ∧
      denseTaken s'.map = denseTaken s.map + 1 ∧
      (∃ p, p < s.capacity_ ∧
        DenseHashMap.slot s'.map p = ⟨BucketState.TAKEN, K, V⟩ ∧
        (DenseHashMap.slot s.map p).state ≠ BucketState.TAKEN ∧
        (∀ q, q < s.capacity_ → q ≠ p →
          DenseHashMap.slot s'.map q = DenseHashMap.slot s.map q) ∧
        (∀ j, j < probeDist s.capacity_ (hashK K % s.capacity_) p →
          (DenseHashMap.slot s'.map
            ((hashK K % s.capacity_ + j) % s.capacity_)).state =
            BucketState.TAKEN))) := by
  obtain ⟨kk, hck⟩ := hInv.pow
  have hc0 : 0 < s.capacity_ := denseInv_cap_pos hInv
  set c := s.capacity_ with hc
  simp only [DenseHashMap.InsertCore] at h
  rw [and_mask_eq_mod kk hck] at h
  set pos := hashK K % c with hposdef
  have hpos : pos < c := Nat.mod_lt _ hc0
  obtain ⟨spot, hspot, heq⟩ := Option.map_eq_some'.mp h
  have hstart : (pos + 0) % c = pos := by simp [Nat.mod_eq_of_lt hpos]
  have hinv0 := denseInsertLoop_inversion hck K s.map hpos c 0 spot hc0
    (by rw [hstart]; exact hspot)
  obtain ⟨d, -, hdlt, hpass, hstop⟩ := hinv0
  rcases hstop with ⟨hspotd, hTd, hKd⟩ | ⟨hspotp, hTd⟩
  · -- duplicate: return (false, s)
    subst hspotd
    simp only at heq
    rw [Prod.mk.injEq] at heq
    obtain ⟨hb, hs⟩ := heq
    subst hs
    refine ⟨hInv, rfl, ?_, ?_⟩
    · intro _
      exact ⟨rfl, ⟨(pos + d) % c, Nat.mod_lt _ hc0, hTd, hKd.symm⟩⟩
    · intro hb'
      rw [← hb] at hb'
      cases hb'
  · -- place: write the new entry at p = (pos + d) % c
    subst hspotp
    simp only at heq
    rw [Prod.mk.injEq] at heq
    obtain ⟨hb, hs⟩ := heq
    set p := (pos + d) % c with hpdef
    have hplt : p < c := Nat.mod_lt _ hc0
    have hplen : p < s.map.length := by rw [hInv.len]; exact hplt
    have hdist : probeDist c pos p = d := probeDist_add hpos hdlt
    have hsetself : DenseHashMap.slot (s.map.set p
        ⟨BucketState.TAKEN, K, V⟩) p = ⟨BucketState.TAKEN, K, V⟩ :=
      getD_set_self _ _ hplen
    have hsetne : ∀ q, q ≠ p → DenseHashMap.slot (s.map.set p
        ⟨BucketState.TAKEN, K, V⟩) q = DenseHashMap.slot s.map q := by
      intro q hq
      exact getD_set_ne _ _ (fun hpq => hq hpq.symm)
    have htaken : denseTaken (s.map.set p ⟨BucketState.TAKEN, K, V⟩) =
        denseTaken s.map + 1 := by
      have h1 := countP_set_eq (fun pr => pr.state == BucketState.TAKEN)
        s.map p ⟨BucketState.TAKEN, K, V⟩ DenseHashMap.emptyPair hplen
      have hold : ((s.map.getD p DenseHashMap.emptyPair).state ==
          BucketState.TAKEN) = false := by
        rw [beq_eq_false_iff_ne]
        exact hTd
      simp only [hold] at h1
      simp at h1
      simpa [denseTaken] using h1
    have hpathTK : ∀ j, j < d →
        (DenseHashMap.slot (s.map.set p ⟨BucketState.TAKEN, K, V⟩)
          ((pos + j) % c)).state = BucketState.TAKEN := by
      intro j hj
      have hne : (pos + j) % c ≠ p := by
        intro hEq
        have : j = d := probePos_inj (Nat.lt_trans hj hdlt) hdlt
          (by rw [hEq, hpdef])
        omega
      rw [hsetne _ hne]
      exact (hpass j (Nat.zero_le j) hj).1
    have hInv' : DenseInv hashK
        { s with map := s.map.set p ⟨BucketState.TAKEN, K, V⟩,
                 count_ := s.count_ + 1 } := by
      refine ⟨⟨kk, hck⟩, ?_, ?_, ?_⟩
      · simpa using hInv.len
      · show denseTaken (s.map.set p ⟨BucketState.TAKEN, K, V⟩) ≤
          s.count_ + 1
        rw [htaken]
        exact Nat.add_le_add_right hInv.cnt 1
      · intro q hq hqT j hj
        by_cases hqp : q = p
        · subst hqp
          have hkey : (DenseHashMap.slot (s.map.set p
              ⟨BucketState.TAKEN, K, V⟩) p).key = K := by
            rw [hsetself]
          rw [hkey] at hj ⊢
          have hj2 : j < d := by
            have hj' : j < probeDist c pos p := hj
            rwa [hdist] at hj'
          have hT := hpathTK j hj2
          show (DenseHashMap.slot (s.map.set p ⟨BucketState.TAKEN, K, V⟩)
            ((pos + j) % c)).state ≠ BucketState.FREE
          rw [hT]
          intro hcon
          cases hcon
        · rw [hsetne _ hqp] at hj ⊢
          have hqT' : (DenseHashMap.slot s.map q).state =
              BucketState.TAKEN := by
            rw [← hsetne _ hqp]; exact hqT
          set r := (hashK (DenseHashMap.slot s.map q).key % c + j) % c
            with hrdef
          by_cases hrp : r = p
          · rw [hrp, hsetself]
            intro hcon
            cases hcon
          · rw [hsetne _ hrp]
            exact hInv.path q hq hqT' j hj
    subst hs
    refine ⟨hInv', rfl, ?_, ?_⟩
    · intro hb'
      rw [← hb] at hb'
      cases hb'
    · intro _
      refine ⟨rfl, htaken, p, hplt, hsetself, hTd, ?_, ?_⟩
      · intro q hq hqp
        exact hsetne q hqp
      · intro j hj
        rw [hdist] at hj
        exact hpathTK j hj

/-- A successful `InsertCore` of a key that is not live: it reports `true`,
stores the entry once, and changes nothing else about the entry set. -/
theorem denseInsertCore_clean (hashK : Key → Nat) {s : DenseHashMap Key Value}
    {K : Key} {V : Value} {b : Bool} {s' : DenseHashMap Key Value}
    (hInv : DenseInv hashK s) (hnd : DenseNoDup s) (hnl : ¬ DenseLive s K)
    (h : DenseHashMap.InsertCore hashK s K V = some (b, s')) :
    b = true ∧ DenseInv hashK s' ∧ s'.capacity_ = s.capacity_ ∧
    DenseNoDup s' ∧ DenseHasEntry s' K V ∧
    (∀ V', DenseHasEntry s' K V' → V' = V) ∧
    (∀ K' V', K' ≠ K → (DenseHasEntry s' K' V' ↔ DenseHasEntry s K' V')) ∧
    (∀ K', K' ≠ K → (DenseLive s' K' ↔ DenseLive s K')) ∧
    (DenseNoTomb s → DenseNoTomb s') ∧
    denseTaken s'.map = denseTaken s.map + 1 ∧
    s'.count_ = s.count_ + 1 ∧
    (∃ p, p < s'.capacity_ ∧
      DenseHashMap.slot s'.map p = ⟨BucketState.TAKEN, K, V⟩ ∧
      (∀ j, j < probeDist s'.capacity_ (hashK K % s'.capacity_) p →
        (DenseHashMap.slot s'.map
          ((hashK K % s'.capacity_ + j) % s'.capacity_)).state =
          BucketState.TAKEN)) := by
  obtain ⟨hInv', hcap, hfalse, htrue⟩ := denseInsertCore_spec hashK hInv h
  cases b with
  | false => exact absurd (hfalse rfl).2 hnl
  | true =>
    obtain ⟨hcount, htaken, p, hplt, hpnew, hpold, hunch, hpath⟩ := htrue rfl
    have hpkey : (DenseHashMap.slot s'.map p).key = K := by rw [hpnew]
    have hpstate : (DenseHashMap.slot s'.map p).state = BucketState.TAKEN := by
      rw [hpnew]
    refine ⟨rfl, hInv', hcap, ?_, ?_, ?_, ?_, ?_, ?_, htaken, hcount, ?_⟩
    · -- NoDup s'
      intro q r hq hr hqr hTq hTr hkeyEq
      rw [hcap] at hq hr
      by_cases hqp : q = p
      · have hrp : r ≠ p := fun hh => hqr (hqp.trans hh.symm)
        rw [hqp] at hkeyEq
        rw [hunch r hr hrp] at hTr hkeyEq
        rw [hpkey] at hkeyEq
        exact hnl ⟨r, hr, hTr, hkeyEq.symm⟩
      · by_cases hrp : r = p
        · rw [hrp] at hkeyEq
          rw [hunch q hq hqp] at hTq hkeyEq
          rw [hpkey] at hkeyEq
          exact hnl ⟨q, hq, hTq, hkeyEq⟩
        · rw [hunch q hq hqp] at hTq hkeyEq
          rw [hunch r hr hrp] at hTr hkeyEq
          exact hnd q r hq hr hqr hTq hTr hkeyEq
    · exact ⟨p, by rw [hcap]; exact hplt, hpnew⟩
    · -- unique value at K
      rintro V' ⟨q, hq, hqpair⟩
      rw [hcap] at hq
      by_cases hqp : q = p
      · rw [hqp, hpnew] at hqpair
        injection hqpair with h1 h2 h3
        exact h3.symm
      · rw [hunch q hq hqp] at hqpair
        exact absurd ⟨q, hq, by rw [hqpair], by rw [hqpair]⟩ hnl
    · -- entries of other keys unchanged
      intro K' V' hK'
      constructor
      · rintro ⟨q, hq, hqpair⟩
        rw [hcap] at hq
        by_cases hqp : q = p
        · rw [hqp, hpnew] at hqpair
          injection hqpair with h1 h2 h3
          exact absurd h2.symm hK'
        · rw [hunch q hq hqp] at hqpair
          exact ⟨q, hq, hqpair⟩
      · rintro ⟨q, hq, hqpair⟩
        have hqp : q ≠ p := by
          intro hh
          rw [hh] at hqpair
          have : (DenseHashMap.slot s.map p).state = BucketState.TAKEN := by
            rw [hqpair]
          exact hpold this
        refine ⟨q, by rw [hcap]; exact hq, ?_⟩
        rw [hunch q hq hqp]
        exact hqpair
    · -- liveness of other keys unchanged
      intro K' hK'
      constructor
      · rintro ⟨q, hq, hqT, hqk⟩
        rw [hcap] at hq
        by_cases hqp : q = p
        · rw [hqp, hpkey] at hqk
          exact absurd hqk.symm hK'
        · rw [hunch q hq hqp] at hqT hqk
          exact ⟨q, hq, hqT, hqk⟩
      · rintro ⟨q, hq, hqT, hqk⟩
        have hqp : q ≠ p := by
          intro hh
          rw [hh] at hqT
          exact hpold hqT
        refine ⟨q, by rw [hcap]; exact hq, ?_, ?_⟩
        · rw [hunch q hq hqp]; exact hqT
        · rw [hunch q hq hqp]; exact hqk
    · -- no tombstones preserved
      intro hnt q hq
      rw [hcap] at hq
      by_cases hqp : q = p
      · rw [hqp, hpstate]
        intro hcon
        cases hcon
      · rw [hunch q hq hqp]
        exact hnt q hq
    · refine ⟨p, by rw [hcap]; exact hplt, hpnew, ?_⟩
      rw [hcap]
      exact hpath

/-- Specification of `Remove`: it preserves the invariant and capacity,
never adds entries, and (given no duplicate keys) removes exactly the given
key, leaving everything else untouched; removing a missing key is a no-op. -/
theorem denseRemove_spec (hashK : Key → Nat) {s : DenseHashMap Key Value}
    {K : Key} {s' : DenseHashMap Key Value} (hInv : DenseInv hashK s)
    (h : DenseHashMap.Remove hashK s K = some s') :
    DenseInv hashK s' ∧ s'.capacity_ = s.capacity_ ∧
    denseTaken s'.map ≤ denseTaken s.map ∧
    (∀ K₀, DenseLive s' K₀ → DenseLive s K₀) ∧
    (∀ K₀ V₀, DenseHasEntry s' K₀ V₀ → DenseHasEntry s K₀ V₀) ∧
    (¬ DenseLive s K → s' = s) ∧
    (DenseNoDup s → DenseNoDup s' ∧
      (DenseLive s K → ¬ DenseLive s' K) ∧
      (∀ K' V', K' ≠ K → (DenseHasEntry s' K' V' ↔ DenseHasEntry s K' V')) ∧
      (∀ K', K' ≠ K → (DenseLive s' K' ↔ DenseLive s K'))) := by
  obtain ⟨kk, hck⟩ := hInv.pow
  have hc0 : 0 < s.capacity_ := denseInv_cap_pos hInv
  set c := s.capacity_ with hc
  simp only [DenseHashMap.Remove] at h
  rw [and_mask_eq_mod kk hck] at h
  set pos := hashK K % c with hposdef
  have hpos : pos < c := Nat.mod_lt _ hc0
  obtain ⟨spot, hspot, heq⟩ := Option.map_eq_some'.mp h
  have hstart : (pos + 0) % c = pos := by simp [Nat.mod_eq_of_lt hpos]
  obtain ⟨d, -, hdlt, hpass, hstop⟩ :=
    denseRemoveLoop_inversion hck K s.map hpos c 0 spot hc0
      (by rw [hstart]; exact hspot)
  rcases hstop with ⟨hspoteq, hTd, hKd⟩ | ⟨hspoteq, hFd⟩
  · -- hit: tombstone the matching slot
    subst hspoteq
    simp only at heq
    set p := (pos + d) % c with hpdef
    have hplt : p < c := Nat.mod_lt _ hc0
    have hplen : p < s.map.length := by rw [hInv.len]; exact hplt
    set newpr : DenseHashMap.Pair Key Value :=
      { DenseHashMap.slot s.map p with state := BucketState.REMOVED }
      with hnewpr
    have hsetself : DenseHashMap.slot (s.map.set p newpr) p = newpr :=
      getD_set_self _ _ hplen
    have hsetne : ∀ q, q ≠ p →
        DenseHashMap.slot (s.map.set p newpr) q =
        DenseHashMap.slot s.map q := by
      intro q hq
      exact getD_set_ne _ _ (fun hpq => hq hpq.symm)
    have hnewstate : newpr.state = BucketState.REMOVED := rfl
    have hnewkey : newpr.key = K := by rw [hnewpr]; exact hKd.symm
    have htaken1 : denseTaken (s.map.set p newpr) + 1 = denseTaken s.map := by
      have h1 := countP_set_eq (fun pr => pr.state == BucketState.TAKEN)
        s.map p newpr DenseHashMap.emptyPair hplen
      have hold : ((s.map.getD p DenseHashMap.emptyPair).state ==
          BucketState.TAKEN) = true := by
        rw [beq_iff_eq]
        exact hTd
      simp only [hold] at h1
      simp at h1
      simpa [denseTaken] using h1
    have htakenpos : 1 ≤ denseTaken s.map := by omega
    have hcnt := hInv.cnt
    subst heq
    have hlive : ∀ K₀, DenseLive
        ⟨s.map.set p newpr, s.capacity_, s.count_ - 1⟩ K₀ →
        DenseLive s K₀ := by
      rintro K₀ ⟨q, hq, hqT, hqk⟩
      have hqp : q ≠ p := by
        intro hh
        rw [hh, hsetself, hnewstate] at hqT
        cases hqT
      rw [hsetne q hqp] at hqT hqk
      exact ⟨q, hq, hqT, hqk⟩
    refine ⟨?_, rfl,
      (by show denseTaken (s.map.set p newpr) ≤ denseTaken s.map; omega),
      hlive, ?_, ?_, ?_⟩
    · -- invariant
      refine ⟨⟨kk, hck⟩, by simpa using hInv.len, ?_, ?_⟩
      · show denseTaken (s.map.set p newpr) ≤ s.count_ - 1
        omega
      intro q hq hqT j hj
      have hqp : q ≠ p := by
        intro hh
        rw [hh, hsetself, hnewstate] at hqT
        cases hqT
      rw [hsetne q hqp] at hqT hj ⊢
      have hpathq := hInv.path q hq hqT j hj
      set r := (hashK (DenseHashMap.slot s.map q).key % s.capacity_ + j) %
        s.capacity_ with hrdef
      by_cases hrp : r = p
      · rw [hrp, hsetself, hnewstate]
        intro hcon
        cases hcon
      · rw [hsetne r hrp]
        exact hpathq
    · -- entries only shrink
      rintro K₀ V₀ ⟨q, hq, hqpair⟩
      have hqp : q ≠ p := by
        intro hh
        rw [hh, hsetself] at hqpair
        have : newpr.state = BucketState.TAKEN := by rw [hqpair]
        rw [hnewstate] at this
        cases this
      rw [hsetne q hqp] at hqpair
      exact ⟨q, hq, hqpair⟩
    · -- the key was live (slot p matches), so the no-op case is vacuous
      intro hnl
      exact absurd ⟨p, hplt, hTd, hKd.symm⟩ hnl
    · intro hnd
      refine ⟨?_, ?_, ?_, ?_⟩
      · intro q r hq hr hqr hTq hTr
        have hqp : q ≠ p := by
          intro hh
          rw [hh, hsetself, hnewstate] at hTq
          cases hTq
        have hrp : r ≠ p := by
          intro hh
          rw [hh, hsetself, hnewstate] at hTr
          cases hTr
        rw [hsetne q hqp] at hTq ⊢
        rw [hsetne r hrp] at hTr ⊢
        exact hnd q r hq hr hqr hTq hTr
      · rintro hLive ⟨q, hq, hqT, hqk⟩
        have hqp : q ≠ p := by
          intro hh
          rw [hh, hsetself, hnewstate] at hqT
          cases hqT
        rw [hsetne q hqp] at hqT hqk
        exact hnd q p hq hplt hqp hqT hTd (by rw [hqk, hKd])
      · intro K' V' hK'
        constructor
        · rintro ⟨q, hq, hqpair⟩
          have hqp : q ≠ p := by
            intro hh
            rw [hh, hsetself] at hqpair
            have : newpr.state = BucketState.TAKEN := by rw [hqpair]
            rw [hnewstate] at this
            cases this
          rw [hsetne q hqp] at hqpair
          exact ⟨q, hq, hqpair⟩
        · rintro ⟨q, hq, hqpair⟩
          have hqp : q ≠ p := by
            intro hh
            rw [hh] at hqpair
            have : (DenseHashMap.slot s.map p).key = K' := by rw [hqpair]
            rw [hKd] at hK'
            exact hK' this.symm
          refine ⟨q, hq, ?_⟩
          rw [hsetne q hqp]
          exact hqpair
      · intro K' hK'
        constructor
        · rintro ⟨q, hq, hqT, hqk⟩
          have hqp : q ≠ p := by
            intro hh
            rw [hh, hsetself, hnewstate] at hqT
            cases hqT
          rw [hsetne q hqp] at hqT hqk
          exact ⟨q, hq, hqT, hqk⟩
        · rintro ⟨q, hq, hqT, hqk⟩
          have hqp : q ≠ p := by
            intro hh
            rw [hh] at hqk
            rw [hKd] at hK'
            exact hK' hqk.symm
          refine ⟨q, hq, ?_, ?_⟩
          · rw [hsetne q hqp]; exact hqT
          · rw [hsetne q hqp]; exact hqk
  · -- miss: untouched, and the key cannot be live
    subst hspoteq
    simp only at heq
    subst heq
    have hnotlive : ¬ DenseLive s K := by
      rintro ⟨t, ht, hTt, hkt⟩
      have hdist := probeDist_add hpos hdlt
      set dt := probeDist c pos t with hdt
      have hdtlt : dt < c := probeDist_lt hc0 pos t
      have htgt : (pos + dt) % c = t := probeDist_spec hpos ht
      rcases Nat.lt_trichotomy dt d with h1 | h1 | h1
      · have := (hpass dt (Nat.zero_le dt) h1).2
        rw [htgt] at this
        exact this ⟨hTt, hkt.symm⟩
      · rw [← h1, htgt] at hFd
        rw [hFd] at hTt
        cases hTt
      · have hpathK := hInv.path t ht hTt d
          (by rw [hkt]; exact h1)
        rw [hkt] at hpathK
        exact hpathK hFd
    refine ⟨hInv, rfl, Nat.le_refl _, fun K₀ h => h, fun K₀ V₀ h => h,
      fun _ => rfl, ?_⟩
    intro hnd
    exact ⟨hnd, fun hLive => absurd hLive hnotlive,
      fun K' V' _ => Iff.rfl, fun K' _ => Iff.rfl⟩

/-- A fresh slot array (as built by the constructor, `Clear`, or `Grow`)
satisfies the invariant for any `count_`, has no duplicates, no tombstones
and no live keys. -/
theorem denseFresh_spec (hashK : Key → Nat) (n cnt : Nat) (kk : Nat)
    (hck : n = 2 ^ kk) :
    DenseInv hashK
      (⟨List.replicate n DenseHashMap.emptyPair, n, cnt⟩ :
        DenseHashMap Key Value) ∧
    DenseNoDup
      (⟨List.replicate n DenseHashMap.emptyPair, n, cnt⟩ :
        DenseHashMap Key Value) ∧
    DenseNoTomb
      (⟨List.replicate n DenseHashMap.emptyPair, n, cnt⟩ :
        DenseHashMap Key Value) ∧
    (∀ K, ¬ DenseLive
      (⟨List.replicate n DenseHashMap.emptyPair, n, cnt⟩ :
        DenseHashMap Key Value) K) ∧
    denseTaken (List.replicate n
      (DenseHashMap.emptyPair : DenseHashMap.Pair Key Value)) = 0 := by
  have hslot : ∀ p, p < n →
      DenseHashMap.slot (List.replicate n
        (DenseHashMap.emptyPair : DenseHashMap.Pair Key Value)) p =
      DenseHashMap.emptyPair := fun p hp => getD_replicate _ _ hp
  have hstate : (DenseHashMap.emptyPair :
      DenseHashMap.Pair Key Value).state = BucketState.FREE := rfl
  have htaken : denseTaken (List.replicate n
      (DenseHashMap.emptyPair : DenseHashMap.Pair Key Value)) = 0 := by
    rw [denseTaken, List.countP_eq_zero]
    intro a ha
    rw [List.eq_of_mem_replicate ha]
    simp [DenseHashMap.emptyPair]
  refine ⟨⟨⟨kk, hck⟩, by simp, by simp [htaken], ?_⟩, ?_, ?_, ?_, htaken⟩
  · intro p hp hT
    rw [hslot p hp, hstate] at hT
    cases hT
  · intro p q hp hq hpq hTp
    rw [hslot p hp, hstate] at hTp
    cases hTp
  · intro p hp
    rw [hslot p hp, hstate]
    intro hcon
    cases hcon
  · rintro K ⟨p, hp, hT, _⟩
    rw [hslot p hp, hstate] at hT
    cases hT

/-- `Clear` keeps the invariant and capacity, wipes all entries, but
(source bug) keeps the stale `count_`. -/
theorem denseClear_spec (hashK : Key → Nat) (s : DenseHashMap Key Value)
    (hInv : DenseInv hashK s) :
    DenseInv hashK (DenseHashMap.Clear s) ∧
    (DenseHashMap.Clear s).capacity_ = s.capacity_ ∧
    DenseNoDup (DenseHashMap.Clear s) ∧
    (∀ K, ¬ DenseLive (DenseHashMap.Clear s) K) := by
  obtain ⟨kk, hck⟩ := hInv.pow
  have h := (denseFresh_spec hashK s.capacity_ s.count_ kk hck :
    DenseInv hashK (DenseHashMap.Clear s) ∧ _)
  exact ⟨h.1, rfl, h.2.1, h.2.2.2.1⟩

/-- Stored entries are exactly the TAKEN pairs of the slot array. -/
theorem denseHasEntry_iff_mem {hashK : Key → Nat} {s : DenseHashMap Key Value}
    (hInv : DenseInv hashK s) (K : Key) (V : Value) :
    DenseHasEntry s K V ↔
    (⟨BucketState.TAKEN, K, V⟩ : DenseHashMap.Pair Key Value) ∈ s.map := by
  constructor
  · rintro ⟨p, hp, hpair⟩
    have hlen : p < s.map.length := by rw [hInv.len]; exact hp
    rw [← hpair, DenseHashMap.slot, List.getD_eq_getElem _ _ hlen]
    exact List.getElem_mem hlen
  · intro hmem
    obtain ⟨i, hi, hEq⟩ := List.mem_iff_getElem.mp hmem
    refine ⟨i, by rw [← hInv.len]; exact hi, ?_⟩
    rw [DenseHashMap.slot, List.getD_eq_getElem _ _ hi, hEq]

/-- A TAKEN pair in the slot array makes its key live. -/
theorem denseLive_of_mem {hashK : Key → Nat} {s : DenseHashMap Key Value}
    (hInv : DenseInv hashK s) {pr : DenseHashMap.Pair Key Value}
    (hpr : pr ∈ s.map) (hT : pr.state = BucketState.TAKEN) :
    DenseLive s pr.key := by
  obtain ⟨i, hi, hEq⟩ := List.mem_iff_getElem.mp hpr
  refine ⟨i, by rw [← hInv.len]; exact hi, ?_, ?_⟩
  · rw [DenseHashMap.slot, List.getD_eq_getElem _ _ hi, hEq]
    exact hT
  · rw [DenseHashMap.slot, List.getD_eq_getElem _ _ hi, hEq]

/-- Slot-level key distinctness gives list-level pairwise distinctness. -/
theorem denseNoDup_pairwise {hashK : Key → Nat} {s : DenseHashMap Key Value}
    (hInv : DenseInv hashK s) (hnd : DenseNoDup s) :
    s.map.Pairwise (fun a b => a.state = BucketState.TAKEN →
      b.state = BucketState.TAKEN → a.key ≠ b.key) := by
  rw [List.pairwise_iff_getElem]
  intro i j hi hj hij hTi hTj
  have h1 : DenseHashMap.slot s.map i = s.map[i] := by
    rw [DenseHashMap.slot, List.getD_eq_getElem _ _ hi]
  have h2 : DenseHashMap.slot s.map j = s.map[j] := by
    rw [DenseHashMap.slot, List.getD_eq_getElem _ _ hj]
  have := hnd i j (by rw [← hInv.len]; exact hi)
    (by rw [← hInv.len]; exact hj) (by omega)
    (by rw [h1]; exact hTi) (by rw [h2]; exact hTj)
  rw [h1, h2] at this
  exact this

/-- The re-insertion fold of a Dense `Grow` never re-triggers growth (its
accumulator always has `count_ = #TAKEN ≤ capacity/2`), keeps the capacity,
and restores the exact count. -/
theorem denseReinsert_specA (hashK : Key → Nat) (fuel : Nat) :
    ∀ (l : List (DenseHashMap.Pair Key Value))
      (acc s' : DenseHashMap Key Value),
    DenseHashMap.Reinsert
      (fun a k v => DenseHashMap.Insert hashK fuel a k v) l acc = some s' →
    DenseInv hashK acc →
    acc.count_ = denseTaken acc.map →
    denseTaken acc.map + denseTaken l ≤ acc.capacity_ / 2 →
    DenseInv hashK s' ∧ s'.capacity_ = acc.capacity_ ∧
    s'.count_ = denseTaken s'.map ∧
    denseTaken s'.map ≤ denseTaken acc.map + denseTaken l := by
  intro l
  induction l with
  | nil =>
    intro acc s' h hInv hex hsl
    simp only [DenseHashMap.Reinsert] at h
    injection h with h
    subst h
    exact ⟨hInv, rfl, hex, by omega⟩
  | cons pr rest ih =>
    intro acc s' h hInv hex hsl
    simp only [DenseHashMap.Reinsert] at h
    by_cases hT : pr.state = BucketState.TAKEN
    · rw [if_pos hT] at h
      obtain ⟨bs, hins, hrest⟩ := Option.bind_eq_some.mp h
      have hTcnt : denseTaken (pr :: rest) = denseTaken rest + 1 := by
        simp [denseTaken, List.countP_cons, hT]
      rw [hTcnt] at hsl
      cases fuel with
      | zero => rw [DenseHashMap.Insert] at hins; cases hins
      | succ g =>
        have hnogrow : ¬ (acc.count_ > acc.capacity_ / 2) := by omega
        rw [denseInsert_succ, if_neg hnogrow, Option.some_bind] at hins
        obtain ⟨b1, s1⟩ := bs
        obtain ⟨hInv1, hcap1, hfalse1, htrue1⟩ :=
          denseInsertCore_spec hashK hInv hins
        cases b1 with
        | false =>
          obtain ⟨hs1, -⟩ := hfalse1 rfl
          rw [hs1] at hrest
          have := ih acc s' hrest hInv hex (by omega)
          obtain ⟨hi1, hi2, hi3, hi4⟩ := this
          exact ⟨hi1, hi2, hi3, by omega⟩
        | true =>
          obtain ⟨hcount1, htaken1, -⟩ := htrue1 rfl
          have := ih s1 s' hrest hInv1 (by omega) (by omega)
          obtain ⟨hi1, hi2, hi3, hi4⟩ := this
          refine ⟨hi1, by omega, hi3, by omega⟩
    · rw [if_neg hT] at h
      have hTcnt : denseTaken (pr :: rest) = denseTaken rest := by
        simp [denseTaken, List.countP_cons, hT]
      rw [hTcnt] at hsl
      have := ih acc s' h hInv hex hsl
      obtain ⟨hi1, hi2, hi3, hi4⟩ := this
      exact ⟨hi1, hi2, hi3, by omega⟩

/-- `Grow` (Dense): invariant preserved, capacity doubled, count made exact,
TAKEN count not increased. -/
theorem denseGrow_specA (hashK : Key → Nat) {fuel : Nat}
    {s s1 : DenseHashMap Key Value} (hInv : DenseInv hashK s)
    (h : DenseHashMap.Grow hashK fuel s = some s1) :
    DenseInv hashK s1 ∧ s1.capacity_ = s.capacity_ * 2 ∧
    s1.count_ = denseTaken s1.map ∧
    denseTaken s1.map ≤ denseTaken s.map := by
  obtain ⟨kk, hck⟩ := hInv.pow
  rw [DenseHashMap.Grow] at h
  have hfresh := (denseFresh_spec hashK
    (s.capacity_ * 2) 0 (kk + 1) (by rw [hck]; ring) :
    DenseInv hashK (⟨List.replicate (s.capacity_ * 2)
        DenseHashMap.emptyPair, s.capacity_ * 2, 0⟩ :
      DenseHashMap Key Value) ∧ _)
  have htklen : denseTaken s.map ≤ s.capacity_ := by
    have h1 := denseTaken_le_length s.map
    rw [hInv.len] at h1
    exact h1
  have := denseReinsert_specA hashK fuel s.map
    ⟨List.replicate (s.capacity_ * 2) DenseHashMap.emptyPair,
      s.capacity_ * 2, 0⟩ s1 h hfresh.1
    (by show 0 = denseTaken (List.replicate _ _); rw [hfresh.2.2.2.2])
    (by show denseTaken (List.replicate _ _) + denseTaken s.map ≤
          (s.capacity_ * 2) / 2
        rw [hfresh.2.2.2.2]
        omega)
  obtain ⟨h1, h2, h3, h4⟩ := this
  refine ⟨h1, h2, h3, ?_⟩
  rw [hfresh.2.2.2.2] at h4
  omega

/-- `Insert` (Dense, any fuel): invariant preserved, capacity monotone, and
both the TAKEN count and `count_` are at most `capacity/2 + 1` on return. -/
theorem denseInsert_specA (hashK : Key → Nat) {fuel : Nat}
    {s : DenseHashMap Key Value} {K : Key} {V : Value} {b : Bool}
    {s' : DenseHashMap Key Value} (hInv : DenseInv hashK s)
    (h : DenseHashMap.Insert hashK fuel s K V = some (b, s')) :
    DenseInv hashK s' ∧ s.capacity_ ≤ s'.capacity_ ∧
    denseTaken s'.map ≤ s'.capacity_ / 2 + 1 ∧
    s'.count_ ≤ s'.capacity_ / 2 + 1 := by
  cases fuel with
  | zero => rw [DenseHashMap.Insert] at h; cases h
  | succ g =>
    rw [denseInsert_succ] at h
    by_cases hg : s.count_ > s.capacity_ / 2
    · rw [if_pos hg] at h
      obtain ⟨s1, hgrow, hcore⟩ := Option.bind_eq_some.mp h
      obtain ⟨hInv1, hcap1, hex1, htk1⟩ := denseGrow_specA hashK hInv hgrow
      obtain ⟨hInv', hcap', hfalse, htrue⟩ :=
        denseInsertCore_spec hashK hInv1 hcore
      have htklen : denseTaken s.map ≤ s.capacity_ := by
        have h1 := denseTaken_le_length s.map
        rw [hInv.len] at h1
        exact h1
      cases b with
      | false =>
        obtain ⟨hs, -⟩ := hfalse rfl
        rw [hs]
        exact ⟨hInv1, by omega, by omega, by omega⟩
      | true =>
        obtain ⟨hcount', htaken', -⟩ := htrue rfl
        exact ⟨hInv', by omega, by omega, by omega⟩
    · rw [if_neg hg, Option.some_bind] at h
      obtain ⟨hInv', hcap', hfalse, htrue⟩ :=
        denseInsertCore_spec hashK hInv h
      have hcnt := hInv.cnt
      cases b with
      | false =>
        obtain ⟨hs, -⟩ := hfalse rfl
        rw [hs]
        exact ⟨hInv, by omega, by omega, by omega⟩
      | true =>
        obtain ⟨hcount', htaken', -⟩ := htrue rfl
        exact ⟨hInv', by omega, by omega, by omega⟩

/-! ## Reachability (Dense) -/

/-- States reachable from a power-of-two-capacity constructor call through
the public mutating operations, with any fuel (i.e. any terminating run). -/
inductive DenseReachable (hashK : Key → Nat) :
    DenseHashMap Key Value → Prop where
  | init (kk : Nat) : DenseReachable hashK (DenseHashMap.init (2 ^ kk))
  | ins {s : DenseHashMap Key Value} (fuel : Nat) {key : Key} {value : Value}
      {b : Bool} {s1 : DenseHashMap Key Value} :
      DenseReachable hashK s →
      DenseHashMap.Insert hashK fuel s key value = some (b, s1) →
      DenseReachable hashK s1
  | rem {s : DenseHashMap Key Value} {key : Key}
      {s1 : DenseHashMap Key Value} :
      DenseReachable hashK s →
      DenseHashMap.Remove hashK s key = some s1 →
      DenseReachable hashK s1
  | clr {s : DenseHashMap Key Value} :
      DenseReachable hashK s →
      DenseReachable hashK (DenseHashMap.Clear s)

/-- Every reachable Dense table satisfies the structural invariant. -/
theorem denseReachable_inv {hashK : Key → Nat} {s : DenseHashMap Key Value}
    (h : DenseReachable hashK s) : DenseInv hashK s := by
  induction h with
  | init kk => exact (denseFresh_spec hashK _ 0 kk rfl).1
  | ins fuel hr hins ih => exact (denseInsert_specA hashK ih hins).1
  | rem hr hrem ih => exact (denseRemove_spec hashK ih hrem).1
  | clr hr ih => exact (denseClear_spec hashK _ ih).1

/-- Liveness is membership of a TAKEN pair. -/
theorem denseLive_iff_mem {hashK : Key → Nat} {s : DenseHashMap Key Value}
    (hInv : DenseInv hashK s) (K : Key) :
    DenseLive s K ↔
    ∃ pr ∈ s.map, pr.state = BucketState.TAKEN ∧ pr.key = K := by
  constructor
  · rintro ⟨p, hp, hT, hk⟩
    have hlen : p < s.map.length := by rw [hInv.len]; exact hp
    refine ⟨s.map[p], List.getElem_mem hlen, ?_, ?_⟩
    · rw [← List.getD_eq_getElem s.map DenseHashMap.emptyPair hlen]
      exact hT
    · rw [← List.getD_eq_getElem s.map DenseHashMap.emptyPair hlen]
      exact hk
  · rintro ⟨pr, hmem, hT, hk⟩
    have := denseLive_of_mem hInv hmem hT
    rwa [hk] at this

/-- Skipping pass-through slots in the `Insert` probe loop. -/
theorem denseInsertLoop_skip {c kk : Nat} (hck : c = 2 ^ kk) (key : Key)
    (m : List (DenseHashMap.Pair Key Value)) {pos : Nat} (hpos : pos < c) :
    ∀ n i d, d < c → i ≤ d → d - i = n →
    (∀ j, i ≤ j → j < d →
      (DenseHashMap.slot m ((pos + j) % c)).state = BucketState.TAKEN ∧
      key ≠ (DenseHashMap.slot m ((pos + j) % c)).key) →
    DenseHashMap.InsertLoop key (c - 1) pos m (c - i) ((pos + i) % c) =
    DenseHashMap.InsertLoop key (c - 1) pos m (c - d) ((pos + d) % c) := by
  intro n
  induction n with
  | zero =>
    intro i d hd hid hn _
    have : i = d := by omega
    rw [this]
  | succ n ih =>
    intro i d hd hid hn hpass
    have hidlt : i < d := by omega
    have hstep : c - i = (c - (i + 1)) + 1 := by omega
    rw [hstep, DenseHashMap.InsertLoop]
    rw [if_pos (hpass i (Nat.le_refl i) hidlt).1,
      if_neg (hpass i (Nat.le_refl i) hidlt).2]
    simp only [and_mask_eq_mod kk hck, Nat.mod_add_mod]
    have hi1 : i + 1 < c := by omega
    rw [show pos + i + 1 = pos + (i + 1) by omega]
    rw [if_neg (probePos_ne_start hpos (by omega) hi1)]
    exact ih (i + 1) d hd (by omega) (by omega)
      (fun j h1 h2 => hpass j (by omega) h2)

/-- If a live key sits at the end of an all-TAKEN probe run and the load
factor does not trigger growth, `Insert` of that key returns `false` and
leaves the table exactly as it was. -/
theorem denseInsertCore_dupPath (hashK : Key → Nat)
    {s : DenseHashMap Key Value} {K : Key} {W : Value} (V' : Value)
    (hInv : DenseInv hashK s) (hnd : DenseNoDup s)
    (hq : ∃ q, q < s.capacity_ ∧
      DenseHashMap.slot s.map q = ⟨BucketState.TAKEN, K, W⟩ ∧
      (∀ j, j < probeDist s.capacity_ (hashK K % s.capacity_) q →
        (DenseHashMap.slot s.map
          ((hashK K % s.capacity_ + j) % s.capacity_)).state =
          BucketState.TAKEN)) :
    DenseHashMap.InsertCore hashK s K V' = some (false, s) := by
  obtain ⟨q, hqlt, hqpair, hqpath⟩ := hq
  obtain ⟨kk, hck⟩ := hInv.pow
  have hc0 : 0 < s.capacity_ := denseInv_cap_pos hInv
  set c := s.capacity_ with hc
  rw [DenseHashMap.InsertCore]
  rw [and_mask_eq_mod kk hck]
  set pos := hashK K % c with hposdef
  have hpos : pos < c := Nat.mod_lt _ hc0
  set d := probeDist c pos q with hddef
  have hdlt : d < c := probeDist_lt hc0 pos q
  have htgt : (pos + d) % c = q := probeDist_spec hpos hqlt
  have hqkey : (DenseHashMap.slot s.map q).key = K := by rw [hqpair]
  have hqT : (DenseHashMap.slot s.map q).state = BucketState.TAKEN := by
    rw [hqpair]
  have hpass : ∀ j, 0 ≤ j → j < d →
      (DenseHashMap.slot s.map ((pos + j) % c)).state = BucketState.TAKEN ∧
      K ≠ (DenseHashMap.slot s.map ((pos + j) % c)).key := by
    intro j _ hj
    refine ⟨hqpath j hj, ?_⟩
    intro hkeyEq
    have hne : (pos + j) % c ≠ q := probePos_ne_target hpos hqlt hj
    exact hnd _ q (Nat.mod_lt _ hc0) hqlt hne (hqpath j hj) hqT
      (by rw [← hkeyEq, hqkey])
  have hskip := denseInsertLoop_skip hck K s.map hpos d 0 d hdlt
    (Nat.zero_le d) (by omega) (fun j h1 h2 => hpass j h1 h2)
  have hstart : (pos + 0) % c = pos := by simp [Nat.mod_eq_of_lt hpos]
  rw [Nat.sub_zero, hstart] at hskip
  rw [hskip, htgt]
  have hfuel : c - d = (c - d - 1) + 1 := by omega
  rw [hfuel, DenseHashMap.InsertLoop, if_pos hqT, if_pos hqkey.symm]
  rfl

/-- A stored pair makes its key live. -/
theorem denseLive_of_hasEntry {s : DenseHashMap Key Value} {K : Key}
    {V : Value} (h : DenseHasEntry s K V) : DenseLive s K := by
  obtain ⟨p, hp, hpair⟩ := h
  exact ⟨p, hp, by rw [hpair], by rw [hpair]⟩

/-- Entry-set tracking for the re-insertion fold (Dense): starting from a
duplicate-free accumulator and a pairwise-distinct TAKEN list of fresh keys,
the fold adds exactly the TAKEN pairs of the list. -/
theorem denseReinsert_specB (hashK : Key → Nat) (fuel : Nat) :
    ∀ (l : List (DenseHashMap.Pair Key Value))
      (acc s' : DenseHashMap Key Value),
    DenseHashMap.Reinsert
      (fun a k v => DenseHashMap.Insert hashK fuel a k v) l acc = some s' →
    DenseInv hashK acc →
    acc.count_ = denseTaken acc.map →
    denseTaken acc.map + denseTaken l ≤ acc.capacity_ / 2 →
    DenseNoDup acc →
    l.Pairwise (fun a b => a.state = BucketState.TAKEN →
      b.state = BucketState.TAKEN → a.key ≠ b.key) →
    (∀ pr ∈ l, pr.state = BucketState.TAKEN → ¬ DenseLive acc pr.key) →
    DenseNoDup s' ∧
    (DenseNoTomb acc → DenseNoTomb s') ∧
    (∀ K V, DenseHasEntry s' K V ↔ (DenseHasEntry acc K V ∨
      (⟨BucketState.TAKEN, K, V⟩ : DenseHashMap.Pair Key Value) ∈ l)) ∧
    (∀ K, DenseLive s' K ↔ (DenseLive acc K ∨
      ∃ pr ∈ l, pr.state = BucketState.TAKEN ∧ pr.key = K)) := by
  intro l
  induction l with
  | nil =>
    intro acc s' h hInv hex hsl hnd hpw hkeys
    simp only [DenseHashMap.Reinsert] at h
    injection h with h
    subst h
    exact ⟨hnd, fun ht => ht, fun K V => by simp, fun K => by simp⟩
  | cons pr rest ih =>
    intro acc s' h hInv hex hsl hnd hpw hkeys
    simp only [DenseHashMap.Reinsert] at h
    obtain ⟨prs, prk, prv⟩ := pr
    by_cases hT : prs = BucketState.TAKEN
    · subst hT
      rw [if_pos rfl] at h
      obtain ⟨bs, hins, hrest⟩ := Option.bind_eq_some.mp h
      have hTcnt : denseTaken
          ((⟨BucketState.TAKEN, prk, prv⟩ :
            DenseHashMap.Pair Key Value) :: rest) =
          denseTaken rest + 1 := by
        simp [denseTaken, List.countP_cons]
      rw [hTcnt] at hsl
      cases fuel with
      | zero => rw [DenseHashMap.Insert] at hins; cases hins
      | succ g =>
        have hnogrow : ¬ (acc.count_ > acc.capacity_ / 2) := by omega
        rw [denseInsert_succ, if_neg hnogrow, Option.some_bind] at hins
        obtain ⟨b1, s1⟩ := bs
        have hnl : ¬ DenseLive acc prk :=
          hkeys _ (List.mem_cons_self _ rest) rfl
        obtain ⟨hb1, hInv1, hcap1, hnd1, hE1, huniq1, hEiff1, hLiff1,
          hNT1, htk1, hcnt1, -⟩ :=
          denseInsertCore_clean hashK hInv hnd hnl hins
        have hpwparts := List.pairwise_cons.mp hpw
        have hpwhead := hpwparts.1
        have hpwrest := hpwparts.2
        have hkeys1 : ∀ pr' ∈ rest, pr'.state = BucketState.TAKEN →
            ¬ DenseLive s1 pr'.key := by
          intro pr' hmem hT'
          have hne : pr'.key ≠ prk :=
            (hpwhead pr' hmem rfl hT').symm
          rw [hLiff1 pr'.key hne]
          exact hkeys pr' (List.mem_cons_of_mem _ hmem) hT'
        obtain ⟨hnd', hNT', hEiff', hLiff'⟩ :=
          ih s1 s' hrest hInv1 (by omega) (by omega) hnd1 hpwrest hkeys1
        refine ⟨hnd', fun hNTacc => hNT' (hNT1 hNTacc), ?_, ?_⟩
        · intro K V
          rw [hEiff' K V]
          by_cases hKeq : K = prk
          · subst hKeq
            constructor
            · rintro (hE | hmem)
              · have := huniq1 V hE
                subst this
                exact Or.inr (List.mem_cons_self _ rest)
              · exact absurd rfl
                  (hpwhead ⟨BucketState.TAKEN, K, V⟩ hmem rfl rfl)
            · rintro (hE | hmem)
              · exact absurd (denseLive_of_hasEntry hE) hnl
              · rcases List.mem_cons.mp hmem with hEq | hmem'
                · injection hEq with h1 h2 h3
                  rw [h3]
                  exact Or.inl hE1
                · exact absurd rfl
                    (hpwhead ⟨BucketState.TAKEN, K, V⟩ hmem' rfl rfl)
          · constructor
            · rintro (hE | hmem)
              · exact Or.inl ((hEiff1 K V hKeq).mp hE)
              · exact Or.inr (List.mem_cons_of_mem _ hmem)
            · rintro (hE | hmem)
              · exact Or.inl ((hEiff1 K V hKeq).mpr hE)
              · rcases List.mem_cons.mp hmem with hEq | hmem'
                · injection hEq with h1 h2 h3
                  exact absurd h2 hKeq
                · exact Or.inr hmem'
        · intro K
          rw [hLiff' K]
          by_cases hKeq : K = prk
          · subst hKeq
            constructor
            · rintro (hL | ⟨pr', hmem, hT', hk'⟩)
              · exact Or.inr ⟨_, List.mem_cons_self _ rest, rfl, rfl⟩
              · exact absurd hk'.symm (hpwhead pr' hmem rfl hT')
            · rintro (hL | ⟨pr', hmem, hT', hk'⟩)
              · exact absurd hL hnl
              · exact Or.inl (denseLive_of_hasEntry hE1)
          · constructor
            · rintro (hL | ⟨pr', hmem, hT', hk'⟩)
              · exact Or.inl ((hLiff1 K hKeq).mp hL)
              · exact Or.inr ⟨pr', List.mem_cons_of_mem _ hmem, hT', hk'⟩
            · rintro (hL | ⟨pr', hmem, hT', hk'⟩)
              · exact Or.inl ((hLiff1 K hKeq).mpr hL)
              · rcases List.mem_cons.mp hmem with hEq | hmem'
                · rw [hEq] at hk'
                  exact absurd hk'.symm hKeq
                · exact Or.inr ⟨pr', hmem', hT', hk'⟩
    · rw [if_neg hT] at h
      have hTcnt : denseTaken
          ((⟨prs, prk, prv⟩ : DenseHashMap.Pair Key Value) :: rest) =
          denseTaken rest := by
        simp [denseTaken, List.countP_cons, hT]
      rw [hTcnt] at hsl
      have hpwrest := (List.pairwise_cons.mp hpw).2
      have hkeysrest : ∀ pr' ∈ rest, pr'.state = BucketState.TAKEN →
          ¬ DenseLive acc pr'.key :=
        fun pr' hmem hT' => hkeys pr' (List.mem_cons_of_mem _ hmem) hT'
      obtain ⟨hnd', hNT', hEiff', hLiff'⟩ :=
        ih acc s' h hInv hex hsl hnd hpwrest hkeysrest
      refine ⟨hnd', hNT', ?_, ?_⟩
      · intro K V
        rw [hEiff' K V]
        constructor
        · rintro (hE | hmem)
          · exact Or.inl hE
          · exact Or.inr (List.mem_cons_of_mem _ hmem)
        · rintro (hE | hmem)
          · exact Or.inl hE
          · rcases List.mem_cons.mp hmem with hEq | hmem'
            · injection hEq with h1 h2 h3
              exact absurd h1.symm hT
            · exact Or.inr hmem'
      · intro K
        rw [hLiff' K]
        constructor
        · rintro (hL | ⟨pr', hmem, hT', hk'⟩)
          · exact Or.inl hL
          · exact Or.inr ⟨pr', List.mem_cons_of_mem _ hmem, hT', hk'⟩
        · rintro (hL | ⟨pr', hmem, hT', hk'⟩)
          · exact Or.inl hL
          · rcases List.mem_cons.mp hmem with hEq | hmem'
            · rw [hEq] at hT'
              exact absurd hT' hT
            · exact Or.inr ⟨pr', hmem', hT', hk'⟩

/-- If a live key sits at the end of an all-TAKEN probe run and the load
factor does not trigger growth, `Insert` of that key returns `false` and
leaves the table exactly as it was. -/
theorem denseInsert_dupPath (hashK : Key → Nat) {s : DenseHashMap Key Value}
    {K : Key} {W : Value} (V' : Value) (fuel : Nat)
    (hInv : DenseInv hashK s) (hnd : DenseNoDup s)
    (hsmall : s.count_ ≤ s.capacity_ / 2)
    (hq : ∃ q, q < s.capacity_ ∧
      DenseHashMap.slot s.map q = ⟨BucketState.TAKEN, K, W⟩ ∧
      (∀ j, j < probeDist s.capacity_ (hashK K % s.capacity_) q →
        (DenseHashMap.slot s.map
          ((hashK K % s.capacity_ + j) % s.capacity_)).state =
          BucketState.TAKEN)) :
    DenseHashMap.Insert hashK (fuel + 1) s K V' = some (false, s) := by
  rw [denseInsert_succ, if_neg (by omega), Option.some_bind]
  exact denseInsertCore_dupPath hashK V' hInv hnd hq

/-- `Grow` (Dense) with no duplicate keys: a fresh, tombstone-free,
duplicate-free table holding exactly the old entries at double capacity. -/
theorem denseGrow_specB (hashK : Key → Nat) {fuel : Nat}
    {s s1 : DenseHashMap Key Value} (hInv : DenseInv hashK s)
    (hnd : DenseNoDup s)
    (h : DenseHashMap.Grow hashK fuel s = some s1) :
    DenseInv hashK s1 ∧ s1.capacity_ = s.capacity_ * 2 ∧
    s1.count_ = denseTaken s1.map ∧
    DenseNoDup s1 ∧ DenseNoTomb s1 ∧
    (∀ K V, DenseHasEntry s1 K V ↔ DenseHasEntry s K V) ∧
    (∀ K, DenseLive s1 K ↔ DenseLive s K) := by
  obtain ⟨kk, hck⟩ := hInv.pow
  have hA := denseGrow_specA hashK hInv h
  rw [DenseHashMap.Grow] at h
  have hfresh := (denseFresh_spec hashK
    (s.capacity_ * 2) 0 (kk + 1) (by rw [hck]; ring) :
    DenseInv hashK (⟨List.replicate (s.capacity_ * 2)
        DenseHashMap.emptyPair, s.capacity_ * 2, 0⟩ :
      DenseHashMap Key Value) ∧ _)
  have htklen : denseTaken s.map ≤ s.capacity_ := by
    have h1 := denseTaken_le_length s.map
    rw [hInv.len] at h1
    exact h1
  obtain ⟨hnd1, hNT1, hEiff, hLiff⟩ :=
    denseReinsert_specB hashK fuel s.map
      ⟨List.replicate (s.capacity_ * 2) DenseHashMap.emptyPair,
        s.capacity_ * 2, 0⟩ s1 h hfresh.1
      (by show 0 = denseTaken (List.replicate _ _); rw [hfresh.2.2.2.2])
      (by show denseTaken (List.replicate _ _) + denseTaken s.map ≤
            (s.capacity_ * 2) / 2
          rw [hfresh.2.2.2.2]
          omega)
      hfresh.2.1 (denseNoDup_pairwise hInv hnd)
      (fun pr hmem hT => hfresh.2.2.2.1 pr.key)
  refine ⟨hA.1, hA.2.1, hA.2.2.1, hnd1, hNT1 hfresh.2.2.1, ?_, ?_⟩
  · intro K V
    rw [hEiff K V, denseHasEntry_iff_mem hInv]
    constructor
    · rintro (hE | hm)
      · exact absurd (denseLive_of_hasEntry hE) (hfresh.2.2.2.1 K)
      · exact hm
    · intro hm
      exact Or.inr hm
  · intro K
    rw [hLiff K, denseLive_iff_mem hInv]
    constructor
    · rintro (hL | hm)
      · exact absurd hL (hfresh.2.2.2.1 K)
      · exact hm
    · intro hm
      exact Or.inr hm

/-- `Insert` (Dense, any fuel) of a key that is not live: success, the new
entry is stored (uniquely, at the end of an all-TAKEN probe run), and
nothing else changes in the entry set. -/
theorem denseInsert_specClean (hashK : Key → Nat) {fuel : Nat}
    {s : DenseHashMap Key Value} {K : Key} {V : Value} {b : Bool}
    {s' : DenseHashMap Key Value}
    (hInv : DenseInv hashK s) (hnd : DenseNoDup s) (hnl : ¬ DenseLive s K)
    (h : DenseHashMap.Insert hashK fuel s K V = some (b, s')) :
    b = true ∧ DenseInv hashK s' ∧ DenseNoDup s' ∧
    s.capacity_ ≤ s'.capacity_ ∧
    DenseHasEntry s' K V ∧ (∀ V', DenseHasEntry s' K V' → V' = V) ∧
    (∀ K' V', K' ≠ K → (DenseHasEntry s' K' V' ↔ DenseHasEntry s K' V')) ∧
    (∀ K', K' ≠ K → (DenseLive s' K' ↔ DenseLive s K')) ∧
    (∃ p, p < s'.capacity_ ∧
      DenseHashMap.slot s'.map p = ⟨BucketState.TAKEN, K, V⟩ ∧
      (∀ j, j < probeDist s'.capacity_ (hashK K % s'.capacity_) p →
        (DenseHashMap.slot s'.map
          ((hashK K % s'.capacity_ + j) % s'.capacity_)).state =
          BucketState.TAKEN)) := by
  cases fuel with
  | zero => rw [DenseHashMap.Insert] at h; cases h
  | succ g =>
    rw [denseInsert_succ] at h
    by_cases hg : s.count_ > s.capacity_ / 2
    · rw [if_pos hg] at h
      obtain ⟨s1, hgrow, hcore⟩ := Option.bind_eq_some.mp h
      obtain ⟨hInv1, hcap1, hex1, hnd1, hNT1, hEiff1, hLiff1⟩ :=
        denseGrow_specB hashK hInv hnd hgrow
      have hnl1 : ¬ DenseLive s1 K := fun hh => hnl ((hLiff1 K).mp hh)
      obtain ⟨hb, hInv', hcap', hnd', hE', huniq', hEiff', hLiff',
        hNT', htk', hcnt', hplace⟩ :=
        denseInsertCore_clean hashK hInv1 hnd1 hnl1 hcore
      refine ⟨hb, hInv', hnd', by omega, hE', huniq', ?_, ?_, hplace⟩
      · intro K' V' hK'
        rw [hEiff' K' V' hK']
        exact hEiff1 K' V'
      · intro K' hK'
        rw [hLiff' K' hK']
        exact hLiff1 K'
    · rw [if_neg hg, Option.some_bind] at h
      obtain ⟨hb, hInv', hcap', hnd', hE', huniq', hEiff', hLiff',
        hNT', htk', hcnt', hplace⟩ :=
        denseInsertCore_clean hashK hInv hnd hnl h
      exact ⟨hb, hInv', hnd', by omega, hE', huniq', hEiff', hLiff', hplace⟩

/-! ## Prehash invariants -/

/-- Number of TAKEN slots. -/
def prehashTaken (m : List (PrehashMap.Pair Value)) : Nat :=
  m.countP fun pr => pr.state == BucketState.TAKEN

/-- `hash` is live: some TAKEN slot stores it. -/
def PrehashLive (s : PrehashMap Value) (hash : Nat) : Prop :=
  ∃ p, p < s.capacity_ ∧
    (PrehashMap.slot s.map p).state = BucketState.TAKEN ∧
    (PrehashMap.slot s.map p).hash = hash

/-- The pair `(hash, value)` is stored in some TAKEN slot. -/
def PrehashHasEntry (s : PrehashMap Value) (hash : Nat) (value : Value) :
    Prop :=
  ∃ p, p < s.capacity_ ∧
    PrehashMap.slot s.map p = ⟨BucketState.TAKEN, hash, value⟩

/-- No two TAKEN slots store the same hash. -/
def PrehashNoDup (s : PrehashMap Value) : Prop :=
  ∀ p q, p < s.capacity_ → q < s.capacity_ → p ≠ q →
    (PrehashMap.slot s.map p).state = BucketState.TAKEN →
    (PrehashMap.slot s.map q).state = BucketState.TAKEN →
    (PrehashMap.slot s.map p).hash ≠ (PrehashMap.slot s.map q).hash

/-- No tombstones. -/
def PrehashNoTomb (s : PrehashMap Value) : Prop :=
  ∀ p, p < s.capacity_ →
    (PrehashMap.slot s.map p).state ≠ BucketState.REMOVED

/-- Structural invariant of every reachable `PrehashMap`.  The home slot of
a stored hash is the hash itself masked by the capacity. -/
structure PrehashInv (s : PrehashMap Value) : Prop where
  pow : ∃ kk, s.capacity_ = 2 ^ kk
  len : s.map.length = s.capacity_
  cnt : prehashTaken s.map ≤ s.count_
  path : ∀ p, p < s.capacity_ →
    (PrehashMap.slot s.map p).state = BucketState.TAKEN →
    ∀ j, j < probeDist s.capacity_
      ((PrehashMap.slot s.map p).hash % s.capacity_) p →
      (PrehashMap.slot s.map
        (((PrehashMap.slot s.map p).hash % s.capacity_ + j) %
          s.capacity_)).state ≠ BucketState.FREE

theorem prehashInv_cap_pos {s : PrehashMap Value} (h : PrehashInv s) :
    0 < s.capacity_ := by
  obtain ⟨kk, hk⟩ := h.pow
  rw [hk]
  exact Nat.pos_pow_of_pos kk (by omega)

theorem prehashTaken_le_length (m : List (PrehashMap.Pair Value)) :
    prehashTaken m ≤ m.length :=
  List.countP_le_length _

/-! ## Prehash probe-loop lemmas -/

/-- Inversion for the `PrehashMap::Insert` probe loop. -/
theorem prehashInsertLoop_inversion {c kk : Nat} (hck : c = 2 ^ kk)
    (hash : Nat) (m : List (PrehashMap.Pair Value)) {pos : Nat}
    (hpos : pos < c) :
    ∀ fuel i spot, i < c →
    PrehashMap.InsertLoop hash (c - 1) pos m fuel ((pos + i) % c) =
      some spot →
    ∃ d, i ≤ d ∧ d < c ∧
      (∀ j, i ≤ j → j < d →
        (PrehashMap.slot m ((pos + j) % c)).state = BucketState.TAKEN ∧
        hash ≠ (PrehashMap.slot m ((pos + j) % c)).hash) ∧
      ((spot = InsertSpot.dup ∧
          (PrehashMap.slot m ((pos + d) % c)).state = BucketState.TAKEN ∧
          hash = (PrehashMap.slot m ((pos + d) % c)).hash) ∨
        (spot = InsertSpot.place ((pos + d) % c) ∧
          (PrehashMap.slot m ((pos + d) % c)).state ≠
            BucketState.TAKEN)) := by
  intro fuel
  induction fuel with
  | zero =>
    intro i spot hi h
    exact absurd h (by simp [PrehashMap.InsertLoop])
  | succ fuel ih =>
    intro i spot hi h
    rw [PrehashMap.InsertLoop] at h
    by_cases hF :
        (PrehashMap.slot m ((pos + i) % c)).state = BucketState.FREE
    · rw [if_neg (by simp [hF])] at h
      refine ⟨i, Nat.le_refl i, hi, ?_, Or.inr ?_⟩
      · intro j h1 h2; omega
      · cases h
        refine ⟨rfl, ?_⟩
        rw [hF]
        intro hcon
        cases hcon
    · rw [if_pos (by simpa using hF)] at h
      by_cases hT :
          (PrehashMap.slot m ((pos + i) % c)).state = BucketState.TAKEN
      · rw [if_pos hT] at h
        by_cases hH : hash = (PrehashMap.slot m ((pos + i) % c)).hash
        · rw [if_pos hH] at h
          refine ⟨i, Nat.le_refl i, hi, ?_, Or.inl ?_⟩
          · intro j h1 h2; omega
          · cases h; exact ⟨rfl, hT, hH⟩
        · rw [if_neg hH] at h
          simp only [and_mask_eq_mod kk hck, Nat.mod_add_mod] at h
          by_cases hw : (pos + i + 1) % c = pos
          · rw [if_pos hw] at h; cases h
          · rw [if_neg hw] at h
            have hi1 : i + 1 < c := by
              rcases Nat.lt_or_ge (i + 1) c with h1 | h1
              · exact h1
              · exfalso
                have hieq : i + 1 = c := by omega
                apply hw
                rw [show pos + i + 1 = pos + (i + 1) by omega, hieq,
                  Nat.add_mod_right, Nat.mod_eq_of_lt hpos]
            have h' := ih (i + 1) spot hi1
              (by rw [show pos + (i + 1) = pos + i + 1 by omega]; exact h)
            obtain ⟨d, hd1, hd2, hpass, hstop⟩ := h'
            refine ⟨d, by omega, hd2, ?_, hstop⟩
            intro j h1 h2
            rcases Nat.eq_or_lt_of_le h1 with h3 | h3
            · rw [← h3]; exact ⟨hT, hH⟩
            · exact hpass j h3 h2
      · rw [if_neg hT] at h
        refine ⟨i, Nat.le_refl i, hi, ?_, Or.inr ?_⟩
        · intro j h1 h2; omega
        · cases h; exact ⟨rfl, hT⟩

/-- Inversion for the `PrehashMap::Remove` probe loop. -/
theorem prehashRemoveLoop_inversion {c kk : Nat} (hck : c = 2 ^ kk)
    (hash : Nat) (m : List (PrehashMap.Pair Value)) {pos : Nat}
    (hpos : pos < c) :
    ∀ fuel i spot, i < c →
    PrehashMap.RemoveLoop hash (c - 1) pos m fuel ((pos + i) % c) =
      some spot →
    ∃ d, i ≤ d ∧ d < c ∧
      (∀ j, i ≤ j → j < d →
        (PrehashMap.slot m ((pos + j) % c)).state ≠ BucketState.FREE ∧
        ¬((PrehashMap.slot m ((pos + j) % c)).state = BucketState.TAKEN ∧
          hash = (PrehashMap.slot m ((pos + j) % c)).hash)) ∧
      ((spot = RemoveSpot.hit ((pos + d) % c) ∧
          (PrehashMap.slot m ((pos + d) % c)).state = BucketState.TAKEN ∧
          hash = (PrehashMap.slot m ((pos + d) % c)).hash) ∨
        (spot = RemoveSpot.miss ∧
          (PrehashMap.slot m ((pos + d) % c)).state =
            BucketState.FREE)) := by
  intro fuel
  induction fuel with
  | zero =>
    intro i spot hi h
    exact absurd h (by simp [PrehashMap.RemoveLoop])
  | succ fuel ih =>
    intro i spot hi h
    rw [PrehashMap.RemoveLoop] at h
    by_cases hF :
        (PrehashMap.slot m ((pos + i) % c)).state = BucketState.FREE
    · rw [if_neg (by simpa using hF)] at h
      refine ⟨i, Nat.le_refl i, hi, ?_, Or.inr ?_⟩
      · intro j h1 h2; omega
      · cases h; exact ⟨rfl, hF⟩
    · rw [if_pos (by simpa using hF)] at h
      by_cases hM :
          (PrehashMap.slot m ((pos + i) % c)).state = BucketState.TAKEN ∧
          hash = (PrehashMap.slot m ((pos + i) % c)).hash
      · rw [if_pos hM] at h
        refine ⟨i, Nat.le_refl i, hi, ?_, Or.inl ?_⟩
        · intro j h1 h2; omega
        · cases h; exact ⟨rfl, hM.1, hM.2⟩
      · rw [if_neg hM] at h
        simp only [and_mask_eq_mod kk hck, Nat.mod_add_mod] at h
        by_cases hw : (pos + i + 1) % c = pos
        · rw [if_pos hw] at h; cases h
        · rw [if_neg hw] at h
          have hi1 : i + 1 < c := by
            rcases Nat.lt_or_ge (i + 1) c with h1 | h1
            · exact h1
            · exfalso
              have hieq : i + 1 = c := by omega
              apply hw
              rw [show pos + i + 1 = pos + (i + 1) by omega, hieq,
                Nat.add_mod_right, Nat.mod_eq_of_lt hpos]
          have h' := ih (i + 1) spot hi1
            (by rw [show pos + (i + 1) = pos + i + 1 by omega]; exact h)
          obtain ⟨d, hd1, hd2, hpass, hstop⟩ := h'
          refine ⟨d, by omega, hd2, ?_, hstop⟩
          intro j h1 h2
          rcases Nat.eq_or_lt_of_le h1 with h3 | h3
          · rw [← h3]; exact ⟨hF, hM⟩
          · exact hpass j h3 h2

/-- Skipping pass-through slots in the `PrehashMap::Get` probe loop. -/
theorem prehashGetLoop_skip {c kk : Nat} (hck : c = 2 ^ kk) (nullv : Value)
    (hash : Nat) (m : List (PrehashMap.Pair Value)) {pos : Nat}
    (hpos : pos < c) :
    ∀ n i d, d < c → i ≤ d → d - i = n →
    (∀ j, i ≤ j → j < d →
      ¬((PrehashMap.slot m ((pos + j) % c)).state = BucketState.TAKEN ∧
        hash = (PrehashMap.slot m ((pos + j) % c)).hash) ∧
      (PrehashMap.slot m ((pos + j) % c)).state ≠ BucketState.FREE) →
    PrehashMap.GetLoop nullv hash (c - 1) pos m (c - i) ((pos + i) % c) =
    PrehashMap.GetLoop nullv hash (c - 1) pos m (c - d) ((pos + d) % c) := by
  intro n
  induction n with
  | zero =>
    intro i d hd hid hn _
    have : i = d := by omega
    rw [this]
  | succ n ih =>
    intro i d hd hid hn hpass
    have hidlt : i < d := by omega
    have hstep : c - i = (c - (i + 1)) + 1 := by omega
    rw [hstep, PrehashMap.GetLoop]
    rw [if_neg (hpass i (Nat.le_refl i) hidlt).1,
      if_neg (hpass i (Nat.le_refl i) hidlt).2]
    simp only [and_mask_eq_mod kk hck, Nat.mod_add_mod]
    have hi1 : i + 1 < c := by omega
    rw [show pos + i + 1 = pos + (i + 1) by omega]
    rw [if_neg (probePos_ne_start hpos (by omega) hi1)]
    exact ih (i + 1) d hd (by omega) (by omega)
      (fun j h1 h2 => hpass j (by omega) h2)

/-- Skipping pass-through slots in the `PrehashMap::Insert` probe loop. -/
theorem prehashInsertLoop_skip {c kk : Nat} (hck : c = 2 ^ kk) (hash : Nat)
    (m : List (PrehashMap.Pair Value)) {pos : Nat} (hpos : pos < c) :
    ∀ n i d, d < c → i ≤ d → d - i = n →
    (∀ j, i ≤ j → j < d →
      (PrehashMap.slot m ((pos + j) % c)).state = BucketState.TAKEN ∧
      hash ≠ (PrehashMap.slot m ((pos + j) % c)).hash) →
    PrehashMap.InsertLoop hash (c - 1) pos m (c - i) ((pos + i) % c) =
    PrehashMap.InsertLoop hash (c - 1) pos m (c - d) ((pos + d) % c) := by
  intro n
  induction n with
  | zero =>
    intro i d hd hid hn _
    have : i = d := by omega
    rw [this]
  | succ n ih =>
    intro i d hd hid hn hpass
    have hidlt : i < d := by omega
    have hstep : c - i = (c - (i + 1)) + 1 := by omega
    rw [hstep, PrehashMap.InsertLoop]
    have hT := (hpass i (Nat.le_refl i) hidlt).1
    have hH := (hpass i (Nat.le_refl i) hidlt).2
    rw [if_pos (show (PrehashMap.slot m ((pos + i) % c)).state ≠
      BucketState.FREE by rw [hT]; intro hcon; cases hcon)]
    rw [if_pos hT, if_neg hH]
    simp only [and_mask_eq_mod kk hck, Nat.mod_add_mod]
    have hi1 : i + 1 < c := by omega
    rw [show pos + i + 1 = pos + (i + 1) by omega]
    rw [if_neg (probePos_ne_start hpos (by omega) hi1)]
    exact ih (i + 1) d hd (by omega) (by omega)
      (fun j h1 h2 => hpass j (by omega) h2)

/-- `PrehashMap.Get` finds a stored entry. -/
theorem prehashGet_found (nullv : Value) {s : PrehashMap Value} {H : Nat}
    {V : Value} (hInv : PrehashInv s) (hnd : PrehashNoDup s)
    (hE : PrehashHasEntry s H V) :
    (PrehashMap.Get nullv s H).1 = GetResult.ok V := by
  obtain ⟨t, ht, hslot⟩ := hE
  obtain ⟨kk, hck⟩ := hInv.pow
  have hc0 : 0 < s.capacity_ := prehashInv_cap_pos hInv
  set c := s.capacity_ with hc
  have hmask : H &&& (c - 1) = H % c := and_mask_eq_mod kk hck _
  set pos := H % c with hposdef
  have hpos : pos < c := Nat.mod_lt _ hc0
  set d := probeDist c pos t with hd
  have hdlt : d < c := probeDist_lt hc0 _ _
  have htarget : (pos + d) % c = t := probeDist_spec hpos ht
  have hHt : (PrehashMap.slot s.map t).hash = H := by rw [hslot]
  have hTt : (PrehashMap.slot s.map t).state = BucketState.TAKEN := by
    rw [hslot]
  have hpass : ∀ j, 0 ≤ j → j < d →
      ¬((PrehashMap.slot s.map ((pos + j) % c)).state =
          BucketState.TAKEN ∧
        H = (PrehashMap.slot s.map ((pos + j) % c)).hash) ∧
      (PrehashMap.slot s.map ((pos + j) % c)).state ≠
        BucketState.FREE := by
    intro j _ hj
    have hne : (pos + j) % c ≠ t := probePos_ne_target hpos ht hj
    have hqlt : (pos + j) % c < c := Nat.mod_lt _ hc0
    constructor
    · rintro ⟨hq1, hq2⟩
      exact hnd _ _ hqlt ht hne hq1 hTt (by rw [← hq2, hHt])
    · have := hInv.path t ht hTt j (by rw [hHt]; exact hj)
      rw [hHt] at this
      exact this
  have hskip := prehashGetLoop_skip hck nullv H s.map hpos d 0 d hdlt
    (Nat.zero_le d) (by omega) (fun j h1 h2 => hpass j h1 h2)
  show (PrehashMap.GetLoop nullv H (c - 1) (H &&& (c - 1)) s.map c
    (H &&& (c - 1))).1 = GetResult.ok V
  rw [hmask]
  have hstart : (pos + 0) % c = pos := by
    simp [Nat.mod_eq_of_lt hpos]
  rw [Nat.sub_zero, hstart] at hskip
  rw [hskip, htarget]
  have hfuel : c - d = (c - d - 1) + 1 := by omega
  rw [hfuel, PrehashMap.GetLoop, if_pos ⟨hTt, hHt.symm⟩, hslot]

/-- `PrehashMap.Get` on a hash held by no TAKEN slot returns the null
pointer, provided some slot is FREE. -/
theorem prehashGet_absent (nullv : Value) {s : PrehashMap Value} {H : Nat}
    (hInv : PrehashInv s) (hAbs : ¬ PrehashLive s H)
    (hfree : ∃ q, q < s.capacity_ ∧
      (PrehashMap.slot s.map q).state = BucketState.FREE) :
    (PrehashMap.Get nullv s H).1 = GetResult.ok nullv := by
  obtain ⟨kk, hck⟩ := hInv.pow
  have hc0 : 0 < s.capacity_ := prehashInv_cap_pos hInv
  set c := s.capacity_ with hc
  have hmask : H &&& (c - 1) = H % c := and_mask_eq_mod kk hck _
  set pos := H % c with hposdef
  have hpos : pos < c := Nat.mod_lt _ hc0
  have hex : ∃ j, (PrehashMap.slot s.map ((pos + j) % c)).state =
      BucketState.FREE := by
    obtain ⟨q, hq, hqF⟩ := hfree
    exact ⟨probeDist c pos q, by rw [probeDist_spec hpos hq]; exact hqF⟩
  classical
  set d := Nat.find hex with hddef
  have hdF : (PrehashMap.slot s.map ((pos + d) % c)).state =
      BucketState.FREE := Nat.find_spec hex
  have hdlt : d < c := by
    obtain ⟨q, hq, hqF⟩ := hfree
    have h1 : d ≤ probeDist c pos q :=
      Nat.find_min' hex (by rw [probeDist_spec hpos hq]; exact hqF)
    have h2 := probeDist_lt hc0 pos q
    omega
  have hpass : ∀ j, 0 ≤ j → j < d →
      ¬((PrehashMap.slot s.map ((pos + j) % c)).state =
          BucketState.TAKEN ∧
        H = (PrehashMap.slot s.map ((pos + j) % c)).hash) ∧
      (PrehashMap.slot s.map ((pos + j) % c)).state ≠
        BucketState.FREE := by
    intro j _ hj
    constructor
    · rintro ⟨hq1, hq2⟩
      exact hAbs ⟨(pos + j) % c, Nat.mod_lt _ hc0, hq1, hq2.symm⟩
    · exact Nat.find_min hex hj
  have hskip := prehashGetLoop_skip hck nullv H s.map hpos d 0 d hdlt
    (Nat.zero_le d) (by omega) (fun j h1 h2 => hpass j h1 h2)
  show (PrehashMap.GetLoop nullv H (c - 1) (H &&& (c - 1)) s.map c
    (H &&& (c - 1))).1 = GetResult.ok nullv
  rw [hmask]
  have hstart : (pos + 0) % c = pos := by
    simp [Nat.mod_eq_of_lt hpos]
  rw [Nat.sub_zero, hstart] at hskip
  rw [hskip]
  have hfuel : c - d = (c - d - 1) + 1 := by omega
  rw [hfuel, PrehashMap.GetLoop,
    if_neg (by rw [hdF]; rintro ⟨h1, _⟩; cases h1), if_pos hdF]

/-- Full specification of the probe-and-write body of `PrehashMap::Insert`. -/
theorem prehashInsertCore_spec {s : PrehashMap Value}
    {H : Nat} {V : Value} {b : Bool} {s' : PrehashMap Value}
    (hInv : PrehashInv s)
    (h : PrehashMap.InsertCore s H V = some (b, s')) :
    PrehashInv s' ∧
    s'.capacity_ = s.capacity_ ∧
    (b = false → s' = s ∧ PrehashLive s H) ∧
    (b = true →
      s'.count_ = s.count_ + 1 ∧
      prehashTaken s'.map = prehashTaken s.map + 1 ∧
      (∃ p, p < s.capacity_ ∧
        PrehashMap.slot s'.map p = ⟨BucketState.TAKEN, H, V⟩ ∧
        (PrehashMap.slot s.map p).state ≠ BucketState.TAKEN ∧
        (∀ q, q < s.capacity_ → q ≠ p →
          PrehashMap.slot s'.map q = PrehashMap.slot s.map q) ∧
        (∀ j, j < probeDist s.capacity_ (H % s.capacity_) p →
          (PrehashMap.slot s'.map
            ((H % s.capacity_ + j) % s.capacity_)).state =
            BucketState.TAKEN))) := by
  obtain ⟨kk, hck⟩ := hInv.pow
  have hc0 : 0 < s.capacity_ := prehashInv_cap_pos hInv
  set c := s.capacity_ with hc
  simp only [PrehashMap.InsertCore] at h
  rw [and_mask_eq_mod kk hck] at h
  set pos := H % c with hposdef
  have hpos : pos < c := Nat.mod_lt _ hc0
  obtain ⟨spot, hspot, heq⟩ := Option.map_eq_some'.mp h
  have hstart : (pos + 0) % c = pos := by simp [Nat.mod_eq_of_lt hpos]
  have hinv0 := prehashInsertLoop_inversion hck H s.map hpos c 0 spot hc0
    (by rw [hstart]; exact hspot)
  obtain ⟨d, -, hdlt, hpass, hstop⟩ := hinv0
  rcases hstop with ⟨hspotd, hTd, hHd⟩ | ⟨hspotp, hTd⟩
  · subst hspotd
    simp only at heq
    rw [Prod.mk.injEq] at heq
    obtain ⟨hb, hs⟩ := heq
    subst hs
    refine ⟨hInv, rfl, ?_, ?_⟩
    · intro _
      exact ⟨rfl, ⟨(pos + d) % c, Nat.mod_lt _ hc0, hTd, hHd.symm⟩⟩
    · intro hb'
      rw [← hb] at hb'
      cases hb'
  · subst hspotp
    simp only at heq
    rw [Prod.mk.injEq] at heq
    obtain ⟨hb, hs⟩ := heq
    set p := (pos + d) % c with hpdef
    have hplt : p < c := Nat.mod_lt _ hc0
    have hplen : p < s.map.length := by rw [hInv.len]; exact hplt
    have hdist : probeDist c pos p = d := probeDist_add hpos hdlt
    have hsetself : PrehashMap.slot (s.map.set p
        ⟨BucketState.TAKEN, H, V⟩) p = ⟨BucketState.TAKEN, H, V⟩ :=
      getD_set_self _ _ hplen
    have hsetne : ∀ q, q ≠ p → PrehashMap.slot (s.map.set p
        ⟨BucketState.TAKEN, H, V⟩) q = PrehashMap.slot s.map q := by
      intro q hq
      exact getD_set_ne _ _ (fun hpq => hq hpq.symm)
    have htaken : prehashTaken (s.map.set p ⟨BucketState.TAKEN, H, V⟩) =
        prehashTaken s.map + 1 := by
      have h1 := countP_set_eq (fun pr => pr.state == BucketState.TAKEN)
        s.map p ⟨BucketState.TAKEN, H, V⟩ PrehashMap.emptyPair hplen
      have hold : ((s.map.getD p PrehashMap.emptyPair).state ==
          BucketState.TAKEN) = false := by
        rw [beq_eq_false_iff_ne]
        exact hTd
      simp only [hold] at h1
      simp at h1
      simpa [prehashTaken] using h1
    have hpathTK : ∀ j, j < d →
        (PrehashMap.slot (s.map.set p ⟨BucketState.TAKEN, H, V⟩)
          ((pos + j) % c)).state = BucketState.TAKEN := by
      intro j hj
      have hne : (pos + j) % c ≠ p := by
        intro hEq
        have : j = d := probePos_inj (Nat.lt_trans hj hdlt) hdlt
          (by rw [hEq, hpdef])
        omega
      rw [hsetne _ hne]
      exact (hpass j (Nat.zero_le j) hj).1
    have hInv' : PrehashInv
        { s with map := s.map.set p ⟨BucketState.TAKEN, H, V⟩,
                 count_ := s.count_ + 1 } := by
      refine ⟨⟨kk, hck⟩, ?_, ?_, ?_⟩
      · simpa using hInv.len
      · show prehashTaken (s.map.set p ⟨BucketState.TAKEN, H, V⟩) ≤
          s.count_ + 1
        rw [htaken]
        exact Nat.add_le_add_right hInv.cnt 1
      · intro q hq hqT j hj
        by_cases hqp : q = p
        · subst hqp
          have hkey : (PrehashMap.slot (s.map.set p
              ⟨BucketState.TAKEN, H, V⟩) p).hash = H := by
            rw [hsetself]
          rw [hkey] at hj ⊢
          have hj2 : j < d := by
            have hj' : j < probeDist c pos p := hj
            rwa [hdist] at hj'
          have hT := hpathTK j hj2
          show (PrehashMap.slot (s.map.set p ⟨BucketState.TAKEN, H, V⟩)
            ((pos + j) % c)).state ≠ BucketState.FREE
          rw [hT]
          intro hcon
          cases hcon
        · rw [hsetne _ hqp] at hj ⊢
          have hqT' : (PrehashMap.slot s.map q).state =
              BucketState.TAKEN := by
            rw [← hsetne _ hqp]; exact hqT
          set r := ((PrehashMap.slot s.map q).hash % c + j) % c
            with hrdef
          by_cases hrp : r = p
          · rw [hrp, hsetself]
            intro hcon
            cases hcon
          · rw [hsetne _ hrp]
            exact hInv.path q hq hqT' j hj
    subst hs
    refine ⟨hInv', rfl, ?_, ?_⟩
    · intro hb'
      rw [← hb] at hb'
      cases hb'
    · intro _
      refine ⟨rfl, htaken, p, hplt, hsetself, hTd, ?_, ?_⟩
      · intro q hq hqp
        exact hsetne q hqp
      · intro j hj
        rw [hdist] at hj
        exact hpathTK j hj

/-- A successful `PrehashMap.InsertCore` of a hash that is not live. -/
theorem prehashInsertCore_clean {s : PrehashMap Value}
    {H : Nat} {V : Value} {b : Bool} {s' : PrehashMap Value}
    (hInv : PrehashInv s) (hnd : PrehashNoDup s) (hnl : ¬ PrehashLive s H)
    (h : PrehashMap.InsertCore s H V = some (b, s')) :
    b = true ∧ PrehashInv s' ∧ s'.capacity_ = s.capacity_ ∧
    PrehashNoDup s' ∧ PrehashHasEntry s' H V ∧
    (∀ V', PrehashHasEntry s' H V' → V' = V) ∧
    (∀ H' V', H' ≠ H → (PrehashHasEntry s' H' V' ↔ PrehashHasEntry s H' V')) ∧
    (∀ H', H' ≠ H → (PrehashLive s' H' ↔ PrehashLive s H')) ∧
    (PrehashNoTomb s → PrehashNoTomb s') ∧
    prehashTaken s'.map = prehashTaken s.map + 1 ∧
    s'.count_ = s.count_ + 1 ∧
    (∃ p, p < s'.capacity_ ∧
      PrehashMap.slot s'.map p = ⟨BucketState.TAKEN, H, V⟩ ∧
      (∀ j, j < probeDist s'.capacity_ (H % s'.capacity_) p →
        (PrehashMap.slot s'.map
          ((H % s'.capacity_ + j) % s'.capacity_)).state =
          BucketState.TAKEN)) := by
  obtain ⟨hInv', hcap, hfalse, htrue⟩ := prehashInsertCore_spec hInv h
  cases b with
  | false => exact absurd (hfalse rfl).2 hnl
  | true =>
    obtain ⟨hcount, htaken, p, hplt, hpnew, hpold, hunch, hpath⟩ := htrue rfl
    have hpkey : (PrehashMap.slot s'.map p).hash = H := by rw [hpnew]
    have hpstate : (PrehashMap.slot s'.map p).state = BucketState.TAKEN := by
      rw [hpnew]
    refine ⟨rfl, hInv', hcap, ?_, ?_, ?_, ?_, ?_, ?_, htaken, hcount, ?_⟩
    · intro q r hq hr hqr hTq hTr hkeyEq
      rw [hcap] at hq hr
      by_cases hqp : q = p
      · have hrp : r ≠ p := fun hh => hqr (hqp.trans hh.symm)
        rw [hqp] at hkeyEq
        rw [hunch r hr hrp] at hTr hkeyEq
        rw [hpkey] at hkeyEq
        exact hnl ⟨r, hr, hTr, hkeyEq.symm⟩
      · by_cases hrp : r = p
        · rw [hrp] at hkeyEq
          rw [hunch q hq hqp] at hTq hkeyEq
          rw [hpkey] at hkeyEq
          exact hnl ⟨q, hq, hTq, hkeyEq⟩
        · rw [hunch q hq hqp] at hTq hkeyEq
          rw [hunch r hr hrp] at hTr hkeyEq
          exact hnd q r hq hr hqr hTq hTr hkeyEq
    · exact ⟨p, by rw [hcap]; exact hplt, hpnew⟩
    · rintro V' ⟨q, hq, hqpair⟩
      rw [hcap] at hq
      by_cases hqp : q = p
      · rw [hqp, hpnew] at hqpair
        injection hqpair with h1 h2 h3
        exact h3.symm
      · rw [hunch q hq hqp] at hqpair
        exact absurd ⟨q, hq, by rw [hqpair], by rw [hqpair]⟩ hnl
    · intro H' V' hH'
      constructor
      · rintro ⟨q, hq, hqpair⟩
        rw [hcap] at hq
        by_cases hqp : q = p
        · rw [hqp, hpnew] at hqpair
          injection hqpair with h1 h2 h3
          exact absurd h2.symm hH'
        · rw [hunch q hq hqp] at hqpair
          exact ⟨q, hq, hqpair⟩
      · rintro ⟨q, hq, hqpair⟩
        have hqp : q ≠ p := by
          intro hh
          rw [hh] at hqpair
          have : (PrehashMap.slot s.map p).state = BucketState.TAKEN := by
            rw [hqpair]
          exact hpold this
        refine ⟨q, by rw [hcap]; exact hq, ?_⟩
        rw [hunch q hq hqp]
        exact hqpair
    · intro H' hH'
      constructor
      · rintro ⟨q, hq, hqT, hqk⟩
        rw [hcap] at hq
        by_cases hqp : q = p
        · rw [hqp, hpkey] at hqk
          exact absurd hqk.symm hH'
        · rw [hunch q hq hqp] at hqT hqk
          exact ⟨q, hq, hqT, hqk⟩
      · rintro ⟨q, hq, hqT, hqk⟩
        have hqp : q ≠ p := by
          intro hh
          rw [hh] at hqT
          exact hpold hqT
        refine ⟨q, by rw [hcap]; exact hq, ?_, ?_⟩
        · rw [hunch q hq hqp]; exact hqT
        · rw [hunch q hq hqp]; exact hqk
    · intro hnt q hq
      rw [hcap] at hq
      by_cases hqp : q = p
      · rw [hqp, hpstate]
        intro hcon
        cases hcon
      · rw [hunch q hq hqp]
        exact hnt q hq
    · refine ⟨p, by rw [hcap]; exact hplt, hpnew, ?_⟩
      rw [hcap]
      exact hpath

/-- Duplicate rejection at the probe level for `PrehashMap`. -/
theorem prehashInsertCore_dupPath {s : PrehashMap Value} {H : Nat}
    {W : Value} (V' : Value) (hInv : PrehashInv s) (hnd : PrehashNoDup s)
    (hq : ∃ q, q < s.capacity_ ∧
      PrehashMap.slot s.map q = ⟨BucketState.TAKEN, H, W⟩ ∧
      (∀ j, j < probeDist s.capacity_ (H % s.capacity_) q →
        (PrehashMap.slot s.map
          ((H % s.capacity_ + j) % s.capacity_)).state =
          BucketState.TAKEN)) :
    PrehashMap.InsertCore s H V' = some (false, s) := by
  obtain ⟨q, hqlt, hqpair, hqpath⟩ := hq
  obtain ⟨kk, hck⟩ := hInv.pow
  have hc0 : 0 < s.capacity_ := prehashInv_cap_pos hInv
  set c := s.capacity_ with hc
  rw [PrehashMap.InsertCore]
  rw [and_mask_eq_mod kk hck]
  set pos := H % c with hposdef
  have hpos : pos < c := Nat.mod_lt _ hc0
  set d := probeDist c pos q with hddef
  have hdlt : d < c := probeDist_lt hc0 pos q
  have htgt : (pos + d) % c = q := probeDist_spec hpos hqlt
  have hqkey : (PrehashMap.slot s.map q).hash = H := by rw [hqpair]
  have hqT : (PrehashMap.slot s.map q).state = BucketState.TAKEN := by
    rw [hqpair]
  have hpass : ∀ j, 0 ≤ j → j < d →
      (PrehashMap.slot s.map ((pos + j) % c)).state = BucketState.TAKEN ∧
      H ≠ (PrehashMap.slot s.map ((pos + j) % c)).hash := by
    intro j _ hj
    refine ⟨hqpath j hj, ?_⟩
    intro hkeyEq
    have hne : (pos + j) % c ≠ q := probePos_ne_target hpos hqlt hj
    exact hnd _ q (Nat.mod_lt _ hc0) hqlt hne (hqpath j hj) hqT
      (by rw [← hkeyEq, hqkey])
  have hskip := prehashInsertLoop_skip hck H s.map hpos d 0 d hdlt
    (Nat.zero_le d) (by omega) (fun j h1 h2 => hpass j h1 h2)
  have hstart : (pos + 0) % c = pos := by simp [Nat.mod_eq_of_lt hpos]
  rw [Nat.sub_zero, hstart] at hskip
  rw [hskip, htgt]
  have hfuel : c - d = (c - d - 1) + 1 := by omega
  rw [hfuel, PrehashMap.InsertLoop,
    if_pos (show (PrehashMap.slot s.map q).state ≠ BucketState.FREE by
      rw [hqT]; intro hcon; cases hcon),
    if_pos hqT, if_pos hqkey.symm]
  rfl

/-- Specification of `PrehashMap.Remove`. -/
theorem prehashRemove_spec {s : PrehashMap Value}
    {H : Nat} {s' : PrehashMap Value} (hInv : PrehashInv s)
    (h : PrehashMap.Remove s H = some s') :
    PrehashInv s' ∧ s'.capacity_ = s.capacity_ ∧
    prehashTaken s'.map ≤ prehashTaken s.map ∧
    (∀ H₀, PrehashLive s' H₀ → PrehashLive s H₀) ∧
    (∀ H₀ V₀, PrehashHasEntry s' H₀ V₀ → PrehashHasEntry s H₀ V₀) ∧
    (¬ PrehashLive s H → s' = s) ∧
    (PrehashNoDup s → PrehashNoDup s' ∧
      (PrehashLive s H → ¬ PrehashLive s' H) ∧
      (∀ H' V', H' ≠ H →
        (PrehashHasEntry s' H' V' ↔ PrehashHasEntry s H' V')) ∧
      (∀ H', H' ≠ H → (PrehashLive s' H' ↔ PrehashLive s H'))) := by
  obtain ⟨kk, hck⟩ := hInv.pow
  have hc0 : 0 < s.capacity_ := prehashInv_cap_pos hInv
  set c := s.capacity_ with hc
  simp only [PrehashMap.Remove] at h
  rw [and_mask_eq_mod kk hck] at h
  set pos := H % c with hposdef
  have hpos : pos < c := Nat.mod_lt _ hc0
  obtain ⟨spot, hspot, heq⟩ := Option.map_eq_some'.mp h
  have hstart : (pos + 0) % c = pos := by simp [Nat.mod_eq_of_lt hpos]
  obtain ⟨d, -, hdlt, hpass, hstop⟩ :=
    prehashRemoveLoop_inversion hck H s.map hpos c 0 spot hc0
      (by rw [hstart]; exact hspot)
  rcases hstop with ⟨hspoteq, hTd, hHd⟩ | ⟨hspoteq, hFd⟩
  · subst hspoteq
    simp only at heq
    set p := (pos + d) % c with hpdef
    have hplt : p < c := Nat.mod_lt _ hc0
    have hplen : p < s.map.length := by rw [hInv.len]; exact hplt
    set newpr : PrehashMap.Pair Value :=
      { PrehashMap.slot s.map p with state := BucketState.REMOVED }
      with hnewpr
    have hsetself : PrehashMap.slot (s.map.set p newpr) p = newpr :=
      getD_set_self _ _ hplen
    have hsetne : ∀ q, q ≠ p →
        PrehashMap.slot (s.map.set p newpr) q =
        PrehashMap.slot s.map q := by
      intro q hq
      exact getD_set_ne _ _ (fun hpq => hq hpq.symm)
    have hnewstate : newpr.state = BucketState.REMOVED := rfl
    have htaken1 : prehashTaken (s.map.set p newpr) + 1 =
        prehashTaken s.map := by
      have h1 := countP_set_eq (fun pr => pr.state == BucketState.TAKEN)
        s.map p newpr PrehashMap.emptyPair hplen
      have hold : ((s.map.getD p PrehashMap.emptyPair).state ==
          BucketState.TAKEN) = true := by
        rw [beq_iff_eq]
        exact hTd
      simp only [hold] at h1
      simp at h1
      simpa [prehashTaken] using h1
    have hcnt := hInv.cnt
    subst heq
    have hlive : ∀ H₀, PrehashLive
        ⟨s.map.set p newpr, s.capacity_, s.count_ - 1⟩ H₀ →
        PrehashLive s H₀ := by
      rintro H₀ ⟨q, hq, hqT, hqk⟩
      have hqp : q ≠ p := by
        intro hh
        rw [hh, hsetself, hnewstate] at hqT
        cases hqT
      rw [hsetne q hqp] at hqT hqk
      exact ⟨q, hq, hqT, hqk⟩
    refine ⟨?_, rfl,
      (by show prehashTaken (s.map.set p newpr) ≤ prehashTaken s.map
          omega),
      hlive, ?_, ?_, ?_⟩
    · refine ⟨⟨kk, hck⟩, by simpa using hInv.len, ?_, ?_⟩
      · show prehashTaken (s.map.set p newpr) ≤ s.count_ - 1
        omega
      intro q hq hqT j hj
      have hqp : q ≠ p := by
        intro hh
        rw [hh, hsetself, hnewstate] at hqT
        cases hqT
      rw [hsetne q hqp] at hqT hj ⊢
      have hpathq := hInv.path q hq hqT j hj
      set r := ((PrehashMap.slot s.map q).hash % s.capacity_ + j) %
        s.capacity_ with hrdef
      by_cases hrp : r = p
      · rw [hrp, hsetself, hnewstate]
        intro hcon
        cases hcon
      · rw [hsetne r hrp]
        exact hpathq
    · rintro H₀ V₀ ⟨q, hq, hqpair⟩
      have hqp : q ≠ p := by
        intro hh
        rw [hh, hsetself] at hqpair
        have : newpr.state = BucketState.TAKEN := by rw [hqpair]
        rw [hnewstate] at this
        cases this
      rw [hsetne q hqp] at hqpair
      exact ⟨q, hq, hqpair⟩
    · intro hnl
      exact absurd ⟨p, hplt, hTd, hHd.symm⟩ hnl
    · intro hnd
      refine ⟨?_, ?_, ?_, ?_⟩
      · intro q r hq hr hqr hTq hTr
        have hqp : q ≠ p := by
          intro hh
          rw [hh, hsetself, hnewstate] at hTq
          cases hTq
        have hrp : r ≠ p := by
          intro hh
          rw [hh, hsetself, hnewstate] at hTr
          cases hTr
        rw [hsetne q hqp] at hTq ⊢
        rw [hsetne r hrp] at hTr ⊢
        exact hnd q r hq hr hqr hTq hTr
      · rintro hLive ⟨q, hq, hqT, hqk⟩
        have hqp : q ≠ p := by
          intro hh
          rw [hh, hsetself, hnewstate] at hqT
          cases hqT
        rw [hsetne q hqp] at hqT hqk
        exact hnd q p hq hplt hqp hqT hTd (by rw [hqk, hHd])
      · intro H' V' hH'
        constructor
        · rintro ⟨q, hq, hqpair⟩
          have hqp : q ≠ p := by
            intro hh
            rw [hh, hsetself] at hqpair
            have : newpr.state = BucketState.TAKEN := by rw [hqpair]
            rw [hnewstate] at this
            cases this
          rw [hsetne q hqp] at hqpair
          exact ⟨q, hq, hqpair⟩
        · rintro ⟨q, hq, hqpair⟩
          have hqp : q ≠ p := by
            intro hh
            rw [hh] at hqpair
            have : (PrehashMap.slot s.map p).hash = H' := by rw [hqpair]
            rw [hHd] at hH'
            exact hH' this.symm
          refine ⟨q, hq, ?_⟩
          rw [hsetne q hqp]
          exact hqpair
      · intro H' hH'
        constructor
        · rintro ⟨q, hq, hqT, hqk⟩
          have hqp : q ≠ p := by
            intro hh
            rw [hh, hsetself, hnewstate] at hqT
            cases hqT
          rw [hsetne q hqp] at hqT hqk
          exact ⟨q, hq, hqT, hqk⟩
        · rintro ⟨q, hq, hqT, hqk⟩
          have hqp : q ≠ p := by
            intro hh
            rw [hh] at hqk
            rw [hHd] at hH'
            exact hH' hqk.symm
          refine ⟨q, hq, ?_, ?_⟩
          · rw [hsetne q hqp]; exact hqT
          · rw [hsetne q hqp]; exact hqk
  · subst hspoteq
    simp only at heq
    subst heq
    have hnotlive : ¬ PrehashLive s H := by
      rintro ⟨t, ht, hTt, hkt⟩
      set dt := probeDist c pos t with hdt
      have hdtlt : dt < c := probeDist_lt hc0 pos t
      have htgt : (pos + dt) % c = t := probeDist_spec hpos ht
      rcases Nat.lt_trichotomy dt d with h1 | h1 | h1
      · have h2 := (hpass dt (Nat.zero_le dt) h1).2
        rw [htgt] at h2
        exact h2 ⟨hTt, hkt.symm⟩
      · rw [← h1, htgt] at hFd
        rw [hFd] at hTt
        cases hTt
      · have hpathK := hInv.path t ht hTt d
          (by rw [hkt]; exact h1)
        rw [hkt] at hpathK
        exact hpathK hFd
    refine ⟨hInv, rfl, Nat.le_refl _, fun H₀ h => h, fun H₀ V₀ h => h,
      fun _ => rfl, ?_⟩
    intro hnd
    exact ⟨hnd, fun hLive => absurd hLive hnotlive,
      fun H' V' _ => Iff.rfl, fun H' _ => Iff.rfl⟩

/-- A fresh Prehash slot array satisfies the invariant for any `count_`. -/
theorem prehashFresh_spec (n cnt : Nat) (kk : Nat) (hck : n = 2 ^ kk) :
    PrehashInv
      (⟨List.replicate n PrehashMap.emptyPair, n, cnt⟩ :
        PrehashMap Value) ∧
    PrehashNoDup
      (⟨List.replicate n PrehashMap.emptyPair, n, cnt⟩ :
        PrehashMap Value) ∧
    PrehashNoTomb
      (⟨List.replicate n PrehashMap.emptyPair, n, cnt⟩ :
        PrehashMap Value) ∧
    (∀ H, ¬ PrehashLive
      (⟨List.replicate n PrehashMap.emptyPair, n, cnt⟩ :
        PrehashMap Value) H) ∧
    prehashTaken (List.replicate n
      (PrehashMap.emptyPair : PrehashMap.Pair Value)) = 0 := by
  have hslot : ∀ p, p < n →
      PrehashMap.slot (List.replicate n
        (PrehashMap.emptyPair : PrehashMap.Pair Value)) p =
      PrehashMap.emptyPair := fun p hp => getD_replicate _ _ hp
  have hstate : (PrehashMap.emptyPair :
      PrehashMap.Pair Value).state = BucketState.FREE := rfl
  have htaken : prehashTaken (List.replicate n
      (PrehashMap.emptyPair : PrehashMap.Pair Value)) = 0 := by
    rw [prehashTaken, List.countP_eq_zero]
    intro a ha
    rw [List.eq_of_mem_replicate ha]
    simp [PrehashMap.emptyPair]
  refine ⟨⟨⟨kk, hck⟩, by simp, by simp [htaken], ?_⟩, ?_, ?_, ?_, htaken⟩
  · intro p hp hT
    rw [hslot p hp, hstate] at hT
    cases hT
  · intro p q hp hq hpq hTp
    rw [hslot p hp, hstate] at hTp
    cases hTp
  · intro p hp
    rw [hslot p hp, hstate]
    intro hcon
    cases hcon
  · rintro H ⟨p, hp, hT, _⟩
    rw [hslot p hp, hstate] at hT
    cases hT

/-- `PrehashMap.Clear` keeps the invariant and capacity, wipes all entries,
but (source bug) keeps the stale `count_`. -/
theorem prehashClear_spec (s : PrehashMap Value) (hInv : PrehashInv s) :
    PrehashInv (PrehashMap.Clear s) ∧
    (PrehashMap.Clear s).capacity_ = s.capacity_ ∧
    PrehashNoDup (PrehashMap.Clear s) ∧
    (∀ H, ¬ PrehashLive (PrehashMap.Clear s) H) := by
  obtain ⟨kk, hck⟩ := hInv.pow
  have h := (prehashFresh_spec s.capacity_ s.count_ kk hck :
    PrehashInv (PrehashMap.Clear s) ∧ _)
  exact ⟨h.1, rfl, h.2.1, h.2.2.2.1⟩

/-- Stored entries are exactly the TAKEN pairs of the slot array. -/
theorem prehashHasEntry_iff_mem {s : PrehashMap Value}
    (hInv : PrehashInv s) (H : Nat) (V : Value) :
    PrehashHasEntry s H V ↔
    (⟨BucketState.TAKEN, H, V⟩ : PrehashMap.Pair Value) ∈ s.map := by
  constructor
  · rintro ⟨p, hp, hpair⟩
    have hlen : p < s.map.length := by rw [hInv.len]; exact hp
    rw [← hpair, PrehashMap.slot, List.getD_eq_getElem _ _ hlen]
    exact List.getElem_mem hlen
  · intro hmem
    obtain ⟨i, hi, hEq⟩ := List.mem_iff_getElem.mp hmem
    refine ⟨i, by rw [← hInv.len]; exact hi, ?_⟩
    rw [PrehashMap.slot, List.getD_eq_getElem _ _ hi, hEq]

/-- A TAKEN pair in the slot array makes its hash live. -/
theorem prehashLive_of_mem {s : PrehashMap Value}
    (hInv : PrehashInv s) {pr : PrehashMap.Pair Value}
    (hpr : pr ∈ s.map) (hT : pr.state = BucketState.TAKEN) :
    PrehashLive s pr.hash := by
  obtain ⟨i, hi, hEq⟩ := List.mem_iff_getElem.mp hpr
  refine ⟨i, by rw [← hInv.len]; exact hi, ?_, ?_⟩
  · rw [PrehashMap.slot, List.getD_eq_getElem _ _ hi, hEq]
    exact hT
  · rw [PrehashMap.slot, List.getD_eq_getElem _ _ hi, hEq]

/-- Liveness is membership of a TAKEN pair. -/
theorem prehashLive_iff_mem {s : PrehashMap Value}
    (hInv : PrehashInv s) (H : Nat) :
    PrehashLive s H ↔
    ∃ pr ∈ s.map, pr.state = BucketState.TAKEN ∧ pr.hash = H := by
  constructor
  · rintro ⟨p, hp, hT, hk⟩
    have hlen : p < s.map.length := by rw [hInv.len]; exact hp
    refine ⟨s.map[p], List.getElem_mem hlen, ?_, ?_⟩
    · rw [← List.getD_eq_getElem s.map PrehashMap.emptyPair hlen]
      exact hT
    · rw [← List.getD_eq_getElem s.map PrehashMap.emptyPair hlen]
      exact hk
  · rintro ⟨pr, hmem, hT, hk⟩
    have := prehashLive_of_mem hInv hmem hT
    rwa [hk] at this

/-- A stored pair makes its hash live. -/
theorem prehashLive_of_hasEntry {s : PrehashMap Value} {H : Nat}
    {V : Value} (h : PrehashHasEntry s H V) : PrehashLive s H := by
  obtain ⟨p, hp, hpair⟩ := h
  exact ⟨p, hp, by rw [hpair], by rw [hpair]⟩

/-- Slot-level hash distinctness gives list-level pairwise distinctness. -/
theorem prehashNoDup_pairwise {s : PrehashMap Value}
    (hInv : PrehashInv s) (hnd : PrehashNoDup s) :
    s.map.Pairwise (fun a b => a.state = BucketState.TAKEN →
      b.state = BucketState.TAKEN → a.hash ≠ b.hash) := by
  rw [List.pairwise_iff_getElem]
  intro i j hi hj hij hTi hTj
  have h1 : PrehashMap.slot s.map i = s.map[i] := by
    rw [PrehashMap.slot, List.getD_eq_getElem _ _ hi]
  have h2 : PrehashMap.slot s.map j = s.map[j] := by
    rw [PrehashMap.slot, List.getD_eq_getElem _ _ hj]
  have := hnd i j (by rw [← hInv.len]; exact hi)
    (by rw [← hInv.len]; exact hj) (by omega)
    (by rw [h1]; exact hTi) (by rw [h2]; exact hTj)
  rw [h1, h2] at this
  exact this

/-- Counting/invariant tracking for the Prehash re-insertion fold,
parametric in the insert it calls back into (which, unlike the Dense one,
may itself grow again). -/
theorem prehashReinsert_specA
    (ins : PrehashMap Value → Nat → Value → Option (Bool × PrehashMap Value))
    (hins : ∀ (a : PrehashMap Value) (hh : Nat) (v : Value)
      (r : Bool × PrehashMap Value),
      PrehashInv a → ins a hh v = some r →
      PrehashInv r.2 ∧ a.capacity_ ≤ r.2.capacity_ ∧
      prehashTaken r.2.map ≤ prehashTaken a.map + 1) :
    ∀ (l : List (PrehashMap.Pair Value)) (acc s' : PrehashMap Value),
    PrehashMap.Reinsert ins l acc = some s' → PrehashInv acc →
    PrehashInv s' ∧ acc.capacity_ ≤ s'.capacity_ ∧
    prehashTaken s'.map ≤ prehashTaken acc.map + prehashTaken l := by
  intro l
  induction l with
  | nil =>
    intro acc s' h hInv
    simp only [PrehashMap.Reinsert] at h
    injection h with h
    subst h
    exact ⟨hInv, Nat.le_refl _, by omega⟩
  | cons pr rest ih =>
    intro acc s' h hInv
    simp only [PrehashMap.Reinsert] at h
    by_cases hT : pr.state = BucketState.TAKEN
    · rw [if_pos hT] at h
      obtain ⟨bs, hins1, hrest⟩ := Option.bind_eq_some.mp h
      obtain ⟨hInv1, hcap1, htk1⟩ := hins acc pr.hash pr.value bs hInv hins1
      obtain ⟨hInv', hcap', htk'⟩ := ih bs.2 s' hrest hInv1
      have hTcnt : prehashTaken (pr :: rest) = prehashTaken rest + 1 := by
        simp [prehashTaken, List.countP_cons, hT]
      exact ⟨hInv', by omega, by omega⟩
    · rw [if_neg hT] at h
      obtain ⟨hInv', hcap', htk'⟩ := ih acc s' h hInv
      have hTcnt : prehashTaken (pr :: rest) = prehashTaken rest := by
        simp [prehashTaken, List.countP_cons, hT]
      exact ⟨hInv', hcap', by omega⟩

/-- `PrehashMap.Insert` (any fuel): invariant preserved, capacity monotone,
at most one TAKEN slot added, and at most `capacity/2 + 1` TAKEN slots on
return.  (Note: no claim about `count_` beyond the invariant — the missing
reset in `Grow` makes `count_` drift above the TAKEN count.) -/
theorem prehashInsert_specA :
    ∀ (fuel : Nat) (s : PrehashMap Value) (H : Nat) (V : Value) (b : Bool)
      (s' : PrehashMap Value),
    PrehashInv s → PrehashMap.Insert fuel s H V = some (b, s') →
    PrehashInv s' ∧ s.capacity_ ≤ s'.capacity_ ∧
    prehashTaken s'.map ≤ prehashTaken s.map + 1 ∧
    prehashTaken s'.map ≤ s'.capacity_ / 2 + 1 := by
  intro fuel
  induction fuel with
  | zero =>
    intro s H V b s' hInv h
    rw [PrehashMap.Insert] at h
    cases h
  | succ g ih =>
    intro s H V b s' hInv h
    obtain ⟨kk, hck⟩ := hInv.pow
    have htklen : prehashTaken s.map ≤ s.capacity_ := by
      have h1 := prehashTaken_le_length s.map
      rw [hInv.len] at h1
      exact h1
    rw [prehashInsert_succ] at h
    by_cases hg : s.count_ > s.capacity_ / 2
    · rw [if_pos hg] at h
      obtain ⟨s1, hgrow, hcore⟩ := Option.bind_eq_some.mp h
      rw [PrehashMap.Grow] at hgrow
      have hfresh := (prehashFresh_spec
        (s.capacity_ * 2) s.count_ (kk + 1) (by rw [hck]; ring) :
        PrehashInv (⟨List.replicate (s.capacity_ * 2)
            PrehashMap.emptyPair, s.capacity_ * 2, s.count_⟩ :
          PrehashMap Value) ∧ _)
      obtain ⟨hInv1, hcap1, htk1⟩ := prehashReinsert_specA
        (fun a hh v => PrehashMap.Insert g a hh v)
        (fun a hh v r hInva hr => by
          obtain ⟨r1, r2⟩ := r
          obtain ⟨x1, x2, x3, -⟩ := ih a hh v r1 r2 hInva hr
          exact ⟨x1, x2, x3⟩)
        s.map
        ⟨List.replicate (s.capacity_ * 2) PrehashMap.emptyPair,
          s.capacity_ * 2, s.count_⟩ s1 hgrow hfresh.1
      rw [hfresh.2.2.2.2] at htk1
      have hcap1' : s.capacity_ * 2 ≤ s1.capacity_ := hcap1
      obtain ⟨hInv', hcap', hfalse, htrue⟩ := prehashInsertCore_spec hInv1 hcore
      cases b with
      | false =>
        obtain ⟨hs, -⟩ := hfalse rfl
        rw [hs]
        exact ⟨hInv1, by omega, by omega, by omega⟩
      | true =>
        obtain ⟨hcount', htaken', -⟩ := htrue rfl
        exact ⟨hInv', by omega, by omega, by omega⟩
    · rw [if_neg hg, Option.some_bind] at h
      obtain ⟨hInv', hcap', hfalse, htrue⟩ := prehashInsertCore_spec hInv h
      have hcnt := hInv.cnt
      cases b with
      | false =>
        obtain ⟨hs, -⟩ := hfalse rfl
        rw [hs]
        exact ⟨hInv, by omega, by omega, by omega⟩
      | true =>
        obtain ⟨hcount', htaken', -⟩ := htrue rfl
        exact ⟨hInv', by omega, by omega, by omega⟩

/-- Entry-set tracking for the Prehash re-insertion fold, parametric in the
(possibly growing) insert it calls back into. -/
theorem prehashReinsert_specB
    (ins : PrehashMap Value → Nat → Value → Option (Bool × PrehashMap Value))
    (hinsB : ∀ (a : PrehashMap Value) (hh : Nat) (v : Value) (b2 : Bool)
      (s2 : PrehashMap Value),
      PrehashInv a → PrehashNoDup a → ¬ PrehashLive a hh →
      ins a hh v = some (b2, s2) →
      PrehashInv s2 ∧ PrehashNoDup s2 ∧ PrehashHasEntry s2 hh v ∧
      (∀ v', PrehashHasEntry s2 hh v' → v' = v) ∧
      (∀ h' v', h' ≠ hh →
        (PrehashHasEntry s2 h' v' ↔ PrehashHasEntry a h' v')) ∧
      (∀ h', h' ≠ hh → (PrehashLive s2 h' ↔ PrehashLive a h')) ∧
      (PrehashNoTomb a → PrehashNoTomb s2)) :
    ∀ (l : List (PrehashMap.Pair Value)) (acc s' : PrehashMap Value),
    PrehashMap.Reinsert ins l acc = some s' →
    PrehashInv acc → PrehashNoDup acc →
    l.Pairwise (fun a b => a.state = BucketState.TAKEN →
      b.state = BucketState.TAKEN → a.hash ≠ b.hash) →
    (∀ pr ∈ l, pr.state = BucketState.TAKEN → ¬ PrehashLive acc pr.hash) →
    PrehashInv s' ∧ PrehashNoDup s' ∧
    (PrehashNoTomb acc → PrehashNoTomb s') ∧
    (∀ H V, PrehashHasEntry s' H V ↔ (PrehashHasEntry acc H V ∨
      (⟨BucketState.TAKEN, H, V⟩ : PrehashMap.Pair Value) ∈ l)) ∧
    (∀ H, PrehashLive s' H ↔ (PrehashLive acc H ∨
      ∃ pr ∈ l, pr.state = BucketState.TAKEN ∧ pr.hash = H)) := by
  intro l
  induction l with
  | nil =>
    intro acc s' h hInv hnd hpw hkeys
    simp only [PrehashMap.Reinsert] at h
    injection h with h
    subst h
    exact ⟨hInv, hnd, fun ht => ht, fun H V => by simp, fun H => by simp⟩
  | cons pr rest ih =>
    intro acc s' h hInv hnd hpw hkeys
    simp only [PrehashMap.Reinsert] at h
    obtain ⟨prs, prk, prv⟩ := pr
    by_cases hT : prs = BucketState.TAKEN
    · subst hT
      rw [if_pos rfl] at h
      obtain ⟨bs, hins, hrest⟩ := Option.bind_eq_some.mp h
      obtain ⟨b1, s1⟩ := bs
      have hnl : ¬ PrehashLive acc prk :=
        hkeys _ (List.mem_cons_self _ rest) rfl
      obtain ⟨hInv1, hnd1, hE1, huniq1, hEiff1, hLiff1, hNT1⟩ :=
        hinsB acc prk prv b1 s1 hInv hnd hnl hins
      have hpwparts := List.pairwise_cons.mp hpw
      have hpwhead := hpwparts.1
      have hpwrest := hpwparts.2
      have hkeys1 : ∀ pr' ∈ rest, pr'.state = BucketState.TAKEN →
          ¬ PrehashLive s1 pr'.hash := by
        intro pr' hmem hT'
        have hne : pr'.hash ≠ prk :=
          (hpwhead pr' hmem rfl hT').symm
        rw [hLiff1 pr'.hash hne]
        exact hkeys pr' (List.mem_cons_of_mem _ hmem) hT'
      obtain ⟨hInv', hnd', hNT', hEiff', hLiff'⟩ :=
        ih s1 s' hrest hInv1 hnd1 hpwrest hkeys1
      refine ⟨hInv', hnd', fun hNTacc => hNT' (hNT1 hNTacc), ?_, ?_⟩
      · intro H V
        rw [hEiff' H V]
        by_cases hKeq : H = prk
        · subst hKeq
          constructor
          · rintro (hE | hmem)
            · have := huniq1 V hE
              subst this
              exact Or.inr (List.mem_cons_self _ rest)
            · exact absurd rfl
                (hpwhead ⟨BucketState.TAKEN, H, V⟩ hmem rfl rfl)
          · rintro (hE | hmem)
            · exact absurd (prehashLive_of_hasEntry hE) hnl
            · rcases List.mem_cons.mp hmem with hEq | hmem'
              · injection hEq with h1 h2 h3
                rw [h3]
                exact Or.inl hE1
              · exact absurd rfl
                  (hpwhead ⟨BucketState.TAKEN, H, V⟩ hmem' rfl rfl)
        · constructor
          · rintro (hE | hmem)
            · exact Or.inl ((hEiff1 H V hKeq).mp hE)
            · exact Or.inr (List.mem_cons_of_mem _ hmem)
          · rintro (hE | hmem)
            · exact Or.inl ((hEiff1 H V hKeq).mpr hE)
            · rcases List.mem_cons.mp hmem with hEq | hmem'
              · injection hEq with h1 h2 h3
                exact absurd h2 hKeq
              · exact Or.inr hmem'
      · intro H
        rw [hLiff' H]
        by_cases hKeq : H = prk
        · subst hKeq
          constructor
          · rintro (hL | ⟨pr', hmem, hT', hk'⟩)
            · exact Or.inr ⟨_, List.mem_cons_self _ rest, rfl, rfl⟩
            · exact absurd hk'.symm (hpwhead pr' hmem rfl hT')
          · rintro (hL | ⟨pr', hmem, hT', hk'⟩)
            · exact absurd hL hnl
            · exact Or.inl (prehashLive_of_hasEntry hE1)
        · constructor
          · rintro (hL | ⟨pr', hmem, hT', hk'⟩)
            · exact Or.inl ((hLiff1 H hKeq).mp hL)
            · exact Or.inr ⟨pr', List.mem_cons_of_mem _ hmem, hT', hk'⟩
          · rintro (hL | ⟨pr', hmem, hT', hk'⟩)
            · exact Or.inl ((hLiff1 H hKeq).mpr hL)
            · rcases List.mem_cons.mp hmem with hEq | hmem'
              · rw [hEq] at hk'
                exact absurd hk'.symm hKeq
              · exact Or.inr ⟨pr', hmem', hT', hk'⟩
    · rw [if_neg hT] at h
      have hpwrest := (List.pairwise_cons.mp hpw).2
      have hkeysrest : ∀ pr' ∈ rest, pr'.state = BucketState.TAKEN →
          ¬ PrehashLive acc pr'.hash :=
        fun pr' hmem hT' => hkeys pr' (List.mem_cons_of_mem _ hmem) hT'
      obtain ⟨hInv', hnd', hNT', hEiff', hLiff'⟩ :=
        ih acc s' h hInv hnd hpwrest hkeysrest
      refine ⟨hInv', hnd', hNT', ?_, ?_⟩
      · intro H V
        rw [hEiff' H V]
        constructor
        · rintro (hE | hmem)
          · exact Or.inl hE
          · exact Or.inr (List.mem_cons_of_mem _ hmem)
        · rintro (hE | hmem)
          · exact Or.inl hE
          · rcases List.mem_cons.mp hmem with hEq | hmem'
            · injection hEq with h1 h2 h3
              exact absurd h1.symm hT
            · exact Or.inr hmem'
      · intro H
        rw [hLiff' H]
        constructor
        · rintro (hL | ⟨pr', hmem, hT', hk'⟩)
          · exact Or.inl hL
          · exact Or.inr ⟨pr', List.mem_cons_of_mem _ hmem, hT', hk'⟩
        · rintro (hL | ⟨pr', hmem, hT', hk'⟩)
          · exact Or.inl hL
          · rcases List.mem_cons.mp hmem with hEq | hmem'
            · rw [hEq] at hT'
              exact absurd hT' hT
            · exact Or.inr ⟨pr', hmem', hT', hk'⟩

/-- `PrehashMap.Insert` (any fuel) of a hash that is not live: success, the
new entry stored uniquely at the end of an all-TAKEN probe run, everything
else unchanged.  Proved by induction on the fuel because a Prehash `Grow`
can trigger nested growths (the stale `count_` makes this real). -/
theorem prehashInsert_specClean :
    ∀ (fuel : Nat) (s : PrehashMap Value) (H : Nat) (V : Value) (b : Bool)
      (s' : PrehashMap Value),
    PrehashInv s → PrehashNoDup s → ¬ PrehashLive s H →
    PrehashMap.Insert fuel s H V = some (b, s') →
    PrehashInv s' ∧ PrehashNoDup s' ∧ PrehashHasEntry s' H V ∧
    (∀ V', PrehashHasEntry s' H V' → V' = V) ∧
    (∀ H' V', H' ≠ H →
      (PrehashHasEntry s' H' V' ↔ PrehashHasEntry s H' V')) ∧
    (∀ H', H' ≠ H → (PrehashLive s' H' ↔ PrehashLive s H')) ∧
    (PrehashNoTomb s → PrehashNoTomb s') ∧
    b = true ∧ s.capacity_ ≤ s'.capacity_ ∧
    (∃ p, p < s'.capacity_ ∧
      PrehashMap.slot s'.map p = ⟨BucketState.TAKEN, H, V⟩ ∧
      (∀ j, j < probeDist s'.capacity_ (H % s'.capacity_) p →
        (PrehashMap.slot s'.map
          ((H % s'.capacity_ + j) % s'.capacity_)).state =
          BucketState.TAKEN)) := by
  intro fuel
  induction fuel with
  | zero =>
    intro s H V b s' hInv hnd hnl h
    rw [PrehashMap.Insert] at h
    cases h
  | succ g ih =>
    intro s H V b s' hInv hnd hnl h
    obtain ⟨kk, hck⟩ := hInv.pow
    rw [prehashInsert_succ] at h
    by_cases hg : s.count_ > s.capacity_ / 2
    · rw [if_pos hg] at h
      obtain ⟨s1, hgrow, hcore⟩ := Option.bind_eq_some.mp h
      rw [PrehashMap.Grow] at hgrow
      have hfresh := (prehashFresh_spec
        (s.capacity_ * 2) s.count_ (kk + 1) (by rw [hck]; ring) :
        PrehashInv (⟨List.replicate (s.capacity_ * 2)
            PrehashMap.emptyPair, s.capacity_ * 2, s.count_⟩ :
          PrehashMap Value) ∧ _)
      have hfoldA := prehashReinsert_specA
        (fun a hh v => PrehashMap.Insert g a hh v)
        (fun a hh v r hInva hr => by
          obtain ⟨r1, r2⟩ := r
          obtain ⟨x1, x2, x3, -⟩ :=
            prehashInsert_specA g a hh v r1 r2 hInva hr
          exact ⟨x1, x2, x3⟩)
        s.map
        ⟨List.replicate (s.capacity_ * 2) PrehashMap.emptyPair,
          s.capacity_ * 2, s.count_⟩ s1 hgrow hfresh.1
      obtain ⟨hInv1, hcap1, -⟩ := hfoldA
      have hcap1' : s.capacity_ * 2 ≤ s1.capacity_ := hcap1
      obtain ⟨-, hnd1, hNT1, hEiff1, hLiff1⟩ :=
        prehashReinsert_specB
          (fun a hh v => PrehashMap.Insert g a hh v)
          (fun a hh v b2 s2 hInva hnda hnla hr => by
            obtain ⟨x1, x2, x3, x4, x5, x6, x7, -⟩ :=
              ih a hh v b2 s2 hInva hnda hnla hr
            exact ⟨x1, x2, x3, x4, x5, x6, x7⟩)
          s.map
          ⟨List.replicate (s.capacity_ * 2) PrehashMap.emptyPair,
            s.capacity_ * 2, s.count_⟩ s1 hgrow hfresh.1 hfresh.2.1
          (prehashNoDup_pairwise hInv hnd)
          (fun pr hmem hT => hfresh.2.2.2.1 pr.hash)
      have hEiffs : ∀ H₀ V₀, PrehashHasEntry s1 H₀ V₀ ↔
          PrehashHasEntry s H₀ V₀ := by
        intro H₀ V₀
        rw [hEiff1 H₀ V₀, prehashHasEntry_iff_mem hInv]
        constructor
        · rintro (hE | hm)
          · exact absurd (prehashLive_of_hasEntry hE) (hfresh.2.2.2.1 H₀)
          · exact hm
        · intro hm
          exact Or.inr hm
      have hLiffs : ∀ H₀, PrehashLive s1 H₀ ↔ PrehashLive s H₀ := by
        intro H₀
        rw [hLiff1 H₀, prehashLive_iff_mem hInv]
        constructor
        · rintro (hL | hm)
          · exact absurd hL (hfresh.2.2.2.1 H₀)
          · exact hm
        · intro hm
          exact Or.inr hm
      have hnl1 : ¬ PrehashLive s1 H := fun hh => hnl ((hLiffs H).mp hh)
      obtain ⟨hb, hInv', hcap', hnd', hE', huniq', hEiff', hLiff',
        hNT', htk', hcnt', hplace⟩ :=
        prehashInsertCore_clean hInv1 hnd1 hnl1 hcore
      refine ⟨hInv', hnd', hE', huniq', ?_, ?_, ?_, hb, by omega, hplace⟩
      · intro H' V' hH'
        rw [hEiff' H' V' hH']
        exact hEiffs H' V'
      · intro H' hH'
        rw [hLiff' H' hH']
        exact hLiffs H'
      · intro hNTs
        exact hNT' (hNT1 hfresh.2.2.1)
    · rw [if_neg hg, Option.some_bind] at h
      obtain ⟨hb, hInv', hcap', hnd', hE', huniq', hEiff', hLiff',
        hNT', htk', hcnt', hplace⟩ :=
        prehashInsertCore_clean hInv hnd hnl h
      exact ⟨hInv', hnd', hE', huniq', hEiff', hLiff', hNT', hb,
        by omega, hplace⟩

/-! ## Reachability (Prehash) -/

/-- States reachable through the public mutating operations. -/
inductive PrehashReachable : PrehashMap Value → Prop where
  | init (kk : Nat) : PrehashReachable (PrehashMap.init (2 ^ kk))
  | ins {s : PrehashMap Value} (fuel : Nat) {hash : Nat} {value : Value}
      {b : Bool} {s1 : PrehashMap Value} :
      PrehashReachable s →
      PrehashMap.Insert fuel s hash value = some (b, s1) →
      PrehashReachable s1
  | rem {s : PrehashMap Value} {hash : Nat} {s1 : PrehashMap Value} :
      PrehashReachable s →
      PrehashMap.Remove s hash = some s1 →
      PrehashReachable s1
  | clr {s : PrehashMap Value} :
      PrehashReachable s →
      PrehashReachable (PrehashMap.Clear s)

/-- Every reachable Prehash table satisfies the structural invariant. -/
theorem prehashReachable_inv {s : PrehashMap Value}
    (h : PrehashReachable s) : PrehashInv s := by
  induction h with
  | init kk => exact (prehashFresh_spec _ 0 kk rfl).1
  | ins fuel hr hins ih => exact (prehashInsert_specA _ _ _ _ _ _ ih hins).1
  | rem hr hrem ih => exact (prehashRemove_spec ih hrem).1
  | clr hr ih => exact (prehashClear_spec _ ih).1

/-- Dense reachability where no `Insert` ever re-inserts a live key
(the discipline the engine expects of its caller). -/
inductive DenseCleanReachable (hashK : Key → Nat) :
    DenseHashMap Key Value → Prop where
  | init (kk : Nat) : DenseCleanReachable hashK (DenseHashMap.init (2 ^ kk))
  | ins {s : DenseHashMap Key Value} (fuel : Nat) {key : Key}
      {value : Value} {b : Bool} {s1 : DenseHashMap Key Value} :
      DenseCleanReachable hashK s →
      ¬ DenseLive s key →
      DenseHashMap.Insert hashK fuel s key value = some (b, s1) →
      DenseCleanReachable hashK s1
  | rem {s : DenseHashMap Key Value} {key : Key}
      {s1 : DenseHashMap Key Value} :
      DenseCleanReachable hashK s →
      DenseHashMap.Remove hashK s key = some s1 →
      DenseCleanReachable hashK s1
  | clr {s : DenseHashMap Key Value} :
      DenseCleanReachable hashK s →
      DenseCleanReachable hashK (DenseHashMap.Clear s)

/-- Clean reachability gives the invariant together with key
distinctness. -/
theorem denseCleanReachable_props {hashK : Key → Nat}
    {s : DenseHashMap Key Value} (h : DenseCleanReachable hashK s) :
    DenseInv hashK s ∧ DenseNoDup s := by
  induction h with
  | init kk =>
    exact ⟨(denseFresh_spec hashK _ 0 kk rfl).1,
      (denseFresh_spec hashK _ 0 kk rfl).2.1⟩
  | ins fuel hr hnl hins ih =>
    obtain ⟨hb, hInv', hnd', -⟩ :=
      denseInsert_specClean hashK ih.1 ih.2 hnl hins
    exact ⟨hInv', hnd'⟩
  | rem hr hrem ih =>
    obtain ⟨hInv', -, -, -, -, -, hB⟩ := denseRemove_spec hashK ih.1 hrem
    exact ⟨hInv', (hB ih.2).1⟩
  | clr hr ih =>
    obtain ⟨hInv', -, hnd', -⟩ := denseClear_spec hashK _ ih.1
    exact ⟨hInv', hnd'⟩

/-- Prehash reachability where no `Insert` ever re-inserts a live hash. -/
inductive PrehashCleanReachable : PrehashMap Value → Prop where
  | init (kk : Nat) : PrehashCleanReachable (PrehashMap.init (2 ^ kk))
  | ins {s : PrehashMap Value} (fuel : Nat) {hash : Nat} {value : Value}
      {b : Bool} {s1 : PrehashMap Value} :
      PrehashCleanReachable s →
      ¬ PrehashLive s hash →
      PrehashMap.Insert fuel s hash value = some (b, s1) →
      PrehashCleanReachable s1
  | rem {s : PrehashMap Value} {hash : Nat} {s1 : PrehashMap Value} :
      PrehashCleanReachable s →
      PrehashMap.Remove s hash = some s1 →
      PrehashCleanReachable s1
  | clr {s : PrehashMap Value} :
      PrehashCleanReachable s →
      PrehashCleanReachable (PrehashMap.Clear s)

/-- Clean reachability gives the invariant together with hash
distinctness. -/
theorem prehashCleanReachable_props {s : PrehashMap Value}
    (h : PrehashCleanReachable s) : PrehashInv s ∧ PrehashNoDup s := by
  induction h with
  | init kk =>
    exact ⟨(prehashFresh_spec _ 0 kk rfl).1,
      (prehashFresh_spec _ 0 kk rfl).2.1⟩
  | ins fuel hr hnl hins ih =>
    obtain ⟨hInv', hnd', -⟩ :=
      prehashInsert_specClean _ _ _ _ _ _ ih.1 ih.2 hnl hins
    exact ⟨hInv', hnd'⟩
  | rem hr hrem ih =>
    obtain ⟨hInv', -, -, -, -, -, hB⟩ := prehashRemove_spec ih.1 hrem
    exact ⟨hInv', (hB ih.2).1⟩
  | clr hr ih =>
    obtain ⟨hInv', -, hnd', -⟩ := prehashClear_spec _ ih.1
    exact ⟨hInv', hnd'⟩

/-! ## Claim theorems (amended load factor, removal, null aliasing) -/

/-- C4 (amended): the original bound `count ≤ capacity/2` fails
(`claim_C4_cex`); what growth actually maintains is that immediately after
any `Insert` returns, the number of TAKEN slots — the live entries — is at
most `capacity/2 + 1`, for every reachable table of either variant. -/
theorem claim_C4 (hashK : Key → Nat)
    {s : DenseHashMap Key Value} {fuel : Nat} {K : Key} {V : Value}
    {b : Bool} {s' : DenseHashMap Key Value}
    (hs : DenseReachable hashK s)
    (hins : DenseHashMap.Insert hashK fuel s K V = some (b, s'))
    {sp : PrehashMap Value} {fuelp hashp : Nat} {Vp : Value} {bp : Bool}
    {sp' : PrehashMap Value}
    (hsp : PrehashReachable sp)
    (hinsp : PrehashMap.Insert fuelp sp hashp Vp = some (bp, sp')) :
    denseTaken s'.map ≤ s'.capacity_ / 2 + 1 ∧
    prehashTaken sp'.map ≤ sp'.capacity_ / 2 + 1 :=
  ⟨(denseInsert_specA hashK (denseReachable_inv hs) hins).2.2.1,
    (prehashInsert_specA _ _ _ _ _ _
      (prehashReachable_inv hsp) hinsp).2.2.2⟩

theorem claim_C4_witness :
    denseTaken ([⟨BucketState.TAKEN, 0, 7⟩, ⟨BucketState.FREE, 0, 0⟩] :
      List (DenseHashMap.Pair Nat Nat)) ≤ 2 / 2 + 1 ∧
    prehashTaken ([⟨BucketState.TAKEN, 0, 7⟩, ⟨BucketState.FREE, 0, 0⟩] :
      List (PrehashMap.Pair Nat)) ≤ 2 / 2 + 1 :=
  claim_C4 (fun k => k) (DenseReachable.init 1)
    (show DenseHashMap.Insert (fun k => k) 2
      (DenseHashMap.init 2 : DenseHashMap Nat Nat) 0 7 = some (true,
        ⟨[⟨BucketState.TAKEN, 0, 7⟩, ⟨BucketState.FREE, 0, 0⟩], 2, 1⟩)
      by decide)
    (PrehashReachable.init 1)
    (show PrehashMap.Insert 2 (PrehashMap.init 2 : PrehashMap Nat) 0 7 =
      some (true,
        ⟨[⟨BucketState.TAKEN, 0, 7⟩, ⟨BucketState.FREE, 0, 0⟩], 2, 1⟩)
      by decide)

/-- C9 (amended): `Get` reports "not found" by returning the null pointer
itself, so the result is distinguishable exactly for non-null stored
values: in every cleanly reachable state of either variant, a stored pair
`(K, V)` with `V ≠ nullptr` is returned as `ok V ≠ ok nullptr`.  A stored
null value aliases the not-found result (`claim_C9_cex`). -/
theorem claim_C9 (hashK : Key → Nat) (nullv : Value)
    {s : DenseHashMap Key Value} {K : Key} {V : Value}
    (hs : DenseCleanReachable hashK s) (hE : DenseHasEntry s K V)
    (hV : V ≠ nullv)
    {sp : PrehashMap Value} {hashp : Nat} {Vp : Value}
    (hsp : PrehashCleanReachable sp) (hEp : PrehashHasEntry sp hashp Vp)
    (hVp : Vp ≠ nullv) :
    ((DenseHashMap.Get hashK nullv s K).1 = GetResult.ok V ∧
      (DenseHashMap.Get hashK nullv s K).1 ≠ GetResult.ok nullv) ∧
    ((PrehashMap.Get nullv sp hashp).1 = GetResult.ok Vp ∧
      (PrehashMap.Get nullv sp hashp).1 ≠ GetResult.ok nullv) := by
  obtain ⟨hInv, hnd⟩ := denseCleanReachable_props hs
  obtain ⟨hInvp, hndp⟩ := prehashCleanReachable_props hsp
  have h1 := denseGet_found hashK nullv hInv hnd hE
  have h2 := prehashGet_found nullv hInvp hndp hEp
  refine ⟨⟨h1, ?_⟩, h2, ?_⟩
  · rw [h1]
    intro hcon
    injection hcon with hcon
    exact hV hcon
  · rw [h2]
    intro hcon
    injection hcon with hcon
    exact hVp hcon

theorem claim_C9_witness :
    ((DenseHashMap.Get (fun k => k) 0
        (⟨[⟨BucketState.TAKEN, 0, 7⟩, ⟨BucketState.FREE, 0, 0⟩], 2, 1⟩ :
          DenseHashMap Nat Nat) 0).1 = GetResult.ok 7 ∧
      (DenseHashMap.Get (fun k => k) 0
        (⟨[⟨BucketState.TAKEN, 0, 7⟩, ⟨BucketState.FREE, 0, 0⟩], 2, 1⟩ :
          DenseHashMap Nat Nat) 0).1 ≠ GetResult.ok 0) ∧
    ((PrehashMap.Get 0
        (⟨[⟨BucketState.TAKEN, 0, 7⟩, ⟨BucketState.FREE, 0, 0⟩], 2, 1⟩ :
          PrehashMap Nat) 0).1 = GetResult.ok 7 ∧
      (PrehashMap.Get 0
        (⟨[⟨BucketState.TAKEN, 0, 7⟩, ⟨BucketState.FREE, 0, 0⟩], 2, 1⟩ :
          PrehashMap Nat) 0).1 ≠ GetResult.ok 0) :=
  claim_C9 (fun k => k) 0
    (DenseCleanReachable.ins 2 (DenseCleanReachable.init 1)
      ((denseFresh_spec (fun k => k) 2 0 1 rfl).2.2.2.1 0)
      (show DenseHashMap.Insert (fun k => k) 2
        (DenseHashMap.init 2 : DenseHashMap Nat Nat) 0 7 = some (true,
          ⟨[⟨BucketState.TAKEN, 0, 7⟩, ⟨BucketState.FREE, 0, 0⟩], 2, 1⟩)
        by decide))
    (⟨0, by decide, by decide⟩ : DenseHasEntry
      (⟨[⟨BucketState.TAKEN, 0, 7⟩, ⟨BucketState.FREE, 0, 0⟩], 2, 1⟩ :
        DenseHashMap Nat Nat) 0 7) (by decide)
    (PrehashCleanReachable.ins 2 (PrehashCleanReachable.init 1)
      ((prehashFresh_spec 2 0 1 rfl).2.2.2.1 0)
      (show PrehashMap.Insert 2 (PrehashMap.init 2 : PrehashMap Nat) 0 7 =
        some (true,
          ⟨[⟨BucketState.TAKEN, 0, 7⟩, ⟨BucketState.FREE, 0, 0⟩], 2, 1⟩)
        by decide))
    (⟨0, by decide, by decide⟩ : PrehashHasEntry
      (⟨[⟨BucketState.TAKEN, 0, 7⟩, ⟨BucketState.FREE, 0, 0⟩], 2, 1⟩ :
        PrehashMap Nat) 0 7) (by decide)

/-- C7 (amended): in every cleanly reachable state containing key K, after
`Remove(K)`: provided at least one slot of the resulting table is FREE,
`Get(K)` reports not-found (on a FREE-less table it instead wraps into the
fatal branch, `claim_C7_cex`); and the tombstone is transparent — every
entry of a different key is still returned exactly.  Both variants. -/
theorem claim_C7 (hashK : Key → Nat) (nullv : Value)
    {s : DenseHashMap Key Value} {K : Key} {V : Value}
    {s' : DenseHashMap Key Value}
    (hs : DenseCleanReachable hashK s) (hE : DenseHasEntry s K V)
    (hrem : DenseHashMap.Remove hashK s K = some s')
    (hfree : ∃ q, q < s'.capacity_ ∧
      (DenseHashMap.slot s'.map q).state = BucketState.FREE)
    {sp : PrehashMap Value} {hashp : Nat} {Vp : Value}
    {sp' : PrehashMap Value}
    (hsp : PrehashCleanReachable sp) (hEp : PrehashHasEntry sp hashp Vp)
    (hremp : PrehashMap.Remove sp hashp = some sp')
    (hfreep : ∃ q, q < sp'.capacity_ ∧
      (PrehashMap.slot sp'.map q).state = BucketState.FREE) :
    ((DenseHashMap.Get hashK nullv s' K).1 = GetResult.ok nullv ∧
      (∀ K' V', K' ≠ K → DenseHasEntry s K' V' →
        (DenseHashMap.Get hashK nullv s' K').1 = GetResult.ok V')) ∧
    ((PrehashMap.Get nullv sp' hashp).1 = GetResult.ok nullv ∧
      (∀ H' V', H' ≠ hashp → PrehashHasEntry sp H' V' →
        (PrehashMap.Get nullv sp' H').1 = GetResult.ok V')) := by
  obtain ⟨hInv, hnd⟩ := denseCleanReachable_props hs
  obtain ⟨hInvp, hndp⟩ := prehashCleanReachable_props hsp
  obtain ⟨hInv', -, -, -, -, -, hB⟩ := denseRemove_spec hashK hInv hrem
  obtain ⟨hnd', hgone, hEiff, -⟩ := hB hnd
  obtain ⟨hInvp', -, -, -, -, -, hBp⟩ := prehashRemove_spec hInvp hremp
  obtain ⟨hndp', hgonep, hEiffp, -⟩ := hBp hndp
  refine ⟨⟨?_, ?_⟩, ?_, ?_⟩
  · exact denseGet_absent hashK nullv hInv'
      (hgone (denseLive_of_hasEntry hE)) hfree
  · intro K' V' hK' hE'
    exact denseGet_found hashK nullv hInv' hnd'
      ((hEiff K' V' hK').mpr hE')
  · exact prehashGet_absent nullv hInvp'
      (hgonep (prehashLive_of_hasEntry hEp)) hfreep
  · intro H' V' hH' hE'
    exact prehashGet_found nullv hInvp' hndp'
      ((hEiffp H' V' hH').mpr hE')

theorem claim_C7_witness :
    ((DenseHashMap.Get (fun k => k) 0
        (⟨[⟨BucketState.REMOVED, 0, 7⟩, ⟨BucketState.FREE, 0, 0⟩], 2, 0⟩ :
          DenseHashMap Nat Nat) 0).1 = GetResult.ok 0 ∧
      (∀ K' V', K' ≠ 0 →
        DenseHasEntry
          (⟨[⟨BucketState.TAKEN, 0, 7⟩, ⟨BucketState.FREE, 0, 0⟩], 2, 1⟩ :
            DenseHashMap Nat Nat) K' V' →
        (DenseHashMap.Get (fun k => k) 0
          (⟨[⟨BucketState.REMOVED, 0, 7⟩, ⟨BucketState.FREE, 0, 0⟩], 2,
            0⟩ : DenseHashMap Nat Nat) K').1 = GetResult.ok V')) ∧
    ((PrehashMap.Get 0
        (⟨[⟨BucketState.REMOVED, 0, 7⟩, ⟨BucketState.FREE, 0, 0⟩], 2, 0⟩ :
          PrehashMap Nat) 0).1 = GetResult.ok 0 ∧
      (∀ H' V', H' ≠ 0 →
        PrehashHasEntry
          (⟨[⟨BucketState.TAKEN, 0, 7⟩, ⟨BucketState.FREE, 0, 0⟩], 2, 1⟩ :
            PrehashMap Nat) H' V' →
        (PrehashMap.Get 0
          (⟨[⟨BucketState.REMOVED, 0, 7⟩, ⟨BucketState.FREE, 0, 0⟩], 2,
            0⟩ : PrehashMap Nat) H').1 = GetResult.ok V')) :=
  claim_C7 (fun k => k) 0
    (DenseCleanReachable.ins 2 (DenseCleanReachable.init 1)
      ((denseFresh_spec (fun k => k) 2 0 1 rfl).2.2.2.1 0)
      (show DenseHashMap.Insert (fun k => k) 2
        (DenseHashMap.init 2 : DenseHashMap Nat Nat) 0 7 = some (true,
          ⟨[⟨BucketState.TAKEN, 0, 7⟩, ⟨BucketState.FREE, 0, 0⟩], 2, 1⟩)
        by decide))
    (⟨0, by decide, by decide⟩ : DenseHasEntry
      (⟨[⟨BucketState.TAKEN, 0, 7⟩, ⟨BucketState.FREE, 0, 0⟩], 2, 1⟩ :
        DenseHashMap Nat Nat) 0 7)
    (show DenseHashMap.Remove (fun k => k)
      (⟨[⟨BucketState.TAKEN, 0, 7⟩, ⟨BucketState.FREE, 0, 0⟩], 2, 1⟩ :
        DenseHashMap Nat Nat) 0 = some
        ⟨[⟨BucketState.REMOVED, 0, 7⟩, ⟨BucketState.FREE, 0, 0⟩], 2, 0⟩
      by decide)
    ⟨1, by decide, by decide⟩
    (PrehashCleanReachable.ins 2 (PrehashCleanReachable.init 1)
      ((prehashFresh_spec 2 0 1 rfl).2.2.2.1 0)
      (show PrehashMap.Insert 2 (PrehashMap.init 2 : PrehashMap Nat) 0 7 =
        some (true,
          ⟨[⟨BucketState.TAKEN, 0, 7⟩, ⟨BucketState.FREE, 0, 0⟩], 2, 1⟩)
        by decide))
    (⟨0, by decide, by decide⟩ : PrehashHasEntry
      (⟨[⟨BucketState.TAKEN, 0, 7⟩, ⟨BucketState.FREE, 0, 0⟩], 2, 1⟩ :
        PrehashMap Nat) 0 7)
    (show PrehashMap.Remove
      (⟨[⟨BucketState.TAKEN, 0, 7⟩, ⟨BucketState.FREE, 0, 0⟩], 2, 1⟩ :
        PrehashMap Nat) 0 = some
        ⟨[⟨BucketState.REMOVED, 0, 7⟩, ⟨BucketState.FREE, 0, 0⟩], 2, 0⟩
      by decide)
    ⟨1, by decide, by decide⟩

/-- Every bucket state that is neither FREE nor REMOVED is TAKEN. -/
theorem bucketState_taken_of_ne (st : BucketState)
    (h1 : st ≠ BucketState.FREE) (h2 : st ≠ BucketState.REMOVED) :
    st = BucketState.TAKEN := by
  cases st
  · exact absurd rfl h1
  · rfl
  · exact absurd rfl h2

/-- C5 (amended): the unconditional claim fails — an `Insert` of a live key
can return `true` when a tombstone precedes the key on its probe path
(`claim_C5_cex`) and a growth triggered before the duplicate check mutates
the table even when `false` is returned.  What holds, for both variants:
(1) if every slot on the probe run up to the live key is TAKEN and no
growth triggers, `Insert` returns `false` and leaves the table exactly
unchanged; and (2) inserting the same key twice in a row returns `true`
then `false`, with the stored value still the first one. -/
theorem claim_C5 (hashK : Key → Nat) :
    (∀ (s : DenseHashMap Key Value) (K : Key) (W V' : Value) (fuel : Nat),
      DenseCleanReachable hashK s →
      s.count_ ≤ s.capacity_ / 2 →
      (∃ q, q < s.capacity_ ∧
        DenseHashMap.slot s.map q = ⟨BucketState.TAKEN, K, W⟩ ∧
        (∀ j, j < probeDist s.capacity_ (hashK K % s.capacity_) q →
          (DenseHashMap.slot s.map
            ((hashK K % s.capacity_ + j) % s.capacity_)).state =
            BucketState.TAKEN)) →
      DenseHashMap.Insert hashK (fuel + 1) s K V' = some (false, s)) ∧
    (∀ (s : DenseHashMap Key Value) (K : Key) (V V' : Value)
       (f₁ f₂ : Nat) (b₁ b₂ : Bool) (s₁ s₂ : DenseHashMap Key Value),
      DenseCleanReachable hashK s → ¬ DenseLive s K →
      DenseHashMap.Insert hashK f₁ s K V = some (b₁, s₁) →
      DenseHashMap.Insert hashK f₂ s₁ K V' = some (b₂, s₂) →
      b₁ = true ∧ b₂ = false ∧ DenseHasEntry s₂ K V) ∧
    (∀ (s : PrehashMap Value) (H : Nat) (W V' : Value) (fuel : Nat),
      PrehashCleanReachable s →
      s.count_ ≤ s.capacity_ / 2 →
      (∃ q, q < s.capacity_ ∧
        PrehashMap.slot s.map q = ⟨BucketState.TAKEN, H, W⟩ ∧
        (∀ j, j < probeDist s.capacity_ (H % s.capacity_) q →
          (PrehashMap.slot s.map
            ((H % s.capacity_ + j) % s.capacity_)).state =
            BucketState.TAKEN)) →
      PrehashMap.Insert (fuel + 1) s H V' = some (false, s)) ∧
    (∀ (s : PrehashMap Value) (H : Nat) (V V' : Value)
       (f₁ f₂ : Nat) (b₁ b₂ : Bool) (s₁ s₂ : PrehashMap Value),
      PrehashCleanReachable s → ¬ PrehashLive s H →
      PrehashMap.Insert f₁ s H V = some (b₁, s₁) →
      PrehashMap.Insert f₂ s₁ H V' = some (b₂, s₂) →
      b₁ = true ∧ b₂ = false ∧ PrehashHasEntry s₂ H V) := by
  refine ⟨?_, ?_, ?_, ?_⟩
  · intro s K W V' fuel hs hsmall hq
    obtain ⟨hInv, hnd⟩ := denseCleanReachable_props hs
    exact denseInsert_dupPath hashK V' fuel hInv hnd hsmall hq
  · intro s K V V' f₁ f₂ b₁ b₂ s₁ s₂ hs hnl h₁ h₂
    obtain ⟨hInv, hnd⟩ := denseCleanReachable_props hs
    obtain ⟨hb₁, hInv₁, hnd₁, -, hE₁, -, -, -, hplace₁⟩ :=
      denseInsert_specClean hashK hInv hnd hnl h₁
    refine ⟨hb₁, ?_⟩
    cases f₂ with
    | zero => rw [DenseHashMap.Insert] at h₂; cases h₂
    | succ g =>
      rw [denseInsert_succ] at h₂
      by_cases hg : s₁.count_ > s₁.capacity_ / 2
      · rw [if_pos hg] at h₂
        obtain ⟨sg, hgrow, hcore⟩ := Option.bind_eq_some.mp h₂
        obtain ⟨hInvg, hcapg, hexg, hndg, hNTg, hEiffg, hLiffg⟩ :=
          denseGrow_specB hashK hInv₁ hnd₁ hgrow
        have hEg : DenseHasEntry sg K V := (hEiffg K V).mpr hE₁
        obtain ⟨q, hq, hqpair⟩ := hEg
        have hqT : (DenseHashMap.slot sg.map q).state =
            BucketState.TAKEN := by rw [hqpair]
        have hqK : (DenseHashMap.slot sg.map q).key = K := by rw [hqpair]
        have hpath : ∀ j, j < probeDist sg.capacity_
            (hashK K % sg.capacity_) q →
            (DenseHashMap.slot sg.map
              ((hashK K % sg.capacity_ + j) % sg.capacity_)).state =
              BucketState.TAKEN := by
          intro j hj
          have h1 := hInvg.path q hq hqT j (by rw [hqK]; exact hj)
          rw [hqK] at h1
          exact bucketState_taken_of_ne _ h1
            (hNTg _ (Nat.mod_lt _ (denseInv_cap_pos hInvg)))
        have hdup := denseInsertCore_dupPath hashK V' hInvg hndg
          ⟨q, hq, hqpair, hpath⟩
        rw [hdup] at hcore
        injection hcore with hcore
        rw [Prod.mk.injEq] at hcore
        obtain ⟨hb₂, hs₂⟩ := hcore
        refine ⟨hb₂.symm, ?_⟩
        rw [← hs₂]
        exact ⟨q, hq, hqpair⟩
      · rw [if_neg hg, Option.some_bind] at h₂
        obtain ⟨p, hp, hppair, hppath⟩ := hplace₁
        have hdup := denseInsertCore_dupPath hashK V' hInv₁ hnd₁
          ⟨p, hp, hppair, hppath⟩
        rw [hdup] at h₂
        injection h₂ with h₂
        rw [Prod.mk.injEq] at h₂
        obtain ⟨hb₂, hs₂⟩ := h₂
        refine ⟨hb₂.symm, ?_⟩
        rw [← hs₂]
        exact hE₁
  · intro s H W V' fuel hs hsmall hq
    obtain ⟨hInv, hnd⟩ := prehashCleanReachable_props hs
    rw [prehashInsert_succ, if_neg (by omega), Option.some_bind]
    exact prehashInsertCore_dupPath V' hInv hnd hq
  · intro s H V V' f₁ f₂ b₁ b₂ s₁ s₂ hs hnl h₁ h₂
    obtain ⟨hInv, hnd⟩ := prehashCleanReachable_props hs
    obtain ⟨hInv₁, hnd₁, hE₁, -, -, -, -, hb₁, -, hplace₁⟩ :=
      prehashInsert_specClean _ _ _ _ _ _ hInv hnd hnl h₁
    refine ⟨hb₁, ?_⟩
    cases f₂ with
    | zero => rw [PrehashMap.Insert] at h₂; cases h₂
    | succ g =>
      rw [prehashInsert_succ] at h₂
      by_cases hg : s₁.count_ > s₁.capacity_ / 2
      · rw [if_pos hg] at h₂
        obtain ⟨sg, hgrow, hcore⟩ := Option.bind_eq_some.mp h₂
        obtain ⟨kk₁, hck₁⟩ := hInv₁.pow
        rw [PrehashMap.Grow] at hgrow
        have hfresh := (prehashFresh_spec
          (s₁.capacity_ * 2) s₁.count_ (kk₁ + 1) (by rw [hck₁]; ring) :
          PrehashInv (⟨List.replicate (s₁.capacity_ * 2)
              PrehashMap.emptyPair, s₁.capacity_ * 2, s₁.count_⟩ :
            PrehashMap Value) ∧ _)
        obtain ⟨hInvgA, hcapgA, -⟩ := prehashReinsert_specA
          (fun a hh v => PrehashMap.Insert g a hh v)
          (fun a hh v r hInva hr => by
            obtain ⟨r1, r2⟩ := r
            obtain ⟨x1, x2, x3, -⟩ :=
              prehashInsert_specA g a hh v r1 r2 hInva hr
            exact ⟨x1, x2, x3⟩)
          s₁.map
          ⟨List.replicate (s₁.capacity_ * 2) PrehashMap.emptyPair,
            s₁.capacity_ * 2, s₁.count_⟩ sg hgrow hfresh.1
        obtain ⟨-, hndg, hNTg', hEiffg, hLiffg⟩ :=
          prehashReinsert_specB
            (fun a hh v => PrehashMap.Insert g a hh v)
            (fun a hh v b2 s2 hInva hnda hnla hr => by
              obtain ⟨x1, x2, x3, x4, x5, x6, x7, -⟩ :=
                prehashInsert_specClean g a hh v b2 s2 hInva hnda hnla hr
              exact ⟨x1, x2, x3, x4, x5, x6, x7⟩)
            s₁.map
            ⟨List.replicate (s₁.capacity_ * 2) PrehashMap.emptyPair,
              s₁.capacity_ * 2, s₁.count_⟩ sg hgrow hfresh.1 hfresh.2.1
            (prehashNoDup_pairwise hInv₁ hnd₁)
            (fun pr hmem hT => hfresh.2.2.2.1 pr.hash)
        have hNTg : PrehashNoTomb sg := hNTg' hfresh.2.2.1
        have hEg : PrehashHasEntry sg H V := by
          rw [hEiffg H V]
          exact Or.inr ((prehashHasEntry_iff_mem hInv₁ H V).mp hE₁)
        obtain ⟨q, hq, hqpair⟩ := hEg
        have hqT : (PrehashMap.slot sg.map q).state =
            BucketState.TAKEN := by rw [hqpair]
        have hqH : (PrehashMap.slot sg.map q).hash = H := by rw [hqpair]
        have hpath : ∀ j, j < probeDist sg.capacity_
            (H % sg.capacity_) q →
            (PrehashMap.slot sg.map
              ((H % sg.capacity_ + j) % sg.capacity_)).state =
              BucketState.TAKEN := by
          intro j hj
          have h1 := hInvgA.path q hq hqT j (by rw [hqH]; exact hj)
          rw [hqH] at h1
          exact bucketState_taken_of_ne _ h1
            (hNTg _ (Nat.mod_lt _ (prehashInv_cap_pos hInvgA)))
        have hdup := prehashInsertCore_dupPath V' hInvgA hndg
          ⟨q, hq, hqpair, hpath⟩
        rw [hdup] at hcore
        injection hcore with hcore
        rw [Prod.mk.injEq] at hcore
        obtain ⟨hb₂, hs₂⟩ := hcore
        refine ⟨hb₂.symm, ?_⟩
        rw [← hs₂]
        exact ⟨q, hq, hqpair⟩
      · rw [if_neg hg, Option.some_bind] at h₂
        obtain ⟨p, hp, hppair, hppath⟩ := hplace₁
        have hdup := prehashInsertCore_dupPath V' hInv₁ hnd₁
          ⟨p, hp, hppair, hppath⟩
        rw [hdup] at h₂
        injection h₂ with h₂
        rw [Prod.mk.injEq] at h₂
        obtain ⟨hb₂, hs₂⟩ := h₂
        refine ⟨hb₂.symm, ?_⟩
        rw [← hs₂]
        exact hE₁

theorem claim_C5_witness :
    (DenseHashMap.Insert (fun k => k) 1
      (⟨[⟨BucketState.TAKEN, 0, 7⟩, ⟨BucketState.FREE, 0, 0⟩], 2, 1⟩ :
        DenseHashMap Nat Nat) 0 9 = some (false,
      ⟨[⟨BucketState.TAKEN, 0, 7⟩, ⟨BucketState.FREE, 0, 0⟩], 2, 1⟩)) ∧
    (true = true ∧ false = false ∧ DenseHasEntry
      (⟨[⟨BucketState.TAKEN, 0, 7⟩, ⟨BucketState.FREE, 0, 0⟩], 2, 1⟩ :
        DenseHashMap Nat Nat) 0 7) ∧
    (PrehashMap.Insert 1
      (⟨[⟨BucketState.TAKEN, 0, 7⟩, ⟨BucketState.FREE, 0, 0⟩], 2, 1⟩ :
        PrehashMap Nat) 0 9 = some (false,
      ⟨[⟨BucketState.TAKEN, 0, 7⟩, ⟨BucketState.FREE, 0, 0⟩], 2, 1⟩)) ∧
    (true = true ∧ false = false ∧ PrehashHasEntry
      (⟨[⟨BucketState.TAKEN, 0, 7⟩, ⟨BucketState.FREE, 0, 0⟩], 2, 1⟩ :
        PrehashMap Nat) 0 7) := by
  refine ⟨?_, ?_, ?_, ?_⟩
  · exact (claim_C5 (fun k => k)).1
      (⟨[⟨BucketState.TAKEN, 0, 7⟩, ⟨BucketState.FREE, 0, 0⟩], 2, 1⟩ :
        DenseHashMap Nat Nat) 0 7 9 0
      (DenseCleanReachable.ins 2 (DenseCleanReachable.init 1)
        ((denseFresh_spec (fun k => k) 2 0 1 rfl).2.2.2.1 0)
        (show DenseHashMap.Insert (fun k => k) 2
          (DenseHashMap.init 2 : DenseHashMap Nat Nat) 0 7 = some (true,
            ⟨[⟨BucketState.TAKEN, 0, 7⟩, ⟨BucketState.FREE, 0, 0⟩], 2, 1⟩)
          by decide))
      (by decide)
      ⟨0, by decide, by decide, by intro j hj; simp [probeDist] at hj⟩
  · exact (claim_C5 (fun k => k)).2.1
      (DenseHashMap.init 2 : DenseHashMap Nat Nat) 0 7 9 2 1 true false
      (⟨[⟨BucketState.TAKEN, 0, 7⟩, ⟨BucketState.FREE, 0, 0⟩], 2, 1⟩ :
        DenseHashMap Nat Nat)
      (⟨[⟨BucketState.TAKEN, 0, 7⟩, ⟨BucketState.FREE, 0, 0⟩], 2, 1⟩ :
        DenseHashMap Nat Nat)
      (DenseCleanReachable.init 1)
      ((denseFresh_spec (fun k => k) 2 0 1 rfl).2.2.2.1 0)
      (by decide) (by decide)
  · exact (claim_C5 (fun k => k)).2.2.1
      (⟨[⟨BucketState.TAKEN, 0, 7⟩, ⟨BucketState.FREE, 0, 0⟩], 2, 1⟩ :
        PrehashMap Nat) 0 7 9 0
      (PrehashCleanReachable.ins 2 (PrehashCleanReachable.init 1)
        ((prehashFresh_spec 2 0 1 rfl).2.2.2.1 0)
        (show PrehashMap.Insert 2 (PrehashMap.init 2 : PrehashMap Nat) 0 7 =
          some (true,
            ⟨[⟨BucketState.TAKEN, 0, 7⟩, ⟨BucketState.FREE, 0, 0⟩], 2, 1⟩)
          by decide))
      (by decide)
      ⟨0, by decide, by decide, by intro j hj; simp [probeDist] at hj⟩
  · exact (claim_C5 (fun k => k)).2.2.2
      (PrehashMap.init 2 : PrehashMap Nat) 0 7 9 2 1 true false
      (⟨[⟨BucketState.TAKEN, 0, 7⟩, ⟨BucketState.FREE, 0, 0⟩], 2, 1⟩ :
        PrehashMap Nat)
      (⟨[⟨BucketState.TAKEN, 0, 7⟩, ⟨BucketState.FREE, 0, 0⟩], 2, 1⟩ :
        PrehashMap Nat)
      (PrehashCleanReachable.init 1)
      ((prehashFresh_spec 2 0 1 rfl).2.2.2.1 0)
      (by decide) (by decide)

/-! ## Operation traces and the round-trip property -/

/-- Execution of an insert/remove sequence on a `DenseHashMap`; each step
is an arbitrary terminating run of the corresponding source operation. -/
inductive DenseExec (hashK : Key → Nat) :
    DenseHashMap Key Value → List (DOp Key Value) →
    DenseHashMap Key Value → Prop where
  | nil {s : DenseHashMap Key Value} : DenseExec hashK s [] s
  | ins {s s1 s2 : DenseHashMap Key Value} (fuel : Nat) {key : Key}
      {value : Value} {b : Bool} {ops : List (DOp Key Value)} :
      DenseHashMap.Insert hashK fuel s key value = some (b, s1) →
      DenseExec hashK s1 ops s2 →
      DenseExec hashK s (DOp.ins key value :: ops) s2
  | rem {s s1 s2 : DenseHashMap Key Value} {key : Key}
      {ops : List (DOp Key Value)} :
      DenseHashMap.Remove hashK s key = some s1 →
      DenseExec hashK s1 ops s2 →
      DenseExec hashK s (DOp.rem key :: ops) s2

/-- Execution of an insert/remove sequence on a `PrehashMap`. -/
inductive PrehashExec :
    PrehashMap Value → List (POp Value) → PrehashMap Value → Prop where
  | nil {s : PrehashMap Value} : PrehashExec s [] s
  | ins {s s1 s2 : PrehashMap Value} (fuel : Nat) {hash : Nat}
      {value : Value} {b : Bool} {ops : List (POp Value)} :
      PrehashMap.Insert fuel s hash value = some (b, s1) →
      PrehashExec s1 ops s2 →
      PrehashExec s (POp.ins hash value :: ops) s2
  | rem {s s1 s2 : PrehashMap Value} {hash : Nat}
      {ops : List (POp Value)} :
      PrehashMap.Remove s hash = some s1 →
      PrehashExec s1 ops s2 →
      PrehashExec s (POp.rem hash :: ops) s2

/-- The keys inserted by a sequence of operations. -/
def dInsKeys : List (DOp Key Value) → List Key
  | [] => []
  | DOp.ins k _ :: ops => k :: dInsKeys ops
  | DOp.rem _ :: ops => dInsKeys ops

/-- The hashes inserted by a sequence of operations. -/
def pInsKeys : List (POp Value) → List Nat
  | [] => []
  | POp.ins h _ :: ops => h :: pInsKeys ops
  | POp.rem _ :: ops => pInsKeys ops

theorem dInsKeys_append (l1 l2 : List (DOp Key Value)) :
    dInsKeys (l1 ++ l2) = dInsKeys l1 ++ dInsKeys l2 := by
  induction l1 with
  | nil => rfl
  | cons op rest ih =>
    cases op with
    | ins k v => simp [dInsKeys, ih]
    | rem k => simp [dInsKeys, ih]

theorem pInsKeys_append (l1 l2 : List (POp Value)) :
    pInsKeys (l1 ++ l2) = pInsKeys l1 ++ pInsKeys l2 := by
  induction l1 with
  | nil => rfl
  | cons op rest ih =>
    cases op with
    | ins h v => simp [pInsKeys, ih]
    | rem h => simp [pInsKeys, ih]

theorem denseExec_append {hashK : Key → Nat} :
    ∀ (l1 : List (DOp Key Value)) {l2 : List (DOp Key Value)}
      {s s' : DenseHashMap Key Value},
    DenseExec hashK s (l1 ++ l2) s' →
    ∃ smid, DenseExec hashK s l1 smid ∧ DenseExec hashK smid l2 s' := by
  intro l1
  induction l1 with
  | nil => intro l2 s s' h; exact ⟨s, DenseExec.nil, h⟩
  | cons op rest ih =>
    intro l2 s s' h
    cases h with
    | ins fuel hins hrest =>
      obtain ⟨smid, h1, h2⟩ := ih hrest
      exact ⟨smid, DenseExec.ins fuel hins h1, h2⟩
    | rem hrem hrest =>
      obtain ⟨smid, h1, h2⟩ := ih hrest
      exact ⟨smid, DenseExec.rem hrem h1, h2⟩

theorem prehashExec_append :
    ∀ (l1 : List (POp Value)) {l2 : List (POp Value)}
      {s s' : PrehashMap Value},
    PrehashExec s (l1 ++ l2) s' →
    ∃ smid, PrehashExec s l1 smid ∧ PrehashExec smid l2 s' := by
  intro l1
  induction l1 with
  | nil => intro l2 s s' h; exact ⟨s, PrehashExec.nil, h⟩
  | cons op rest ih =>
    intro l2 s s' h
    cases h with
    | ins fuel hins hrest =>
      obtain ⟨smid, h1, h2⟩ := ih hrest
      exact ⟨smid, PrehashExec.ins fuel hins h1, h2⟩
    | rem hrem hrest =>
      obtain ⟨smid, h1, h2⟩ := ih hrest
      exact ⟨smid, PrehashExec.rem hrem h1, h2⟩

/-- Tracking lemma for Dense traces whose inserted keys are distinct and
initially not live: the invariants persist, no new liveness appears for
untouched keys, and untouched entries survive. -/
theorem denseExec_track (hashK : Key → Nat) :
    ∀ (ops : List (DOp Key Value)) (s s' : DenseHashMap Key Value),
    DenseExec hashK s ops s' →
    DenseInv hashK s → DenseNoDup s →
    (dInsKeys ops).Pairwise (fun a b => a ≠ b) →
    (∀ k ∈ dInsKeys ops, ¬ DenseLive s k) →
    DenseInv hashK s' ∧ DenseNoDup s' ∧
    (∀ k, k ∉ dInsKeys ops → ¬ DenseLive s k → ¬ DenseLive s' k) ∧
    (∀ K V, DenseHasEntry s K V → DOp.rem K ∉ ops →
      K ∉ dInsKeys ops → DenseHasEntry s' K V) := by
  intro ops
  induction ops with
  | nil =>
    intro s s' h hInv hnd hpw hkeys
    cases h
    exact ⟨hInv, hnd, fun k _ hh => hh, fun K V hE _ _ => hE⟩
  | cons op rest ih =>
    intro s s' h hInv hnd hpw hkeys
    cases op with
    | ins k v =>
      cases h with
      | ins fuel hins hrest =>
        rename_i s1 b
        have hkeyseq : dInsKeys (DOp.ins k v :: rest) =
            k :: dInsKeys rest := rfl
        rw [hkeyseq] at hpw hkeys
        have hpwparts := List.pairwise_cons.mp hpw
        have hnlk : ¬ DenseLive s k :=
          hkeys k (List.mem_cons_self _ _)
        obtain ⟨hb, hInv1, hnd1, -, hE1, -, hEiff1, hLiff1, -⟩ :=
          denseInsert_specClean hashK hInv hnd hnlk hins
        have hkeys1 : ∀ k' ∈ dInsKeys rest, ¬ DenseLive s1 k' := by
          intro k' hk'
          have hne : k' ≠ k := fun hh =>
            hpwparts.1 k' hk' hh.symm
          rw [hLiff1 k' hne]
          exact hkeys k' (List.mem_cons_of_mem _ hk')
        obtain ⟨hInv', hnd', hlive', hE'⟩ :=
          ih _ _ hrest hInv1 hnd1 hpwparts.2 hkeys1
        refine ⟨hInv', hnd', ?_, ?_⟩
        · intro k₀ hk₀ hnl₀
          rw [hkeyseq] at hk₀
          have hne : k₀ ≠ k := fun hh => hk₀ (hh ▸ List.mem_cons_self _ _)
          refine hlive' k₀ (fun hh => hk₀ (List.mem_cons_of_mem _ hh)) ?_
          rw [hLiff1 k₀ hne]
          exact hnl₀
        · intro K V hE hrem hK
          rw [hkeyseq] at hK
          have hne : K ≠ k := fun hh => hK (hh ▸ List.mem_cons_self _ _)
          refine hE' K V ?_ (fun hh => hrem (List.mem_cons_of_mem _ hh))
            (fun hh => hK (List.mem_cons_of_mem _ hh))
          rw [hEiff1 K V hne]
          exact hE
    | rem k =>
      cases h with
      | rem hrem hrest =>
        have hkeyseq : dInsKeys (DOp.rem k :: rest) = dInsKeys rest := rfl
        rw [hkeyseq] at hpw hkeys
        obtain ⟨hInv1, -, -, hshrink, -, -, hB⟩ :=
          denseRemove_spec hashK hInv hrem
        obtain ⟨hnd1, -, hEiff1, -⟩ := hB hnd
        have hkeys1 : ∀ k' ∈ dInsKeys rest, ¬ DenseLive _ k' :=
          fun k' hk' hh => hkeys k' hk' (hshrink k' hh)
        obtain ⟨hInv', hnd', hlive', hE'⟩ :=
          ih _ _ hrest hInv1 hnd1 hpw hkeys1
        refine ⟨hInv', hnd', ?_, ?_⟩
        · intro k₀ hk₀ hnl₀
          rw [hkeyseq] at hk₀
          exact hlive' k₀ hk₀ (fun hh => hnl₀ (hshrink k₀ hh))
        · intro K V hE hremK hK
          rw [hkeyseq] at hK
          have hne : K ≠ k := by
            intro hh
            exact hremK (by rw [hh]; exact List.mem_cons_self _ _)
          refine hE' K V ?_ (fun hh => hremK (List.mem_cons_of_mem _ hh))
            hK
          rw [hEiff1 K V hne]
          exact hE

/-- Tracking lemma for Prehash traces. -/
theorem prehashExec_track :
    ∀ (ops : List (POp Value)) (s s' : PrehashMap Value),
    PrehashExec s ops s' →
    PrehashInv s → PrehashNoDup s →
    (pInsKeys ops).Pairwise (fun a b => a ≠ b) →
    (∀ k ∈ pInsKeys ops, ¬ PrehashLive s k) →
    PrehashInv s' ∧ PrehashNoDup s' ∧
    (∀ k, k ∉ pInsKeys ops → ¬ PrehashLive s k → ¬ PrehashLive s' k) ∧
    (∀ H V, PrehashHasEntry s H V → POp.rem H ∉ ops →
      H ∉ pInsKeys ops → PrehashHasEntry s' H V) := by
  intro ops
  induction ops with
  | nil =>
    intro s s' h hInv hnd hpw hkeys
    cases h
    exact ⟨hInv, hnd, fun k _ hh => hh, fun H V hE _ _ => hE⟩
  | cons op rest ih =>
    intro s s' h hInv hnd hpw hkeys
    cases op with
    | ins k v =>
      cases h with
      | ins fuel hins hrest =>
        rename_i s1 b
        have hkeyseq : pInsKeys (POp.ins k v :: rest) =
            k :: pInsKeys rest := rfl
        rw [hkeyseq] at hpw hkeys
        have hpwparts := List.pairwise_cons.mp hpw
        have hnlk : ¬ PrehashLive s k :=
          hkeys k (List.mem_cons_self _ _)
        obtain ⟨hInv1, hnd1, hE1, -, hEiff1, hLiff1, -, hb, -, -⟩ :=
          prehashInsert_specClean _ _ _ _ _ _ hInv hnd hnlk hins
        have hkeys1 : ∀ k' ∈ pInsKeys rest, ¬ PrehashLive s1 k' := by
          intro k' hk'
          have hne : k' ≠ k := fun hh =>
            hpwparts.1 k' hk' hh.symm
          rw [hLiff1 k' hne]
          exact hkeys k' (List.mem_cons_of_mem _ hk')
        obtain ⟨hInv', hnd', hlive', hE'⟩ :=
          ih _ _ hrest hInv1 hnd1 hpwparts.2 hkeys1
        refine ⟨hInv', hnd', ?_, ?_⟩
        · intro k₀ hk₀ hnl₀
          rw [hkeyseq] at hk₀
          have hne : k₀ ≠ k := fun hh => hk₀ (hh ▸ List.mem_cons_self _ _)
          refine hlive' k₀ (fun hh => hk₀ (List.mem_cons_of_mem _ hh)) ?_
          rw [hLiff1 k₀ hne]
          exact hnl₀
        · intro H V hE hrem hK
          rw [hkeyseq] at hK
          have hne : H ≠ k := fun hh => hK (hh ▸ List.mem_cons_self _ _)
          refine hE' H V ?_ (fun hh => hrem (List.mem_cons_of_mem _ hh))
            (fun hh => hK (List.mem_cons_of_mem _ hh))
          rw [hEiff1 H V hne]
          exact hE
    | rem k =>
      cases h with
      | rem hrem hrest =>
        have hkeyseq : pInsKeys (POp.rem k :: rest) = pInsKeys rest := rfl
        rw [hkeyseq] at hpw hkeys
        obtain ⟨hInv1, -, -, hshrink, -, -, hB⟩ :=
          prehashRemove_spec hInv hrem
        obtain ⟨hnd1, -, hEiff1, -⟩ := hB hnd
        have hkeys1 : ∀ k' ∈ pInsKeys rest, ¬ PrehashLive _ k' :=
          fun k' hk' hh => hkeys k' hk' (hshrink k' hh)
        obtain ⟨hInv', hnd', hlive', hE'⟩ :=
          ih _ _ hrest hInv1 hnd1 hpw hkeys1
        refine ⟨hInv', hnd', ?_, ?_⟩
        · intro k₀ hk₀ hnl₀
          rw [hkeyseq] at hk₀
          exact hlive' k₀ hk₀ (fun hh => hnl₀ (hshrink k₀ hh))
        · intro H V hE hremK hK
          rw [hkeyseq] at hK
          have hne : H ≠ k := by
            intro hh
            exact hremK (by rw [hh]; exact List.mem_cons_self _ _)
          refine hE' H V ?_ (fun hh => hremK (List.mem_cons_of_mem _ hh))
            hK
          rw [hEiff1 H V hne]
          exact hE

/-- **C1** (confirmed): round-trip lookup.  Starting from a table constructed
with a power-of-two capacity, run any terminating sequence of Insert/Remove
operations whose inserted keys are pairwise distinct.  If the sequence
inserts key `K` with value `V` and never removes `K` afterwards, then `Get(K)`
on the final state returns exactly `V` — for both `DenseHashMap` (with an
arbitrary hash function) and `PrehashMap`, across any number of intervening
growth events. -/
theorem claim_C1 (hashK : Key → Nat) (nullv : Value) :
    (∀ (kk : Nat) (pre post : List (DOp Key Value)) (K : Key) (V : Value)
      (s' : DenseHashMap Key Value),
      DenseExec hashK (DenseHashMap.init (2 ^ kk))
        (pre ++ DOp.ins K V :: post) s' →
      (dInsKeys (pre ++ DOp.ins K V :: post)).Pairwise (fun a b => a ≠ b) →
      DOp.rem K ∉ post →
      (DenseHashMap.Get hashK nullv s' K).1 = GetResult.ok V) ∧
    (∀ (kk : Nat) (pre post : List (POp Value)) (H : Nat) (V : Value)
      (s' : PrehashMap Value),
      PrehashExec (PrehashMap.init (2 ^ kk))
        (pre ++ POp.ins H V :: post) s' →
      (pInsKeys (pre ++ POp.ins H V :: post)).Pairwise (fun a b => a ≠ b) →
      POp.rem H ∉ post →
      (PrehashMap.Get nullv s' H).1 = GetResult.ok V) := by
  constructor
  · intro kk pre post K V s' hexec hpw hnorem
    rw [dInsKeys_append] at hpw
    obtain ⟨hpwpre, hpwmid, hcross⟩ := List.pairwise_append.mp hpw
    have hpwmid' : (K :: dInsKeys post).Pairwise (fun a b => a ≠ b) :=
      hpwmid
    obtain ⟨hKpost, hpwpost⟩ := List.pairwise_cons.mp hpwmid'
    obtain ⟨sa, hexecpre, hexecrest⟩ := denseExec_append pre hexec
    cases hexecrest with
    | ins fuel hins hexecpost =>
      rename_i sb b
      have hInv0 : DenseInv hashK
          (DenseHashMap.init (2 ^ kk) : DenseHashMap Key Value) :=
        (denseFresh_spec hashK (2 ^ kk) 0 kk rfl).1
      have hnd0 : DenseNoDup
          (DenseHashMap.init (2 ^ kk) : DenseHashMap Key Value) :=
        (denseFresh_spec hashK (2 ^ kk) 0 kk rfl).2.1
      have hnl0 : ∀ k, ¬ DenseLive
          (DenseHashMap.init (2 ^ kk) : DenseHashMap Key Value) k :=
        (denseFresh_spec hashK (2 ^ kk) 0 kk rfl).2.2.2.1
      obtain ⟨hInva, hnda, hlivea, -⟩ :=
        denseExec_track hashK pre _ _ hexecpre hInv0 hnd0 hpwpre
          (fun k _ => hnl0 k)
      have hKpre : K ∉ dInsKeys pre := by
        intro hmem
        exact hcross K hmem K
          (List.mem_cons_self K (dInsKeys post)) rfl
      have hnlK : ¬ DenseLive sa K := hlivea K hKpre (hnl0 K)
      obtain ⟨-, hInvb, hndb, -, hEb, -, -, hLiffb, -⟩ :=
        denseInsert_specClean hashK hInva hnda hnlK hins
      have hkeyspost : ∀ k' ∈ dInsKeys post, ¬ DenseLive sb k' := by
        intro k' hk'
        have hne : k' ≠ K := fun hh => hKpost k' hk' hh.symm
        rw [hLiffb k' hne]
        have hnotpre : k' ∉ dInsKeys pre := by
          intro hmem
          exact hcross k' hmem k' (List.mem_cons_of_mem K hk') rfl
        exact hlivea k' hnotpre (hnl0 k')
      obtain ⟨hInv', hnd', -, hEfinal⟩ :=
        denseExec_track hashK post _ _ hexecpost hInvb hndb hpwpost
          hkeyspost
      have hKnotpost : K ∉ dInsKeys post := fun hmem => hKpost K hmem rfl
      exact denseGet_found hashK nullv hInv' hnd'
        (hEfinal K V hEb hnorem hKnotpost)
  · intro kk pre post H V s' hexec hpw hnorem
    rw [pInsKeys_append] at hpw
    obtain ⟨hpwpre, hpwmid, hcross⟩ := List.pairwise_append.mp hpw
    have hpwmid' : (H :: pInsKeys post).Pairwise (fun a b => a ≠ b) :=
      hpwmid
    obtain ⟨hKpost, hpwpost⟩ := List.pairwise_cons.mp hpwmid'
    obtain ⟨sa, hexecpre, hexecrest⟩ := prehashExec_append pre hexec
    cases hexecrest with
    | ins fuel hins hexecpost =>
      rename_i sb b
      have hInv0 : PrehashInv
          (PrehashMap.init (2 ^ kk) : PrehashMap Value) :=
        (prehashFresh_spec (2 ^ kk) 0 kk rfl).1
      have hnd0 : PrehashNoDup
          (PrehashMap.init (2 ^ kk) : PrehashMap Value) :=
        (prehashFresh_spec (2 ^ kk) 0 kk rfl).2.1
      have hnl0 : ∀ k, ¬ PrehashLive
          (PrehashMap.init (2 ^ kk) : PrehashMap Value) k :=
        (prehashFresh_spec (2 ^ kk) 0 kk rfl).2.2.2.1
      obtain ⟨hInva, hnda, hlivea, -⟩ :=
        prehashExec_track pre _ _ hexecpre hInv0 hnd0 hpwpre
          (fun k _ => hnl0 k)
      have hKpre : H ∉ pInsKeys pre := by
        intro hmem
        exact hcross H hmem H
          (List.mem_cons_self H (pInsKeys post)) rfl
      have hnlK : ¬ PrehashLive sa H := hlivea H hKpre (hnl0 H)
      obtain ⟨hInvb, hndb, hEb, -, -, hLiffb, -, -, -, -⟩ :=
        prehashInsert_specClean _ _ _ _ _ _ hInva hnda hnlK hins
      have hkeyspost : ∀ k' ∈ pInsKeys post, ¬ PrehashLive sb k' := by
        intro k' hk'
        have hne : k' ≠ H := fun hh => hKpost k' hk' hh.symm
        rw [hLiffb k' hne]
        have hnotpre : k' ∉ pInsKeys pre := by
          intro hmem
          exact hcross k' hmem k' (List.mem_cons_of_mem H hk') rfl
        exact hlivea k' hnotpre (hnl0 k')
      obtain ⟨hInv', hnd', -, hEfinal⟩ :=
        prehashExec_track post _ _ hexecpost hInvb hndb hpwpost hkeyspost
      have hKnotpost : H ∉ pInsKeys post := fun hmem => hKpost H hmem rfl
      exact prehashGet_found nullv hInv' hnd'
        (hEfinal H V hEb hnorem hKnotpost)

/-- Witness for C1: the trace `[Insert(0, 7)]` on a fresh table of capacity
`2 ^ 1`, in both variants; `Get(0)` on the resulting state returns `ok 7`. -/
theorem claim_C1_witness :
    (DenseHashMap.Get (fun k => k) 0
      (⟨[⟨BucketState.TAKEN, 0, 7⟩, ⟨BucketState.FREE, 0, 0⟩], 2, 1⟩ :
        DenseHashMap Nat Nat) 0).1 = GetResult.ok 7 ∧
    (PrehashMap.Get 0
      (⟨[⟨BucketState.TAKEN, 0, 7⟩, ⟨BucketState.FREE, 0, 0⟩], 2, 1⟩ :
        PrehashMap Nat) 0).1 = GetResult.ok 7 := by
  constructor
  · exact (claim_C1 (fun k => k) 0).1 1 [] [] 0 7 _
      (DenseExec.ins 2
        (show DenseHashMap.Insert (fun k => k) 2
            (DenseHashMap.init (2 ^ 1)) 0 7 =
          some (true,
            (⟨[⟨BucketState.TAKEN, 0, 7⟩, ⟨BucketState.FREE, 0, 0⟩], 2, 1⟩ :
              DenseHashMap Nat Nat)) by decide)
        DenseExec.nil)
      (by decide) (by decide)
  · exact (claim_C1 (fun k => k) 0).2 1 [] [] 0 7 _
      (PrehashExec.ins 2
        (show PrehashMap.Insert 2 (PrehashMap.init (2 ^ 1)) 0 7 =
          some (true,
            (⟨[⟨BucketState.TAKEN, 0, 7⟩, ⟨BucketState.FREE, 0, 0⟩], 2, 1⟩ :
              PrehashMap Nat)) by decide)
        PrehashExec.nil)
      (by decide) (by decide)
